import Mathlib

/-!
Verification of the LogPress semantic log compression core.

This file gives a shallow embedding, in Lean 4, of the parts of the
LogPress/LogSim code base that the specification talks about:

* src/logsim/varint.py            (variable length integer codec)
* src/logsim/compressor.py        (zigzag, RLE, RLE v2, token pool,
                                   CompressedLog, SemanticCompressor.compress,
                                   the pattern rebuild done by
                                   SemanticCompressor.load, and
                                   SemanticCompressor.decompress)
* src/logpress/context/encoding/bwt.py  (block wise Burrows Wheeler transform)
* src/logsim/context/classification/semantic_types.py (recognizer)
* src/logpress/services/query_engine.py (query_by_severity, query_time_range)
* src/logsim/query_engine.py      (get_statistics attribute usage)

Python bytes are modelled as List Nat (elements below 256), Python int as
Nat or Int, Python exceptions as Except String, and Python dict value to id
maps as insertion ordered List String; the id of a value is its index, which
agrees with the source because the source finally converts each map to a
list sorted by id.  Wall clock fields (execution_time, compressed_at) and
floating point confidences of templates are not modelled; nothing in the
claims depends on them.  Loops whose iteration count is bounded by the
length of the input buffer are written with an explicit fuel equal to that
length plus one; the fuel never runs out because every iteration of the
corresponding Python loop consumes at least one input byte, so the value
returned in the fuel exhausted branch is irrelevant.
-/

set_option maxHeartbeats 1000000

/-! ## Varint codec, from src/logsim/varint.py -/

/-- Fueled loop of encode_varint (src/logsim/varint.py lines 18-51): while
the value is above 0x7F, emit the low seven bits with the continuation bit
0x80 set and shift right by seven; finally emit the remaining low seven
bits.  The value at least halves every iteration, so fuel equal to the
initial value never runs out; the fuel keeps the recursion structural so
that the function computes inside the kernel. -/
def encode_varint_go : Nat → Nat → List Nat
  | 0, value => [value % 128]
  | fuel + 1, value =>
    if value ≤ 0x7F then [value % 128]
    else (value % 128 + 128) :: encode_varint_go fuel (value / 128)

/-- encode_varint from src/logsim/varint.py lines 18-51. -/
def encode_varint (value : Nat) : List Nat :=
  encode_varint_go value value

/-- Loop body of decode_varint from src/logsim/varint.py lines 75-97.
Arguments: remaining bytes, current shift, accumulated result, bytes read so
far.  Mirrors the source: read a byte, or its low seven bits into the result
at the current shift, advance the shift by seven, stop when the high bit is
clear, and raise once the shift exceeds 64 while a continuation bit is still
set.  For a byte b below 256 the high bit test byte & 0x80 == 0 is exactly
b % 256 < 128, and byte & 0x7F is exactly b % 128. -/
def decode_varint_aux : List Nat → Nat → Nat → Nat → Except String (Nat × Nat)
  | [], _, _, _ => .error "Incomplete varint"
  | b :: rest, shift, acc, k =>
    let acc2 := acc + (b % 128) * 2 ^ shift
    if b % 256 < 128 then .ok (acc2, k + 1)
    else if shift + 7 > 64 then .error "Varint too large"
    else decode_varint_aux rest (shift + 7) acc2 (k + 1)

/-- decode_varint from src/logsim/varint.py lines 54-97: decode one varint
from data starting at offset, returning the value and the bytes consumed. -/
def decode_varint (data : List Nat) (offset : Nat) : Except String (Nat × Nat) :=
  decode_varint_aux (data.drop offset) 0 0 0

/-- encode_varint_list from src/logsim/varint.py lines 100-117. -/
def encode_varint_list (values : List Nat) : List Nat :=
  values.flatMap encode_varint

/-- Loop of decode_varint_list from src/logsim/varint.py lines 120-143:
decode count varints, advancing the offset by the bytes consumed. -/
def decode_varint_list_aux (data : List Nat) : Nat → Nat → Except String (List Nat)
  | _, 0 => .ok []
  | offset, n + 1 => do
    let (v, used) ← decode_varint data offset
    let rest ← decode_varint_list_aux data (offset + used) n
    .ok (v :: rest)

/-- decode_varint_list from src/logsim/varint.py lines 120-143. -/
def decode_varint_list (data : List Nat) (count : Nat) : Except String (List Nat) :=
  decode_varint_list_aux data 0 count

/-- Fueled loop decoding all consecutive varints a byte string holds,
parsing greedily until the bytes are exhausted.  This is the loop used by
SemanticCompressor.load at src/logsim/compressor.py lines 904-909 to decode
a whole byte string of varints.  Each iteration of that loop consumes at
least one byte, so fuel equal to the buffer length never runs out. -/
def decode_all_varints_go : Nat → List Nat → Except String (List Nat)
  | _, [] => .ok []
  | 0, _ :: _ => .error "Incomplete varint"
  | fuel + 1, b :: rest => do
    let (v, used) ← decode_varint_aux (b :: rest) 0 0 0
    let vs ← decode_all_varints_go fuel ((b :: rest).drop used)
    .ok (v :: vs)

/-- All consecutive varints stored in a byte string. -/
def decode_all_varints (data : List Nat) : Except String (List Nat) :=
  decode_all_varints_go data.length data

/-- Number of consecutive varints stored in a byte string. -/
def count_varints (data : List Nat) : Except String Nat :=
  (decode_all_varints data).map List.length

/-! ## Python string primitives over the character sequence

The Lean core String functions are utf8 position based and do not compute
inside the kernel, so the handful of Python string operations the source
uses are modelled directly over the character list of the string; each
agrees with the corresponding core function. -/

/-- Python str.upper (ascii case mapping as used by the source values). -/
def py_upper (s : String) : String := ⟨s.data.map Char.toUpper⟩

/-- Python str.strip: remove leading and trailing whitespace. -/
def py_strip (s : String) : String :=
  ⟨((s.data.dropWhile Char.isWhitespace).reverse.dropWhile Char.isWhitespace).reverse⟩

/-- Python str.startswith. -/
def py_starts (s t : String) : Bool := t.data.isPrefixOf s.data

/-- Python str.endswith. -/
def py_ends (s t : String) : Bool := t.data.isSuffixOf s.data

/-- Python s[1:-1]: the string without its first and last character. -/
def py_inner (s : String) : String := ⟨(s.data.drop 1).dropLast⟩

/-- Python " ".join(parts). -/
def py_join_space (parts : List String) : String :=
  ⟨(List.intersperse " " parts).flatMap String.data⟩

/-! ## Zigzag and run length codecs, from src/logsim/compressor.py -/

/-- zigzag_encode from src/logsim/compressor.py lines 52-57: a non negative
n maps to n shifted left once, a negative n maps to minus n shifted left
once, minus one. -/
def zigzag_encode (n : Int) : Nat :=
  if 0 ≤ n then 2 * n.toNat
  else 2 * (-n).toNat - 1

/-- zigzag_decode from src/logsim/compressor.py lines 60-62.  The source
computes (n >> 1) xor (-(n and 1)) on a two complement integer; xor with 0
is the identity and xor with -1 is bitwise complement x mapsto -x-1, so the
result is n / 2 for even n and -(n / 2) - 1 for odd n. -/
def zigzag_decode (n : Nat) : Int :=
  if n % 2 = 0 then (n / 2 : Nat)
  else -((n / 2 : Nat) : Int) - 1

/-- Run collection loop of encode_rle from src/logsim/compressor.py lines
65-87: starting from a current value and count, merge equal consecutive
values while the count stays below the 65535 cap, otherwise close the run
and start a new one. -/
def encode_rle_runs : Nat → Nat → List Nat → List (Nat × Nat)
  | cur, cnt, [] => [(cur, cnt)]
  | cur, cnt, v :: rest =>
    if v = cur ∧ cnt < 65535 then encode_rle_runs cur (cnt + 1) rest
    else (cur, cnt) :: encode_rle_runs v 1 rest

/-- encode_rle from src/logsim/compressor.py lines 65-87: emit each run as
a value varint followed by a count varint. -/
def encode_rle (values : List Nat) : List Nat :=
  match values with
  | [] => []
  | v :: rest =>
    (encode_rle_runs v 1 rest).flatMap fun r => encode_varint r.1 ++ encode_varint r.2

/-- Fueled loop of decode_rle from src/logsim/compressor.py lines 90-102:
while fewer than the expected number of elements have been produced and
bytes remain, read a value varint and a count varint and append count copies
of the value.  Each iteration consumes at least two bytes, so fuel equal to
the buffer length plus one never runs out. -/
def decode_rle_go : Nat → List Nat → Nat → Except String (List Nat)
  | _, _, 0 => .ok []
  | _, [], _ + 1 => .ok []
  | 0, _ :: _, _ + 1 => .error "Incomplete varint"
  | fuel + 1, b :: rest, needed + 1 => do
    let (v, used1) ← decode_varint_aux (b :: rest) 0 0 0
    let data2 := (b :: rest).drop used1
    let (c, used2) ← decode_varint_aux data2 0 0 0
    let tail ← decode_rle_go fuel (data2.drop used2) (needed + 1 - c)
    .ok (List.replicate c v ++ tail)

/-- decode_rle from src/logsim/compressor.py lines 90-102; the final result
is truncated to the expected count exactly as the source returns
result[:expected_count]. -/
def decode_rle (data : List Nat) (expected : Nat) : Except String (List Nat) :=
  (decode_rle_go (data.length + 1) data expected).map (·.take expected)

/-- Fueled loop of the greedy repeat counter shared by the two scans of
encode_rle_v2 (src/logsim/compressor.py lines 122-131 and 144-152):
starting at the front of the list, count how many times the pattern repeats
back to back.  Each iteration drops at least one element, so fuel equal to
the list length never runs out. -/
def count_repeats_go : Nat → List Nat → List Nat → Nat
  | 0, _, _ => 0
  | fuel + 1, values, pattern =>
    if pattern.length = 0 then 0
    else if pattern.length ≤ values.length ∧ values.take pattern.length = pattern then
      count_repeats_go fuel (values.drop pattern.length) pattern + 1
    else 0

/-- Greedy repeat counter of encode_rle_v2. -/
def count_repeats (values pattern : List Nat) : Nat :=
  count_repeats_go values.length values pattern

/-- Best pattern search of encode_rle_v2 (src/logsim/compressor.py lines
117-139): for each candidate pattern length from 2 up to
min(len(values) / 2 + 1, 20) exclusive, if the leading pattern repeats at
least three times, compare the approximate compressed size 1 + len + 1 with
the best so far and keep the smaller; returns (best_compression,
best_pattern_len) with best_pattern_len defaulting to 1. -/
def rle_v2_best (values : List Nat) : Option Nat × Nat :=
  (List.range' 2 (min (values.length / 2 + 1) 20 - 2)).foldl
    (fun (best : Option Nat × Nat) patternLen =>
      let repeats := count_repeats values (values.take patternLen)
      if 3 ≤ repeats then
        let size := 1 + patternLen + 1
        match best.1 with
        | none => (some size, patternLen)
        | some b => if size < b then (some size, patternLen) else best
      else best)
    (none, 1)

/-- encode_rle_v2 from src/logsim/compressor.py lines 105-169: inputs with
fewer than four elements fall back to plain RLE; otherwise, if the best
pattern search found a repeating leading pattern, emit the 0xFF marker, the
pattern length varint, the pattern value varints, the repeat count varint
and the plain RLE of the remainder; otherwise plain RLE. -/
def encode_rle_v2 (values : List Nat) : List Nat :=
  if values.length < 4 then encode_rle values
  else
    let best := rle_v2_best values
    if best.1.isSome ∧ 1 < best.2 then
      let pattern := values.take best.2
      let repeats := count_repeats values pattern
      let idx := repeats * best.2
      255 :: encode_varint best.2 ++ pattern.flatMap encode_varint ++
        encode_varint repeats ++
        (if idx < values.length then encode_rle (values.drop idx) else [])
    else encode_rle values

/-- Pattern reader of decode_rle_v2 (src/logsim/compressor.py lines
184-188): read a given number of varints, returning them together with the
remaining bytes. -/
def read_varints : List Nat → Nat → Except String (List Nat × List Nat)
  | data, 0 => .ok ([], data)
  | data, n + 1 => do
    let (v, used) ← decode_varint_aux data 0 0 0
    let (vs, rest) ← read_varints (data.drop used) n
    .ok (v :: vs, rest)

/-- decode_rle_v2 from src/logsim/compressor.py lines 172-202: if the first
byte is not the 0xFF marker decode as plain RLE; otherwise read the pattern
length, the pattern, and the repeat count, replay the pattern, and decode
any remaining bytes as plain RLE for the still missing elements; the result
is truncated to the expected count. -/
def decode_rle_v2 (data : List Nat) (expected : Nat) : Except String (List Nat) :=
  if data.head? ≠ some 255 then decode_rle data expected
  else do
    let data1 := data.drop 1
    let (patternLen, used1) ← decode_varint_aux data1 0 0 0
    let (pattern, data2) ← read_varints (data1.drop used1) patternLen
    let (repeats, used3) ← decode_varint_aux data2 0 0 0
    let data3 := data2.drop used3
    let replayed := (List.replicate repeats pattern).flatten
    if data3 ≠ [] ∧ replayed.length < expected then do
      let remaining ← decode_rle data3 (expected - replayed.length)
      .ok ((replayed ++ remaining).take expected)
    else
      .ok (replayed.take expected)

/-! ## Templates, token pool and the container, from src/logsim/compressor.py
and src/logsim/template_generator.py -/

/-- LogTemplate from src/logsim/template_generator.py lines 27-42: a pattern
of literal constants and bracketed typed placeholders, with the semantic
type per placeholder position and the member count of the structural group.
The floating point confidence and the retained example lines play no role in
compression or decompression and are not modelled. -/
structure LogTemplate where
  template_id : String
  pattern : List String
  field_types : List (Nat × String)
  match_count : Nat
deriving Repr, DecidableEq

/-- Template record stored inside the container by SemanticCompressor.compress
at src/logsim/compressor.py lines 377-385: id, field_types and match_count
only; the pattern key is absent until SemanticCompressor.load rebuilds it
from the token pool (lines 898-917), which is modelled by the Option. -/
structure StoredTemplate where
  id : String
  field_types : List (Nat × String)
  match_count : Nat
  pattern : Option (List String)
deriving Repr, DecidableEq

/-- CompressedLog from src/logsim/compressor.py lines 256-297, with every
dataclass field.  Byte strings are lists of byte values, the optional zstd
dictionary and the optional Otten template dictionaries are opaque to every
claim and kept as unit placeholders of their optionality. -/
structure CompressedLog where
  version : String := "1.0"
  templates : List StoredTemplate := []
  token_pool : List String := []
  template_token_refs : List (List Nat) := []
  zstd_dict : Option (List Nat) := none
  template_dicts_serialized : Option (List (String × List (String × Nat))) := none
  timestamps_varint : List Nat := []
  timestamp_base : Int := 0
  timestamp_count : Nat := 0
  severities_varint : List Nat := []
  severity_count : Nat := 0
  ip_addresses_varint : List Nat := []
  ip_count : Nat := 0
  messages_varint : List Nat := []
  message_count : Nat := 0
  severity_list : List String := []
  ip_list : List String := []
  message_list : List String := []
  log_index_templates_rle : List Nat := []
  log_index_fields_varint : List Nat := []
  log_index_field_counts : List Nat := []
  original_count : Nat := 0
  compressed_at : String := ""
deriving Repr, DecidableEq

/-- SemanticCompressor._get_or_create_id from src/logsim/compressor.py lines
683-687, and the token_to_id insertion of build_token_pool (lines 221-225):
the id of a value is its position in the insertion ordered list; an unknown
value is appended and receives the next id. -/
def get_or_create_id {α : Type} [DecidableEq α] (value : α) (mapping : List α) :
    Nat × List α :=
  match List.indexOf? value mapping with
  | some i => (i, mapping)
  | none => (mapping.length, mapping ++ [value])

/-- Inner token loop of build_token_pool from src/logsim/compressor.py lines
216-227: look up or append each pattern token of one template. -/
def build_refs_for (tokens : List String) (pool : List String) :
    List Nat × List String :=
  match tokens with
  | [] => ([], pool)
  | tok :: rest =>
    let (i, pool2) := get_or_create_id tok pool
    let (ids, pool3) := build_refs_for rest pool2
    (i :: ids, pool3)

/-- build_token_pool from src/logsim/compressor.py lines 205-229: global
deduplicated token list plus, per template, the token id list that rebuilds
its pattern. -/
def build_token_pool (templates : List LogTemplate) : List String × List (List Nat) :=
  match templates with
  | [] => ([], [])
  | t :: rest =>
    let (ids, pool2) := build_refs_for t.pattern []
    build_token_pool_go rest pool2 [ids]
where
  build_token_pool_go : List LogTemplate → List String → List (List Nat) →
      List String × List (List Nat)
  | [], pool, acc => (pool, acc.reverse)
  | t :: rest, pool, acc =>
    let (ids, pool2) := build_refs_for t.pattern pool
    build_token_pool_go rest pool2 (ids :: acc)

/-- Collection state of SemanticCompressor.compress (src/logsim/compressor.py
lines 387-400): timestamp base and running previous timestamp, the three
dictionary maps, the per category value streams (timestamps hold deltas, the
others hold dictionary ids) and the per line log index. -/
structure CollectSt where
  tsBase : Option Int := none
  lastTs : Int := 0
  sevMap : List String := []
  ipMap : List String := []
  msgMap : List String := []
  timestamps : List Int := []
  sevs : List Nat := []
  ips : List Nat := []
  msgs : List Nat := []
  logIndex : List (Int × List Nat) := []
deriving Repr

/-- Per field dispatch of SemanticCompressor.compress, src/logsim/compressor.py
lines 462-512 with enable_otten False: timestamps are parsed and delta
encoded, severity and status values are dictionary encoded into the
severities column, ip addresses and hosts into the ips column, and
everything else into the messages column; the field index recorded is the
position just appended to the chosen column. -/
def encode_field (parseTs : String → Int) (st : CollectSt) (fieldIndices : List Nat)
    (name value : String) : CollectSt × List Nat :=
  if py_upper name = "TIMESTAMP" then
    let ts := parseTs value
    match st.tsBase with
    | none =>
      ({ st with tsBase := some ts, lastTs := ts, timestamps := st.timestamps ++ [0] },
       fieldIndices ++ [st.timestamps.length])
    | some _ =>
      ({ st with lastTs := ts, timestamps := st.timestamps ++ [ts - st.lastTs] },
       fieldIndices ++ [st.timestamps.length])
  else if py_upper name = "SEVERITY" ∨ py_upper name = "STATUS" then
    let (i, m) := get_or_create_id value st.sevMap
    ({ st with sevMap := m, sevs := st.sevs ++ [i] }, fieldIndices ++ [st.sevs.length])
  else if py_upper name = "IP_ADDRESS" ∨ py_upper name = "HOST" then
    let (i, m) := get_or_create_id value st.ipMap
    ({ st with ipMap := m, ips := st.ips ++ [i] }, fieldIndices ++ [st.ips.length])
  else
    let (i, m) := get_or_create_id value st.msgMap
    ({ st with msgMap := m, msgs := st.msgs ++ [i] }, fieldIndices ++ [st.msgs.length])

/-- Per line loop body of SemanticCompressor.compress, src/logsim/compressor.py
lines 440-514: an unmatched line is stored whole in the messages column and
indexed with template id -1; a matched line records the index of its
template (found by template_id, defaulting to 0) and one field index per
extracted field, the fields being visited in dict insertion order. -/
def encode_line (templates : List LogTemplate)
    (matcher : String → Option (LogTemplate × List (String × String)))
    (parseTs : String → Int) (st : CollectSt) (line : String) : CollectSt :=
  match matcher line with
  | none =>
    let (msgId, m) := get_or_create_id line st.msgMap
    { st with
        msgMap := m
        msgs := st.msgs ++ [msgId]
        logIndex := st.logIndex ++ [(-1, [st.msgs.length])] }
  | some (template, fields) =>
    let tidx : Nat :=
      (templates.findIdx? (fun t => t.template_id = template.template_id)).getD 0
    let (st2, fis) := fields.foldl
      (fun (p : CollectSt × List Nat) f => encode_field parseTs p.1 p.2 f.1 f.2)
      (st, [])
    { st2 with logIndex := st2.logIndex ++ [((tidx : Int), fis)] }

/-- Field collection pass of SemanticCompressor.compress over all lines. -/
def collect_lines (templates : List LogTemplate)
    (matcher : String → Option (LogTemplate × List (String × String)))
    (parseTs : String → Int) (log_lines : List String) : CollectSt :=
  log_lines.foldl (encode_line templates matcher parseTs) {}

/-- SemanticCompressor.compress from src/logsim/compressor.py lines 324-645
with enable_otten False and the zstd dictionary training (which only runs
for at least one hundred distinct messages and does not change any claimed
field) not modelled.  The template matcher and the timestamp parser,
produced elsewhere by TemplateGenerator.match_log_to_template and
SemanticCompressor._parse_timestamp, are taken as parameters.  An empty
template list raises ValueError exactly as lines 345-346 do. -/
def compress (templates : List LogTemplate)
    (matcher : String → Option (LogTemplate × List (String × String)))
    (parseTs : String → Int) (log_lines : List String) :
    Except String CompressedLog :=
  if templates = [] then .error "No templates extracted - cannot compress"
  else
    let pool := build_token_pool templates
    let st := collect_lines templates matcher parseTs log_lines
    let template_ids := st.logIndex.map (·.1)
    let all_field_indices := (st.logIndex.map (·.2)).flatten
    .ok {
      version := "3.3"
      templates := templates.map (fun t =>
        { id := t.template_id, field_types := t.field_types,
          match_count := t.match_count, pattern := none })
      token_pool := pool.1
      template_token_refs := pool.2.map encode_varint_list
      zstd_dict := none
      template_dicts_serialized := none
      timestamps_varint :=
        if st.timestamps ≠ [] then encode_varint_list (st.timestamps.map zigzag_encode)
        else []
      timestamp_count := if st.timestamps ≠ [] then st.timestamps.length else 0
      timestamp_base := if st.timestamps ≠ [] then st.tsBase.getD 0 else 0
      severities_varint := if st.sevs ≠ [] then encode_varint_list st.sevs else []
      severity_count := if st.sevs ≠ [] then st.sevs.length else 0
      ip_addresses_varint := if st.ips ≠ [] then encode_varint_list st.ips else []
      ip_count := if st.ips ≠ [] then st.ips.length else 0
      messages_varint := if st.msgs ≠ [] then encode_varint_list st.msgs else []
      message_count := if st.msgs ≠ [] then st.msgs.length else 0
      severity_list := st.sevMap
      ip_list := st.ipMap
      message_list := st.msgMap
      log_index_templates_rle := encode_rle_v2 (template_ids.map zigzag_encode)
      log_index_fields_varint := encode_varint_list all_field_indices
      log_index_field_counts := st.logIndex.map (·.2.length)
      original_count := log_lines.length
      compressed_at := ""
    }

/-- Positional pattern update of SemanticCompressor.load, src/logsim/compressor.py
lines 912-917: the decoded token id lists are zipped against the stored
templates; the pattern of template i becomes the tokens named by the i-th id
list, templates beyond the id lists stay untouched. -/
def set_patterns : List StoredTemplate → List (List String) → List StoredTemplate
  | ts, [] => ts
  | [], _ => []
  | t :: ts, p :: ps => { t with pattern := some p } :: set_patterns ts ps

/-- Token pool pattern rebuild of SemanticCompressor.load, src/logsim/compressor.py
lines 898-917: when both the token pool and the reference lists are present,
decode every varint of each reference byte string and map the resulting ids
through the token pool; indexing past the pool raises. -/
def reconstruct_patterns (c : CompressedLog) : Except String CompressedLog :=
  if c.token_pool ≠ [] ∧ c.template_token_refs ≠ [] then do
    let decoded_refs ← c.template_token_refs.mapM decode_all_varints
    let patterns ← decoded_refs.mapM (fun ids => ids.mapM (fun tid =>
      match c.token_pool[tid]? with
      | some tok => Except.ok tok
      | none => Except.error "IndexError: token pool"))
    .ok { c with templates := set_patterns c.templates patterns }
  else .ok c

/-- Splitting of the flat field index stream by the per line counts,
src/logsim/compressor.py lines 1009-1014. -/
def segment_counts (xs : List Nat) : List Nat → List (List Nat)
  | [] => []
  | c :: cs => xs.take c :: segment_counts (xs.drop c) cs

/-- Placeholder reconstruction step of SemanticCompressor.decompress,
src/logsim/compressor.py lines 1035-1095 with enable_otten False.  State:
parts emitted so far, running timestamp, next position in the field index
list.  A bracketed pattern part consumes one field index and emits the
looked up value, skipping silently when any index is out of range exactly
as the source bound checks do; a constant part is emitted verbatim. -/
def reconstruct_part (c : CompressedLog) (timestamps : List Int)
    (severities ip_addresses messages : List Nat) (field_indices : List Nat)
    (acc : List String × Int × Nat) (part : String) : List String × Int × Nat :=
  let (parts, cur, field_idx) := acc
  if py_starts part "[" ∧ py_ends part "]" then
    if field_indices.length ≤ field_idx then (parts, cur, field_idx + 1)
    else
      let ftype := py_upper (py_inner part)
      let actual := field_indices.getD field_idx 0
      if ftype = "TIMESTAMP" then
        match timestamps[actual]? with
        | some delta => (parts ++ [toString (cur + delta)], cur + delta, field_idx + 1)
        | none => (parts, cur, field_idx + 1)
      else if ftype = "SEVERITY" ∨ ftype = "STATUS" then
        match severities[actual]? with
        | some sid =>
          match c.severity_list[sid]? with
          | some v => (parts ++ [v], cur, field_idx + 1)
          | none => (parts, cur, field_idx + 1)
        | none => (parts, cur, field_idx + 1)
      else if ftype = "IP_ADDRESS" ∨ ftype = "HOST" then
        match ip_addresses[actual]? with
        | some iid =>
          match c.ip_list[iid]? with
          | some v => (parts ++ [v], cur, field_idx + 1)
          | none => (parts, cur, field_idx + 1)
        | none => (parts, cur, field_idx + 1)
      else
        match messages[actual]? with
        | some mid =>
          match c.message_list[mid]? with
          | some v => (parts ++ [v], cur, field_idx + 1)
          | none => (parts, cur, field_idx + 1)
        | none => (parts, cur, field_idx + 1)
  else (parts ++ [part], cur, field_idx)

/-- Per line body of the reconstruction loop of SemanticCompressor.decompress,
src/logsim/compressor.py lines 1019-1097: an unmatched line (template id -1)
is the messages column entry named by its single field index, with the
unchecked subscripts of lines 1022-1023 raising IndexError; a matched line
looks up its stored template (KeyError when the pattern was never rebuilt)
and joins the reconstructed parts with single spaces. -/
def decompress_line (c : CompressedLog) (timestamps : List Int)
    (severities ip_addresses messages : List Nat)
    (acc : List String × Int) (entry : Int × List Nat) :
    Except String (List String × Int) :=
  let (logs, cur) := acc
  let (tid, field_indices) := entry
  if tid = -1 then
    match field_indices.head? with
    | none => .error "IndexError: field_indices"
    | some fi =>
      match messages[fi]? with
      | none => .error "IndexError: messages"
      | some mid =>
        match c.message_list[mid]? with
        | none => .error "IndexError: message_list"
        | some s => .ok (logs ++ [s], cur)
  else
    match c.templates[tid.toNat]? with
    | none => .error "IndexError: templates"
    | some t =>
      match t.pattern with
      | none => .error "KeyError: pattern"
      | some pattern =>
        let r := pattern.foldl
          (reconstruct_part c timestamps severities ip_addresses messages field_indices)
          ([], cur, 0)
        .ok (logs ++ [py_join_space r.1], r.2.1)

/-- SemanticCompressor.decompress from src/logsim/compressor.py lines
949-1099 with enable_otten False: decode the varint columns (each guarded by
the corresponding byte string being non empty), decode the run length
encoded zigzagged template ids, split the flat field index stream by the per
line counts, then reconstruct line by line threading the running timestamp,
which starts at the container timestamp base. -/
def decompress (c : CompressedLog) : Except String (List String) := do
  let timestamps ←
    if c.timestamps_varint ≠ [] then
      (decode_varint_list c.timestamps_varint c.timestamp_count).map
        (List.map zigzag_decode)
    else .ok []
  let severities ←
    if c.severities_varint ≠ [] then
      decode_varint_list c.severities_varint c.severity_count
    else .ok []
  let ip_addresses ←
    if c.ip_addresses_varint ≠ [] then
      decode_varint_list c.ip_addresses_varint c.ip_count
    else .ok []
  let messages ←
    if c.messages_varint ≠ [] then
      decode_varint_list c.messages_varint c.message_count
    else .ok []
  let zz ← decode_rle_v2 c.log_index_templates_rle c.original_count
  let template_ids := zz.map zigzag_decode
  let all_field_indices ←
    decode_varint_list c.log_index_fields_varint c.log_index_field_counts.sum
  let log_index := segment_counts all_field_indices c.log_index_field_counts
  let r ← (template_ids.zip log_index).foldlM
    (decompress_line c timestamps severities ip_addresses messages)
    ([], c.timestamp_base)
  .ok r.1

/-! ## Query engine, from src/logpress/services/query_engine.py and
src/logsim/query_engine.py -/

/-- QueryResult from src/logpress/services/query_engine.py lines 21-31.
The wall clock execution_time field is not modelled. -/
structure QueryResult where
  matched_count : Nat
  matched_logs : List String
  scanned_count : Nat
deriving Repr, DecidableEq

/-- QueryEngine.query_by_severity from src/logpress/services/query_engine.py
lines 80-132: collect the set of dictionary ids whose value equals any input
severity up to case, answer zero matches when the set is empty, otherwise
decode the severities varint stream, collect the stream positions whose id
is in the set, and reconstruct the matched logs through
QueryEngine._reconstruct_logs (lines 59-78), which decompresses the whole
container and selects the in range indices. -/
def query_by_severity (c : CompressedLog) (severities : List String) :
    Except String QueryResult :=
  let severity_ids :=
    (c.severity_list.enum.filter
      (fun p => severities.any (fun sv => py_upper p.2 == py_upper sv))).map (·.1)
  if severity_ids = [] then
    .ok { matched_count := 0, matched_logs := [], scanned_count := c.original_count }
  else do
    let decoded ← decode_varint_list c.severities_varint c.severity_count
    let matched := (decoded.enum.filter (fun p => p.2 ∈ severity_ids)).map (·.1)
    let all_logs ← decompress c
    .ok { matched_count := matched.length
          matched_logs := matched.filterMap (fun i => all_logs[i]?)
          scanned_count := decoded.length }

/-- Scan loop of QueryEngine.query_time_range,
src/logpress/services/query_engine.py lines 231-237: starting from the
container timestamp base, add each delta and emit the position when the
running timestamp lies in the inclusive range. -/
def scan_time_range (start_ms end_ms : Int) : List Int → Int → Nat → List Nat
  | [], _, _ => []
  | d :: ds, cur, i =>
    let cur2 := cur + d
    (if start_ms ≤ cur2 ∧ cur2 ≤ end_ms then [i] else []) ++
      scan_time_range start_ms end_ms ds cur2 (i + 1)

/-- QueryEngine.query_time_range from src/logpress/services/query_engine.py
lines 196-246: an empty timestamp byte string answers zero matches with zero
scanned; otherwise the zigzag varint delta stream is decoded, absolute
timestamps are rebuilt by cumulative sum from the base, and the matched
count is the number of positions inside the range (the source keeps
matched_logs empty on this path). -/
def query_time_range (c : CompressedLog) (start_ms end_ms : Int) :
    Except String QueryResult :=
  if c.timestamps_varint = [] then
    .ok { matched_count := 0, matched_logs := [], scanned_count := 0 }
  else do
    let zz ← decode_varint_list c.timestamps_varint c.timestamp_count
    let deltas := zz.map zigzag_decode
    let matched := scan_time_range start_ms end_ms deltas c.timestamp_base 0
    .ok { matched_count := matched.length, matched_logs := [],
          scanned_count := c.timestamp_count }

/-- Field names of the CompressedLog dataclass,
src/logsim/compressor.py lines 256-297. -/
def compressed_log_fields : List String :=
  ["version", "templates", "token_pool", "template_token_refs", "zstd_dict",
   "template_dicts_serialized", "timestamps_varint", "timestamp_base",
   "timestamp_count", "severities_varint", "severity_count",
   "ip_addresses_varint", "ip_count", "messages_varint", "message_count",
   "severity_list", "ip_list", "message_list", "log_index_templates_rle",
   "log_index_fields_varint", "log_index_field_counts", "original_count",
   "compressed_at"]

/-- Attributes of the loaded container that QueryEngine.get_statistics reads,
in source order: src/logpress/services/query_engine.py lines 294-321 and
identically src/logsim/query_engine.py lines 249-276 read
self.compressed.original_count, .templates, .severity_dict, .ip_dict,
.message_dict, and .severities (passed to _get_top_values). -/
def get_statistics_reads : List String :=
  ["original_count", "templates", "severity_dict", "ip_dict", "message_dict",
   "severities"]

/-! ## Semantic type recognizer, from
src/logsim/context/classification/semantic_types.py -/

/-- SemanticType from src/logsim/context/classification/semantic_types.py
lines 22-43. -/
inductive SemanticType where
  | TIMESTAMP | IP_ADDRESS | PORT | USER_ID | PROCESS_ID | THREAD_ID
  | ERROR_CODE | METRIC_VALUE | METRIC_UNIT | STATUS | SEVERITY | MODULE
  | FUNCTION | FILENAME | HOST | URL | ACTION | MESSAGE | REQUEST_ID
  | UNKNOWN
deriving Repr, DecidableEq

/-- SemanticMatch from src/logsim/context/classification/semantic_types.py
lines 46-57.  Confidences are stored in hundredths (0.95 becomes 95); the
source only ever compares and sorts them. -/
structure SemanticMatch where
  type : SemanticType
  value : String
  confidence : Nat
  pattern_name : String
  start_pos : Nat := 0
  end_pos : Nat := 0
deriving Repr, DecidableEq

/-- Pattern tables of SemanticTypeRecognizer._compile_patterns
(src/logsim/context/classification/semantic_types.py lines 70-206), per
category in the order recognize tries them: pattern name with its fixed
confidence in hundredths.  The regular expressions themselves are the
behaviour of the regex engine and enter the model through the search
parameter of recognize. -/
def recognizer_pattern_table : List (SemanticType × List (String × Nat)) :=
  [(.TIMESTAMP, [("iso8601", 95), ("unix_ms", 90), ("unix_sec", 85),
      ("syslog", 90), ("custom_yyyymmdd", 95), ("time_ms", 85),
      ("time_simple", 70), ("short_datetime", 85)]),
   (.IP_ADDRESS, [("ipv4", 95), ("ipv6_full", 95), ("ipv6_compressed", 90)]),
   (.PORT, [("port_colon", 85), ("port_keyword", 90)]),
   (.SEVERITY, [("standard_levels", 95), ("syslog_levels", 90)]),
   (.STATUS, [("common_status", 85), ("http_status", 95)]),
   (.ERROR_CODE, [("error_keyword", 95), ("uppercase_code", 80),
      ("bracketed_error", 90)]),
   (.USER_ID, [("user_keyword", 95), ("uid_numeric", 90)]),
   (.PROCESS_ID, [("pid_keyword", 95), ("bracketed_number", 75)]),
   (.METRIC_VALUE, [("time_metric", 90), ("size_metric", 90),
      ("percent_metric", 85)]),
   (.MODULE, [("dotted_module", 85), ("prefixed_component", 90)]),
   (.REQUEST_ID, [("bracketed_uuid", 95), ("request_keyword", 90)]),
   (.FILENAME, [("log_filename", 90), ("source_file", 85)]),
   (.HOST, [("fqdn", 90), ("hostname", 75)]),
   (.ACTION, [("action_verb", 80)])]

/-- SemanticTypeRecognizer._match_patterns from
src/logsim/context/classification/semantic_types.py lines 254-271: every
pattern whose regex search succeeds contributes one match carrying the
matched value and span reported by the regex engine. -/
def match_patterns (search : String → String → Option (String × Nat × Nat))
    (value : String) (patterns : List (String × Nat)) (stype : SemanticType) :
    List SemanticMatch :=
  patterns.filterMap (fun p =>
    (search p.1 value).map (fun m =>
      { type := stype, value := m.1, confidence := p.2, pattern_name := p.1,
        start_pos := m.2.1, end_pos := m.2.2 }))

/-- SemanticTypeRecognizer.recognize from
src/logsim/context/classification/semantic_types.py lines 208-252,
parameterised by the regex engine (pattern name and input to optional
matched value with span): an empty or all whitespace input returns the empty
list at once; otherwise all categories are tried in order, the matches are
stably sorted by confidence descending (insertion sort, which is stable like
the Python sort), and if nothing matched a single MESSAGE match with
confidence 0.50 is returned. -/
def recognize (search : String → String → Option (String × Nat × Nat))
    (field_value : String) : List SemanticMatch :=
  if field_value = "" ∨ py_strip field_value = "" then []
  else
    let found := recognizer_pattern_table.flatMap
      (fun cat => match_patterns search field_value cat.2 cat.1)
    let sorted := found.insertionSort (fun a b => b.confidence ≤ a.confidence)
    if sorted = [] then
      [{ type := .MESSAGE, value := field_value, confidence := 50,
         pattern_name := "default_message" }]
    else sorted

/-! ## Burrows Wheeler transform, from src/logpress/context/encoding/bwt.py -/

/-- Little endian packing of one unsigned 32 bit value, struct.pack of
format <I; struct.error is raised for out of range values. -/
def pack_u32 (v : Nat) : Except String (List Nat) :=
  if v < 2 ^ 32 then
    .ok [v % 256, v / 256 % 256, v / 65536 % 256, v / 16777216 % 256]
  else .error "struct.error: argument out of range"

/-- Little endian unpacking of one unsigned 32 bit value, struct.unpack of
format <I applied to four bytes. -/
def unpack_u32 (b0 b1 b2 b3 : Nat) : Nat :=
  b0 + b1 * 256 + b2 * 65536 + b3 * 16777216

/-- Rotation of a block starting at position i: block[i:] + block[:i], the
rotation_key of _bwt_encode_block (src/logpress/context/encoding/bwt.py
lines 134-136). -/
def bwt_rotation (block : List Nat) (i : Nat) : List Nat :=
  block.drop i ++ block.take i

/-- Sorted rotation start positions of _bwt_encode_block
(src/logpress/context/encoding/bwt.py lines 131-138): the start positions
0..n-1 sorted by their rotation; the Python sort is stable, so positions
with equal rotations keep their index order, which the comparison makes
explicit by breaking ties on the position itself (with that tie break the
sorted list is unique, so any sorting algorithm yields the Python result;
insertion sort is used because it computes inside the kernel). -/
def bwt_rows (block : List Nat) : List Nat :=
  (List.range block.length).insertionSort (fun i j =>
    bwt_rotation block i < bwt_rotation block j ∨
      (bwt_rotation block i = bwt_rotation block j ∧ i ≤ j))

/-- The _bwt_encode_block function from src/logpress/context/encoding/bwt.py
lines 112-152: blocks of length at most one are returned unchanged with
index 0; otherwise the last column lists, for each sorted rotation start s,
the byte at (s - 1) mod n, and the original index is the row whose rotation
starts at position 0. -/
def bwt_encode_block (block : List Nat) : List Nat × Nat :=
  if block.length ≤ 1 then (block, 0)
  else
    let n := block.length
    let rows := bwt_rows block
    (rows.map (fun s => block.getD ((s + n - 1) % n) 0), List.indexOf 0 rows)

/-- Block loop of bwt_transform (src/logpress/context/encoding/bwt.py lines
51-62): emit, for each block in order, the transformed length, the original
index and the transformed bytes, each length four bytes little endian. -/
def bwt_transform_go (data : List Nat) (block_size : Nat) :
    Nat → Nat → Except String (List Nat)
  | 0, _ => .ok []
  | k + 1, start => do
    let block := (data.drop start).take block_size
    let enc := bwt_encode_block block
    let h1 ← pack_u32 enc.1.length
    let h2 ← pack_u32 enc.2
    let rest ← bwt_transform_go data block_size k (start + block_size)
    .ok (h1 ++ h2 ++ enc.1 ++ rest)

/-- bwt_transform from src/logpress/context/encoding/bwt.py lines 26-64:
empty data yields a zero block count header; otherwise the data is cut into
ceil(len / block_size) blocks, and the output is the block count followed by
the per block records.  A zero block size raises, as the Python ceiling
division by zero does. -/
def bwt_transform (data : List Nat) (block_size : Nat) : Except String (List Nat) :=
  if data = [] then pack_u32 0
  else if block_size = 0 then .error "ZeroDivisionError"
  else do
    let num_blocks := (data.length + block_size - 1) / block_size
    let header ← pack_u32 num_blocks
    let body ← bwt_transform_go data block_size num_blocks 0
    .ok (header ++ body)

/-- Occurrence counting of _bwt_decode_block
(src/logpress/context/encoding/bwt.py lines 171-181): cumsum v is the
number of bytes of the block whose value is below v, the prefix sum of the
per value occurrence counts that the source accumulates over the 256 byte
values. -/
def bwt_cumsum (block : List Nat) (v : Nat) : Nat :=
  ((List.range v).map (fun t => block.count t)).sum

/-- The LF mapping of _bwt_decode_block (src/logpress/context/encoding/bwt.py
lines 183-192): LF i is the first column position of the i-th last column
byte, namely the bytes below it plus the occurrences of the same byte
earlier in the last column, which is what the seen counters of the source
loop accumulate. -/
def bwt_lf (block : List Nat) (i : Nat) : Nat :=
  bwt_cumsum block (block.getD i 0) + (block.take i).count (block.getD i 0)

/-- Reconstruction walk of _bwt_decode_block
(src/logpress/context/encoding/bwt.py lines 194-202): starting at the
original index, repeatedly read the last column byte and follow the LF
mapping; the source writes the bytes from the back of the result array, so
the reconstructed block is the reverse of the collected list. -/
def bwt_walk (block : List Nat) : Nat → Nat → List Nat
  | 0, _ => []
  | t + 1, idx => block.getD idx 0 :: bwt_walk block t (bwt_lf block idx)

/-- The _bwt_decode_block function from src/logpress/context/encoding/bwt.py
lines 155-204. -/
def bwt_decode_block (block : List Nat) (original_index : Nat) : List Nat :=
  if block.length ≤ 1 then block
  else (bwt_walk block block.length original_index).reverse

/-- Block loop of bwt_inverse (src/logpress/context/encoding/bwt.py lines
88-107): for each announced block, stop early when fewer than eight header
bytes remain or the announced block size overruns the buffer, otherwise
decode the block and continue past it. -/
def bwt_inverse_go : Nat → List Nat → List Nat
  | 0, _ => []
  | k + 1, rem =>
    if rem.length < 8 then []
    else
      let bsize := unpack_u32 (rem.getD 0 0) (rem.getD 1 0) (rem.getD 2 0) (rem.getD 3 0)
      let oi := unpack_u32 (rem.getD 4 0) (rem.getD 5 0) (rem.getD 6 0) (rem.getD 7 0)
      let rem2 := rem.drop 8
      if rem2.length < bsize then []
      else bwt_decode_block (rem2.take bsize) oi ++ bwt_inverse_go k (rem2.drop bsize)

/-- bwt_inverse from src/logpress/context/encoding/bwt.py lines 67-109:
fewer than four bytes or a zero block count yield empty output; otherwise
each announced block is decoded in order. -/
def bwt_inverse (data : List Nat) : List Nat :=
  if data.length < 4 then []
  else
    let num_blocks := unpack_u32 (data.getD 0 0) (data.getD 1 0) (data.getD 2 0) (data.getD 3 0)
    if num_blocks = 0 then []
    else bwt_inverse_go num_blocks (data.drop 4)

/-! ## Statement support definitions -/

/-- Category test of the severities column: SemanticCompressor.compress
routes fields named SEVERITY or STATUS there (src/logsim/compressor.py line
482). -/
def is_severity_field (name : String) : Bool :=
  py_upper name == "SEVERITY" || py_upper name == "STATUS"

/-- The severity category values a line contributes, in field order. -/
def line_severity_values
    (matcher : String → Option (LogTemplate × List (String × String)))
    (l : String) : List String :=
  match matcher l with
  | none => []
  | some tf => (tf.2.filter (fun f => is_severity_field f.1)).map (·.2)

/-- Case insensitive test that a line carries severity value s. -/
def line_has_severity
    (matcher : String → Option (LogTemplate × List (String × String)))
    (s l : String) : Bool :=
  (line_severity_values matcher l).any (fun v => py_upper v == py_upper s)

/-- Absolute timestamp of position k rebuilt by cumulative sum of the deltas
from the base, the quantity query_time_range scans for. -/
def recon_timestamp (base : Int) (deltas : List Int) (k : Nat) : Int :=
  base + (deltas.take (k + 1)).sum

/-- Flattening of a run list back to the values it encodes. -/
def flatten_runs (rs : List (Nat × Nat)) : List Nat :=
  rs.flatMap (fun r => List.replicate r.2 r.1)

/-- Byte emission of a run list, the body of encode_rle. -/
def runs_bytes (rs : List (Nat × Nat)) : List Nat :=
  rs.flatMap (fun r => encode_varint r.1 ++ encode_varint r.2)

/-- One collection state extends another: every column of the first is a
prefix of the corresponding column of the second.  Holds between any state
and the state after processing further lines. -/
def collect_extends (st st2 : CollectSt) : Prop :=
  st.sevMap <+: st2.sevMap ∧ st.ipMap <+: st2.ipMap ∧ st.msgMap <+: st2.msgMap ∧
  st.timestamps <+: st2.timestamps ∧ st.sevs <+: st2.sevs ∧
  st.ips <+: st2.ips ∧ st.msgs <+: st2.msgs ∧ st.logIndex <+: st2.logIndex

/-- Total number of entries across the four value streams; every field index
recorded in the log index is below this total at the time of recording. -/
def stream_total (st : CollectSt) : Nat :=
  st.timestamps.length + st.sevs.length + st.ips.length + st.msgs.length

/-- Invariant of the collection state maintained by the compress line loop:
each dictionary is no longer than its stream, every stream id is a valid
dictionary position, timestamp deltas stay within the signed 64 bit range
when the parser stays within 62 bits, and each log index entry is either an
unmatched entry with template id -1 and a single field index naming a stored
message, or a matched entry whose template id indexes the template list; all
field indices are below the stream total. -/
def entry_inv (templates : List LogTemplate) (st : CollectSt)
    (en : Int × List Nat) : Prop :=
  (-1 ≤ en.1) ∧
  (en.1 = -1 → ∃ p mid, en.2 = [p] ∧ st.msgs[p]? = some mid) ∧
  (en.1 ≠ -1 → en.1.toNat < templates.length) ∧
  (∀ fi ∈ en.2, fi < stream_total st)

/-- The full collection invariant: dictionary and stream length relations,
stream id validity, timestamp bounds, and the per entry invariant. -/
def collect_inv (templates : List LogTemplate) (st : CollectSt) : Prop :=
  (st.sevMap.length ≤ st.sevs.length ∧ st.ipMap.length ≤ st.ips.length ∧
   st.msgMap.length ≤ st.msgs.length) ∧
  ((∀ id ∈ st.sevs, id < st.sevMap.length) ∧ (∀ id ∈ st.ips, id < st.ipMap.length) ∧
   (∀ id ∈ st.msgs, id < st.msgMap.length)) ∧
  ((∀ d ∈ st.timestamps, d.natAbs ≤ 2 ^ 63) ∧ st.lastTs.natAbs ≤ 2 ^ 62) ∧
  (∀ en ∈ st.logIndex, entry_inv templates st en)

/-- Number of stream entries one line contributes during collection: one for
an unmatched line, one per extracted field for a matched line. -/
def line_weight (matcher : String → Option (LogTemplate × List (String × String)))
    (l : String) : Nat :=
  match matcher l with
  | none => 1
  | some tf => tf.2.length

/-- A log index entry the decompress loop can process without raising: an
unmatched entry resolves through the messages stream and dictionary, a
matched entry names a stored template carrying a reconstructed pattern. -/
def entry_ok (c : CompressedLog) (msgs : List Nat) (en : Int × List Nat) : Prop :=
  (en.1 = -1 → ∃ p mid s, en.2.head? = some p ∧ msgs[p]? = some mid ∧
    c.message_list[mid]? = some s) ∧
  (en.1 ≠ -1 → ∃ t pat, c.templates[en.1.toNat]? = some t ∧ t.pattern = some pat)

/-- The container compress emits on the non error path, spelled out as a
standalone value: exactly the ok payload of compress. -/
def compress_container (templates : List LogTemplate)
    (matcher : String → Option (LogTemplate × List (String × String)))
    (parseTs : String → Int) (log_lines : List String) : CompressedLog :=
  let pool := build_token_pool templates
  let st := collect_lines templates matcher parseTs log_lines
  { version := "3.3"
    templates := templates.map (fun t =>
      { id := t.template_id, field_types := t.field_types,
        match_count := t.match_count, pattern := none })
    token_pool := pool.1
    template_token_refs := pool.2.map encode_varint_list
    zstd_dict := none
    template_dicts_serialized := none
    timestamps_varint :=
      if st.timestamps ≠ [] then encode_varint_list (st.timestamps.map zigzag_encode)
      else []
    timestamp_count := if st.timestamps ≠ [] then st.timestamps.length else 0
    timestamp_base := if st.timestamps ≠ [] then st.tsBase.getD 0 else 0
    severities_varint := if st.sevs ≠ [] then encode_varint_list st.sevs else []
    severity_count := if st.sevs ≠ [] then st.sevs.length else 0
    ip_addresses_varint := if st.ips ≠ [] then encode_varint_list st.ips else []
    ip_count := if st.ips ≠ [] then st.ips.length else 0
    messages_varint := if st.msgs ≠ [] then encode_varint_list st.msgs else []
    message_count := if st.msgs ≠ [] then st.msgs.length else 0
    severity_list := st.sevMap
    ip_list := st.ipMap
    message_list := st.msgMap
    log_index_templates_rle :=
      encode_rle_v2 ((st.logIndex.map (·.1)).map zigzag_encode)
    log_index_fields_varint := encode_varint_list (st.logIndex.map (·.2)).flatten
    log_index_field_counts := st.logIndex.map (·.2.length)
    original_count := log_lines.length
    compressed_at := "" }

/-- The container after the pattern rebuild of load: the compress output
with every stored template carrying its reconstructed pattern. -/
def loaded_container (templates : List LogTemplate)
    (matcher : String → Option (LogTemplate × List (String × String)))
    (parseTs : String → Int) (log_lines : List String) : CompressedLog :=
  let c := compress_container templates matcher parseTs log_lines
  { c with templates := (set_patterns c.templates
      ((build_token_pool templates).2.map
        (List.map (fun tid => (build_token_pool templates).1.getD tid "")))) }

/-- A concrete template used by the witnesses: a severity and a message
field. -/
def demo_template : LogTemplate :=
  { template_id := "t1", pattern := ["[SEVERITY]", "[MESSAGE]"],
    field_types := [], match_count := 0 }

/-- A concrete matcher used by the witnesses: it recognises the single line
"ERROR boom" and extracts its severity and message. -/
def demo_matcher (l : String) : Option (LogTemplate × List (String × String)) :=
  if l = "ERROR boom" then
    some (demo_template, [("severity", "ERROR"), ("message", "boom")])
  else none

/-! ## Lemmas: varint -/

theorem encode_varint_go_mono :
    ∀ f1 f2 v, v ≤ f1 → v ≤ f2 → encode_varint_go f1 v = encode_varint_go f2 v := by
  intro f1
  induction f1 with
  | zero =>
    intro f2 v h1 _
    have hv : v = 0 := by omega
    subst hv
    cases f2 <;> simp [encode_varint_go]
  | succ f ih =>
    intro f2 v h1 h2
    cases f2 with
    | zero =>
      have hv : v = 0 := by omega
      subst hv
      simp [encode_varint_go]
    | succ g =>
      simp only [encode_varint_go]
      by_cases hs : v ≤ 127
      · rw [if_pos hs, if_pos hs]
      · rw [if_neg hs, if_neg hs]
        have hd : v / 128 < v := Nat.div_lt_self (by omega) (by omega)
        rw [ih g (v / 128) (by omega) (by omega)]

theorem encode_varint_eq (v : Nat) :
    encode_varint v =
      if v ≤ 127 then [v % 128]
      else (v % 128 + 128) :: encode_varint (v / 128) := by
  unfold encode_varint
  cases hv : v with
  | zero => simp [encode_varint_go]
  | succ n =>
    simp only [encode_varint_go]
    by_cases hs : n + 1 ≤ 127
    · rw [if_pos hs, if_pos hs]
    · rw [if_neg hs, if_neg hs]
      have hd : (n + 1) / 128 < n + 1 := Nat.div_lt_self (by omega) (by omega)
      rw [encode_varint_go_mono n ((n + 1) / 128) ((n + 1) / 128) (by omega) le_rfl]

theorem count_repeats_go_mono :
    ∀ f1 f2 (values pattern : List Nat), values.length ≤ f1 → values.length ≤ f2 →
      count_repeats_go f1 values pattern = count_repeats_go f2 values pattern := by
  intro f1
  induction f1 with
  | zero =>
    intro f2 values pattern h1 _
    have hv : values = [] := List.length_eq_zero.mp (by omega)
    subst hv
    cases f2 with
    | zero => rfl
    | succ g =>
      simp only [count_repeats_go]
      by_cases hp : pattern.length = 0
      · rw [if_pos hp]
      · rw [if_neg hp, if_neg (by
          rintro ⟨hc, _⟩
          simp only [List.length_nil, Nat.le_zero] at hc
          omega)]
  | succ f ih =>
    intro f2 values pattern h1 h2
    cases f2 with
    | zero =>
      have hv : values = [] := List.length_eq_zero.mp (by omega)
      subst hv
      simp only [count_repeats_go]
      by_cases hp : pattern.length = 0
      · rw [if_pos hp]
      · rw [if_neg hp, if_neg (by
          rintro ⟨hc, _⟩
          simp only [List.length_nil, Nat.le_zero] at hc
          omega)]
    | succ g =>
      simp only [count_repeats_go]
      by_cases hp : pattern.length = 0
      · rw [if_pos hp, if_pos hp]
      · rw [if_neg hp, if_neg hp]
        by_cases hc : pattern.length ≤ values.length ∧ values.take pattern.length = pattern
        · rw [if_pos hc, if_pos hc]
          have : (values.drop pattern.length).length ≤ f := by
            simp only [List.length_drop]
            omega
          rw [ih g (values.drop pattern.length) pattern this (by
            simp only [List.length_drop]
            omega)]
        · rw [if_neg hc, if_neg hc]

theorem count_repeats_go_zero_pattern (fuel : Nat) (values pattern : List Nat)
    (hp : pattern.length = 0) : count_repeats_go fuel values pattern = 0 := by
  cases fuel with
  | zero => rfl
  | succ f => simp [count_repeats_go, hp]

theorem count_repeats_eq (values pattern : List Nat) :
    count_repeats values pattern =
      if pattern.length = 0 then 0
      else if pattern.length ≤ values.length ∧ values.take pattern.length = pattern then
        count_repeats (values.drop pattern.length) pattern + 1
      else 0 := by
  unfold count_repeats
  by_cases hp : pattern.length = 0
  · rw [if_pos hp]
    exact count_repeats_go_zero_pattern _ _ _ hp
  · rw [if_neg hp]
    by_cases hc : pattern.length ≤ values.length ∧ values.take pattern.length = pattern
    · rw [if_pos hc]
      have hm : values.length = (values.length - 1) + 1 := by omega
      have hswap : count_repeats_go values.length values pattern =
          count_repeats_go ((values.length - 1) + 1) values pattern := by
        rw [← hm]
      rw [hswap]
      simp only [count_repeats_go]
      rw [if_neg hp, if_pos hc]
      have hdlen : (values.drop pattern.length).length ≤ values.length - 1 := by
        simp only [List.length_drop]
        omega
      rw [count_repeats_go_mono (values.length - 1) (values.drop pattern.length).length
        (values.drop pattern.length) pattern hdlen le_rfl]
    · rw [if_neg hc]
      cases hvl : values.length with
      | zero =>
        have hnil : values = [] := List.length_eq_zero.mp hvl
        subst hnil
        rfl
      | succ m =>
        simp only [count_repeats_go]
        rw [if_neg hp, if_neg hc]

theorem encode_varint_ne_nil (n : Nat) : encode_varint n ≠ [] := by
  rw [encode_varint_eq]
  split <;> simp

theorem encode_varint_length_pos (n : Nat) : 1 ≤ (encode_varint n).length := by
  have h := encode_varint_ne_nil n
  cases he : encode_varint n with
  | nil => exact absurd he h
  | cons a l => simp

theorem encode_varint_small (n : Nat) (h : n ≤ 127) : encode_varint n = [n] := by
  rw [encode_varint_eq]
  simp [Nat.mod_eq_of_lt (by omega : n < 128), h]

theorem encode_varint_big (n : Nat) (h : ¬ n ≤ 127) :
    encode_varint n = (n % 128 + 128) :: encode_varint (n / 128) := by
  rw [encode_varint_eq]
  simp [h]

theorem encode_varint_length_le (k : Nat) :
    ∀ n, 1 ≤ k → n < 2 ^ (7 * k) → (encode_varint n).length ≤ k := by
  induction k with
  | zero => omega
  | succ k ih =>
    intro n _ hn
    by_cases hs : n ≤ 127
    · rw [encode_varint_small n hs]
      simp
    · rw [encode_varint_big n hs]
      rcases Nat.eq_zero_or_pos k with hk | hk
      · subst hk
        simp at hn
        omega
      · have hdiv : n / 128 < 2 ^ (7 * k) := by
          have h1 : n < 2 ^ (7 * k) * 128 := by
            have : 7 * (k + 1) = 7 * k + 7 := by ring
            rw [this, pow_add] at hn
            omega
          omega
        have := ih (n / 128) hk hdiv
        simpa using this

theorem decode_varint_aux_encode (n : Nat) :
    ∀ rest shift acc k, shift + 7 * ((encode_varint n).length - 1) ≤ 64 →
    decode_varint_aux (encode_varint n ++ rest) shift acc k =
      .ok (acc + n * 2 ^ shift, k + (encode_varint n).length) := by
  induction n using Nat.strong_induction_on with
  | _ n ih =>
    intro rest shift acc k hb
    by_cases hs : n ≤ 127
    · rw [encode_varint_small n hs] at *
      simp only [List.cons_append, List.nil_append, decode_varint_aux]
      rw [if_pos (by omega : n % 256 < 128)]
      have : n % 128 = n := Nat.mod_eq_of_lt (by omega)
      rw [this]
      simp
    · rw [encode_varint_big n hs] at *
      simp only [List.cons_append, decode_varint_aux]
      have hb1 : ¬ (n % 128 + 128) % 256 < 128 := by omega
      rw [if_neg hb1]
      have hlen1 : 1 ≤ (encode_varint (n / 128)).length := encode_varint_length_pos _
      have hg : ¬ shift + 7 > 64 := by
        simp only [List.length_cons] at hb
        omega
      rw [if_neg hg]
      have hrec := ih (n / 128) (Nat.div_lt_self (by omega) (by omega)) rest (shift + 7)
        (acc + ((n % 128 + 128) % 128) * 2 ^ shift) (k + 1)
        (by simp only [List.length_cons] at hb; omega)
      rw [List.append_eq, hrec]
      congr 2
      · have hm : (n % 128 + 128) % 128 = n % 128 := by omega
        rw [hm, pow_add]
        have hkey : n % 128 * 2 ^ shift + n / 128 * (2 ^ shift * 2 ^ 7) = n * 2 ^ shift := by
          have h2 : (2 : Nat) ^ 7 = 128 := by norm_num
          rw [h2]
          calc n % 128 * 2 ^ shift + n / 128 * (2 ^ shift * 128)
              = (n % 128 + 128 * (n / 128)) * 2 ^ shift := by ring
            _ = n * 2 ^ shift := by rw [Nat.mod_add_div]
        omega
      · simp only [List.length_cons]
        omega

theorem decode_varint_encode_pre (n : Nat) (rest : List Nat) (h : n < 2 ^ 70) :
    decode_varint_aux (encode_varint n ++ rest) 0 0 0 =
      .ok (n, (encode_varint n).length) := by
  have hlen : (encode_varint n).length ≤ 10 :=
    encode_varint_length_le 10 n (by omega) (by norm_num at h ⊢; omega)
  have := decode_varint_aux_encode n rest 0 0 0 (by omega)
  simpa using this

theorem decode_varint_list_aux_encode (l : List Nat) :
    ∀ pre : List Nat, (∀ v ∈ l, v < 2 ^ 70) →
    decode_varint_list_aux (pre ++ encode_varint_list l) pre.length l.length =
      .ok l := by
  induction l with
  | nil => intro pre _; simp [decode_varint_list_aux, encode_varint_list]
  | cons v tl ih =>
    intro pre hb
    have hv : v < 2 ^ 70 := hb v (by simp)
    simp only [decode_varint_list_aux, decode_varint, encode_varint_list,
      List.flatMap_cons]
    rw [List.drop_left, decode_varint_encode_pre v _ hv]
    simp only [bind, Except.bind]
    have hpre : pre.length + (encode_varint v).length =
        (pre ++ encode_varint v).length := by simp
    rw [hpre]
    have := ih (pre ++ encode_varint v) (fun x hx => hb x (by simp [hx]))
    simp only [encode_varint_list] at this
    rw [List.append_assoc] at this
    rw [this]

theorem decode_varint_list_encode (l : List Nat) (hb : ∀ v ∈ l, v < 2 ^ 70) :
    decode_varint_list (encode_varint_list l) l.length = .ok l := by
  have := decode_varint_list_aux_encode l [] hb
  simpa [decode_varint_list] using this

theorem decode_all_varints_go_encode (l : List Nat) :
    ∀ fuel, (∀ v ∈ l, v < 2 ^ 70) → (encode_varint_list l).length ≤ fuel →
    decode_all_varints_go fuel (encode_varint_list l) = .ok l := by
  induction l with
  | nil => intro fuel _ _; simp [encode_varint_list, decode_all_varints_go]
  | cons v tl ih =>
    intro fuel hb hf
    have hv : v < 2 ^ 70 := hb v (by simp)
    have hne : encode_varint_list (v :: tl) ≠ [] := by
      simp only [encode_varint_list, List.flatMap_cons]
      intro hc
      exact encode_varint_ne_nil v (List.append_eq_nil.mp hc).1
    rcases he : encode_varint_list (v :: tl) with _ | ⟨b, rest⟩
    · exact absurd he hne
    · have hlen : 1 ≤ (encode_varint_list (v :: tl)).length := by
        rw [he]; simp
      rcases fuel with _ | f
      · rw [he] at hf; simp at hf
      · rw [← he]
        have hshape : decode_all_varints_go (f + 1) (encode_varint_list (v :: tl)) =
            decode_all_varints_go (f + 1) (b :: rest) := by rw [he]
        rw [hshape]
        simp only [decode_all_varints_go]
        have hdec : decode_varint_aux (b :: rest) 0 0 0 =
            .ok (v, (encode_varint v).length) := by
          rw [← he]
          simp only [encode_varint_list, List.flatMap_cons]
          exact decode_varint_encode_pre v _ hv
        rw [hdec]
        simp only [bind, Except.bind]
        have hdrop : (b :: rest).drop (encode_varint v).length =
            encode_varint_list tl := by
          rw [← he]
          simp only [encode_varint_list, List.flatMap_cons]
          exact List.drop_left _ _
        rw [hdrop]
        have hflen : (encode_varint_list tl).length ≤ f := by
          rw [he] at hf
          have : (encode_varint_list (v :: tl)).length =
              (encode_varint v).length + (encode_varint_list tl).length := by
            simp [encode_varint_list]
          rw [he] at this
          have h1 := encode_varint_length_pos v
          simp at hf this
          omega
        rw [ih f (fun x hx => hb x (by simp [hx])) hflen]

theorem decode_all_varints_encode (l : List Nat) (hb : ∀ v ∈ l, v < 2 ^ 70) :
    decode_all_varints (encode_varint_list l) = .ok l :=
  decode_all_varints_go_encode l _ hb le_rfl

theorem count_varints_encode (l : List Nat) (hb : ∀ v ∈ l, v < 2 ^ 70) :
    count_varints (encode_varint_list l) = .ok l.length := by
  rw [count_varints, decode_all_varints_encode l hb]
  rfl

theorem decode_varint_encode (n : Nat) (h : n < 2 ^ 70) :
    decode_varint (encode_varint n) 0 = .ok (n, (encode_varint n).length) := by
  have := decode_varint_encode_pre n [] h
  simpa [decode_varint] using this

/-! ## Lemmas: zigzag -/

theorem zigzag_decode_encode (d : Int) : zigzag_decode (zigzag_encode d) = d := by
  unfold zigzag_encode zigzag_decode
  by_cases h : 0 ≤ d
  · rw [if_pos h]
    have h2 : 2 * d.toNat % 2 = 0 := by omega
    rw [if_pos h2]
    omega
  · rw [if_neg h]
    have h1 : 1 ≤ (-d).toNat := by omega
    have h2 : ¬ (2 * (-d).toNat - 1) % 2 = 0 := by omega
    rw [if_neg h2]
    omega

theorem zigzag_encode_le (d : Int) (B : Nat) (h : d.natAbs ≤ B) :
    zigzag_encode d ≤ 2 * B := by
  unfold zigzag_encode
  split <;> omega

theorem zigzag_head_not_ff (d : Int) (h : -1 ≤ d) :
    zigzag_encode d < 128 ∨ zigzag_encode d % 128 ≠ 127 := by
  unfold zigzag_encode
  by_cases h0 : 0 ≤ d
  · right
    rw [if_pos h0]
    omega
  · left
    rw [if_neg h0]
    have : d = -1 := by omega
    subst this
    norm_num

/-! ## Lemmas: plain run length encoding -/

theorem flatten_runs_encode_rle_runs :
    ∀ (rest : List Nat) (cur cnt : Nat),
    flatten_runs (encode_rle_runs cur cnt rest) = List.replicate cnt cur ++ rest := by
  intro rest
  induction rest with
  | nil => intro cur cnt; simp [encode_rle_runs, flatten_runs]
  | cons v tl ih =>
    intro cur cnt
    rw [encode_rle_runs]
    split
    · next hc =>
      rw [ih cur (cnt + 1)]
      rcases hc with ⟨he, _⟩
      subst he
      rw [List.replicate_succ' cnt v]
      simp
    · next hc =>
      simp only [flatten_runs, List.flatMap_cons]
      have hih := ih v 1
      simp only [flatten_runs] at hih
      rw [hih]
      simp

theorem encode_rle_runs_mem :
    ∀ (rest : List Nat) (cur cnt : Nat), cnt ≤ 65535 →
    ∀ pr ∈ encode_rle_runs cur cnt rest,
      (pr.1 = cur ∨ pr.1 ∈ rest) ∧ cnt ≤ 65535 ∧ pr.2 ≤ 65535 := by
  intro rest
  induction rest with
  | nil =>
    intro cur cnt hc pr hpr
    simp [encode_rle_runs] at hpr
    subst hpr
    simp [hc]
  | cons v tl ih =>
    intro cur cnt hc pr hpr
    rw [encode_rle_runs] at hpr
    split at hpr
    · next h =>
      have := ih cur (cnt + 1) (by omega) pr hpr
      rcases h with ⟨he, _⟩
      subst he
      tauto
    · next h =>
      rcases List.mem_cons.mp hpr with h1 | h1
      · subst h1; simp [hc]
      · have := ih v 1 (by omega) pr h1
        rcases this with ⟨hv, _, hcnt⟩
        refine ⟨?_, hc, hcnt⟩
        rcases hv with hv | hv
        · right; simp [hv]
        · right; simp [hv]

theorem encode_rle_runs_cnt_pos :
    ∀ (rest : List Nat) (cur cnt : Nat), 1 ≤ cnt →
    ∀ pr ∈ encode_rle_runs cur cnt rest, 1 ≤ pr.2 := by
  intro rest
  induction rest with
  | nil =>
    intro cur cnt hc pr hpr
    simp [encode_rle_runs] at hpr
    subst hpr; exact hc
  | cons v tl ih =>
    intro cur cnt hc pr hpr
    rw [encode_rle_runs] at hpr
    split at hpr
    · exact ih cur (cnt + 1) (by omega) pr hpr
    · rcases List.mem_cons.mp hpr with h1 | h1
      · subst h1; exact hc
      · exact ih v 1 (by omega) pr h1

theorem encode_rle_runs_head :
    ∀ (rest : List Nat) (cur cnt : Nat),
    ∃ c2 tl, encode_rle_runs cur cnt rest = (cur, c2) :: tl := by
  intro rest
  induction rest with
  | nil => intro cur cnt; exact ⟨cnt, [], rfl⟩
  | cons v tl ih =>
    intro cur cnt
    rw [encode_rle_runs]
    split
    · next h =>
      rcases h with ⟨he, _⟩
      subst he
      exact ih _ (cnt + 1)
    · exact ⟨cnt, _, rfl⟩

theorem decode_rle_go_runs :
    ∀ (rs : List (Nat × Nat)) (fuel : Nat),
    (∀ pr ∈ rs, pr.1 < 2 ^ 70 ∧ 1 ≤ pr.2 ∧ pr.2 < 2 ^ 70) →
    (runs_bytes rs).length ≤ fuel →
    decode_rle_go fuel (runs_bytes rs) (flatten_runs rs).length =
      .ok (flatten_runs rs) := by
  intro rs
  induction rs with
  | nil =>
    intro fuel _ _
    simp only [runs_bytes, flatten_runs, List.flatMap_nil, List.length_nil]
    cases fuel <;> rfl
  | cons pr tl ih =>
    intro fuel hb hf
    obtain ⟨hv, hc1, hc2⟩ := hb pr (by simp)
    have hflat : flatten_runs (pr :: tl) =
        List.replicate pr.2 pr.1 ++ flatten_runs tl := by
      simp [flatten_runs]
    have hbytes : runs_bytes (pr :: tl) =
        encode_varint pr.1 ++ (encode_varint pr.2 ++ runs_bytes tl) := by
      simp [runs_bytes]
    have hlen1 := encode_varint_length_pos pr.1
    have hlen2 := encode_varint_length_pos pr.2
    have hlenflat : (flatten_runs (pr :: tl)).length =
        pr.2 + (flatten_runs tl).length := by
      rw [hflat]; simp
    -- the expected count is positive, so the loop body runs
    rcases hn : (flatten_runs (pr :: tl)).length with _ | needed
    · omega
    -- the byte string is nonempty
    rcases he : runs_bytes (pr :: tl) with _ | ⟨b, brest⟩
    · rw [hbytes] at he
      have := encode_varint_ne_nil pr.1
      rcases hx : encode_varint pr.1 with _ | _
      · exact absurd hx this
      · rw [hx] at he; simp at he
    · have hblen : 2 ≤ (runs_bytes (pr :: tl)).length := by
        rw [hbytes]; simp; omega
      rcases fuel with _ | f
      · omega
      · rw [← he, ← hn]
        have hstep : decode_rle_go (f + 1) (runs_bytes (pr :: tl))
            ((flatten_runs (pr :: tl)).length) =
            decode_rle_go (f + 1) (b :: brest) (needed + 1) := by rw [he, hn]
        have hd1 : decode_varint_aux (b :: brest) 0 0 0 =
            .ok (pr.1, (encode_varint pr.1).length) := by
          rw [← he, hbytes]
          exact decode_varint_encode_pre pr.1 _ hv
        have hdrop1 : (b :: brest).drop (encode_varint pr.1).length =
            encode_varint pr.2 ++ runs_bytes tl := by
          rw [← he, hbytes]
          exact List.drop_left _ _
        have hfuel : (runs_bytes tl).length ≤ f := by
          rw [hbytes] at hf
          simp at hf
          omega
        have hneed : needed + 1 - pr.2 = (flatten_runs tl).length := by omega
        rw [hstep]
        simp only [decode_rle_go, hd1, bind, Except.bind, hdrop1,
          decode_varint_encode_pre pr.2 _ hc2, List.drop_left, hneed,
          ih f (fun x hx => hb x (by simp [hx])) hfuel]
        rw [hflat]

theorem encode_rle_length_le_fuel (values : List Nat) :
    (encode_rle values).length ≤ (encode_rle values).length + 1 := by omega

theorem decode_rle_encode (values : List Nat)
    (hb : ∀ v ∈ values, v < 2 ^ 70) :
    decode_rle (encode_rle values) values.length = .ok values := by
  rcases values with _ | ⟨v, rest⟩
  · rfl
  · have hruns := flatten_runs_encode_rle_runs rest v 1
    have hmem := encode_rle_runs_mem rest v 1 (by omega)
    have hpos := encode_rle_runs_cnt_pos rest v 1 (by omega)
    have hbytes : encode_rle (v :: rest) = runs_bytes (encode_rle_runs v 1 rest) := by
      simp [encode_rle, runs_bytes]
    have hbnd : ∀ pr ∈ encode_rle_runs v 1 rest,
        pr.1 < 2 ^ 70 ∧ 1 ≤ pr.2 ∧ pr.2 < 2 ^ 70 := by
      intro pr hpr
      obtain ⟨hm, _, hle⟩ := hmem pr hpr
      refine ⟨?_, hpos pr hpr, by omega⟩
      rcases hm with hm | hm
      · subst hm; exact hb _ (by simp)
      · exact hb _ (by simp [hm])
    have hflatlen : (flatten_runs (encode_rle_runs v 1 rest)) = v :: rest := by
      rw [hruns]; simp
    rw [decode_rle, hbytes]
    have := decode_rle_go_runs (encode_rle_runs v 1 rest)
      ((runs_bytes (encode_rle_runs v 1 rest)).length + 1) hbnd (by omega)
    rw [hflatlen] at this
    rw [this]
    simp [Except.map, List.take_succ_cons, List.take_length]

theorem encode_rle_head (v : Nat) (rest : List Nat) :
    ∃ tail, encode_rle (v :: rest) =
      (if v ≤ 127 then v else v % 128 + 128) :: tail := by
  obtain ⟨c2, tl, hr⟩ := encode_rle_runs_head rest v 1
  have hbytes : encode_rle (v :: rest) = runs_bytes (encode_rle_runs v 1 rest) := by
    simp [encode_rle, runs_bytes]
  rw [hbytes, hr]
  simp only [runs_bytes, List.flatMap_cons]
  by_cases hs : v ≤ 127
  · rw [encode_varint_small v hs]
    refine ⟨encode_varint c2 ++ tl.flatMap fun r => encode_varint r.1 ++ encode_varint r.2, ?_⟩
    simp [hs]
  · rw [encode_varint_big v hs]
    refine ⟨encode_varint (v / 128) ++
      (encode_varint c2 ++ tl.flatMap fun r => encode_varint r.1 ++ encode_varint r.2), ?_⟩
    simp [hs]

/-! ## Lemmas: pattern detection of RLE v2 -/

theorem count_repeats_spec_aux (pattern : List Nat) (hp : pattern ≠ []) :
    ∀ (n : Nat) (values : List Nat), values.length ≤ n →
    (List.replicate (count_repeats values pattern) pattern).flatten ++
      values.drop (count_repeats values pattern * pattern.length) = values := by
  have hL : 0 < pattern.length := List.length_pos.mpr hp
  intro n
  induction n with
  | zero =>
    intro values hv
    have hvnil : values = [] := List.length_eq_zero.mp (by omega)
    subst hvnil
    rw [count_repeats_eq]
    rw [if_neg (by omega)]
    rw [if_neg (by
      rintro ⟨h1, _⟩
      simp only [List.length_nil, Nat.le_zero] at h1
      omega)]
    simp
  | succ n ih =>
    intro values hv
    rw [count_repeats_eq, if_neg (show ¬ pattern.length = 0 by omega)]
    by_cases hc : pattern.length ≤ values.length ∧ values.take pattern.length = pattern
    · rw [if_pos hc]
      have hdroplen : (values.drop pattern.length).length ≤ n := by
        simp only [List.length_drop]
        omega
      have hrec := ih (values.drop pattern.length) hdroplen
      rw [List.replicate_succ, List.flatten_cons]
      have hsplit : values = pattern ++ values.drop pattern.length := by
        conv_lhs => rw [← List.take_append_drop pattern.length values]
        rw [hc.2]
      have hdd : values.drop
          ((count_repeats (values.drop pattern.length) pattern + 1) * pattern.length) =
          (values.drop pattern.length).drop
            (count_repeats (values.drop pattern.length) pattern * pattern.length) := by
        rw [List.drop_drop]
        congr 1
        ring
      rw [hdd, List.append_assoc, hrec, ← hsplit]
    · rw [if_neg hc]
      simp

theorem count_repeats_spec (pattern : List Nat) (hp : pattern ≠ []) (values : List Nat) :
    (List.replicate (count_repeats values pattern) pattern).flatten ++
      values.drop (count_repeats values pattern * pattern.length) = values :=
  count_repeats_spec_aux pattern hp values.length values le_rfl

theorem count_repeats_mul_le (pattern : List Nat) (hp : pattern ≠ []) (values : List Nat) :
    count_repeats values pattern * pattern.length ≤ values.length := by
  have h := count_repeats_spec pattern hp values
  have := congrArg List.length h
  simp only [List.length_append, List.length_flatten, List.map_replicate,
    List.sum_replicate, List.length_drop, smul_eq_mul] at this
  omega

theorem count_repeats_take_eq (pattern : List Nat) (hp : pattern ≠ []) (values : List Nat) :
    (List.replicate (count_repeats values pattern) pattern).flatten =
      values.take (count_repeats values pattern * pattern.length) := by
  have h := count_repeats_spec pattern hp values
  have hlen : (List.replicate (count_repeats values pattern) pattern).flatten.length =
      count_repeats values pattern * pattern.length := by
    simp [List.length_flatten, List.map_replicate, List.sum_replicate, mul_comm]
  calc (List.replicate (count_repeats values pattern) pattern).flatten
      = ((List.replicate (count_repeats values pattern) pattern).flatten ++
          values.drop (count_repeats values pattern * pattern.length)).take
          ((List.replicate (count_repeats values pattern) pattern).flatten.length) :=
        (List.take_left _ _).symm
    _ = values.take
          ((List.replicate (count_repeats values pattern) pattern).flatten.length) := by
          rw [h]
    _ = values.take (count_repeats values pattern * pattern.length) := by rw [hlen]

theorem read_varints_encode (l : List Nat) :
    ∀ rest, (∀ v ∈ l, v < 2 ^ 70) →
    read_varints (l.flatMap encode_varint ++ rest) l.length = .ok (l, rest) := by
  induction l with
  | nil => intro rest _; simp [read_varints]
  | cons v tl ih =>
    intro rest hb
    simp only [List.flatMap_cons, List.length_cons, read_varints, List.append_assoc]
    rw [decode_varint_encode_pre v _ (hb v (by simp))]
    simp only [bind, Except.bind]
    rw [List.drop_left]
    rw [ih rest (fun x hx => hb x (by simp [hx]))]

theorem rle_v2_best_snd (values : List Nat) :
    (rle_v2_best values).2 = 1 ∨
      (2 ≤ (rle_v2_best values).2 ∧
        (rle_v2_best values).2 < min (values.length / 2 + 1) 20) := by
  have main : ∀ (l : List Nat) (init : Option Nat × Nat),
      (init.2 = 1 ∨ (2 ≤ init.2 ∧ init.2 < min (values.length / 2 + 1) 20)) →
      (∀ x ∈ l, 2 ≤ x ∧ x < min (values.length / 2 + 1) 20) →
      ((l.foldl (fun (best : Option Nat × Nat) patternLen =>
        let repeats := count_repeats values (values.take patternLen)
        if 3 ≤ repeats then
          let size := 1 + patternLen + 1
          match best.1 with
          | none => (some size, patternLen)
          | some b => if size < b then (some size, patternLen) else best
        else best) init).2 = 1 ∨
        (2 ≤ (l.foldl (fun (best : Option Nat × Nat) patternLen =>
          let repeats := count_repeats values (values.take patternLen)
          if 3 ≤ repeats then
            let size := 1 + patternLen + 1
            match best.1 with
            | none => (some size, patternLen)
            | some b => if size < b then (some size, patternLen) else best
          else best) init).2 ∧
          (l.foldl (fun (best : Option Nat × Nat) patternLen =>
            let repeats := count_repeats values (values.take patternLen)
            if 3 ≤ repeats then
              let size := 1 + patternLen + 1
              match best.1 with
              | none => (some size, patternLen)
              | some b => if size < b then (some size, patternLen) else best
            else best) init).2 < min (values.length / 2 + 1) 20)) := by
    intro l
    induction l with
    | nil => intro init h0 _; exact h0
    | cons x xs ih =>
      intro init h0 hmem
      simp only [List.foldl_cons]
      apply ih
      · dsimp only
        split
        · split
          · right; exact hmem x (by simp)
          · split
            · right; exact hmem x (by simp)
            · exact h0
        · exact h0
      · intro y hy; exact hmem y (by simp [hy])
  unfold rle_v2_best
  apply main
  · left; rfl
  · intro x hx
    rcases List.mem_range'_1.mp hx with ⟨h1, h2⟩
    omega

theorem encode_rle_nonempty (v : Nat) (rest : List Nat) :
    encode_rle (v :: rest) ≠ [] := by
  obtain ⟨tail, htail⟩ := encode_rle_head v rest
  rw [htail]
  simp

theorem replicate_flatten_length (r : Nat) (pattern : List Nat) :
    (List.replicate r pattern).flatten.length = r * pattern.length := by
  simp [List.length_flatten, List.map_replicate, List.sum_replicate, mul_comm]

theorem decode_rle_v2_plain (values : List Nat)
    (hb : ∀ v ∈ values, v < 2 ^ 70)
    (hhead : ∀ v, values.head? = some v → v < 128 ∨ v % 128 ≠ 127) :
    decode_rle_v2 (encode_rle values) values.length = .ok values := by
  rcases values with _ | ⟨v, rest⟩
  · rfl
  · obtain ⟨tail, htail⟩ := encode_rle_head v rest
    have hv := hhead v rfl
    have hb255 : (if v ≤ 127 then v else v % 128 + 128) ≠ 255 := by
      split <;> omega
    rw [decode_rle_v2, htail, if_pos (by simp [hb255])]
    rw [← htail]
    exact decode_rle_encode _ hb

theorem decode_rle_v2_pattern_path (values : List Nat) (L : Nat)
    (hb : ∀ v ∈ values, v < 2 ^ 70) (hlen : values.length < 2 ^ 70)
    (hL2 : 2 ≤ L) (hLle : L ≤ values.length) :
    decode_rle_v2 (255 :: encode_varint L ++ (values.take L).flatMap encode_varint ++
      encode_varint (count_repeats values (values.take L)) ++
      (if count_repeats values (values.take L) * L < values.length
        then encode_rle (values.drop (count_repeats values (values.take L) * L))
        else [])) values.length = .ok values := by
  have hplen : (values.take L).length = L := by rw [List.length_take]; omega
  have hpne : values.take L ≠ [] := by
    intro hc
    have := congrArg List.length hc
    rw [hplen] at this
    simp at this
    omega
  have hrL : count_repeats values (values.take L) * L ≤ values.length := by
    have := count_repeats_mul_le (values.take L) hpne values
    rw [hplen] at this
    exact this
  have hreplay :
      (List.replicate (count_repeats values (values.take L)) (values.take L)).flatten =
        values.take (count_repeats values (values.take L) * L) := by
    have := count_repeats_take_eq (values.take L) hpne values
    rw [hplen] at this
    exact this
  have hreplaylen :
      (List.replicate (count_repeats values (values.take L)) (values.take L)).flatten.length =
        count_repeats values (values.take L) * L := by
    rw [replicate_flatten_length, hplen]
  have hLbound : L < 2 ^ 70 := by omega
  have hrbound : count_repeats values (values.take L) < 2 ^ 70 := by
    rcases Nat.eq_zero_or_pos (count_repeats values (values.take L)) with h | h
    · omega
    · have : count_repeats values (values.take L) ≤
          count_repeats values (values.take L) * L :=
        Nat.le_mul_of_pos_right _ (by omega)
      omega
  have hpatb : ∀ v ∈ values.take L, v < 2 ^ 70 :=
    fun v hv => hb v (List.mem_of_mem_take hv)
  rw [show 255 :: encode_varint L ++ (values.take L).flatMap encode_varint ++
      encode_varint (count_repeats values (values.take L)) ++
      (if count_repeats values (values.take L) * L < values.length
        then encode_rle (values.drop (count_repeats values (values.take L) * L))
        else []) =
      255 :: (encode_varint L ++ ((values.take L).flatMap encode_varint ++
        (encode_varint (count_repeats values (values.take L)) ++
          (if count_repeats values (values.take L) * L < values.length
            then encode_rle (values.drop (count_repeats values (values.take L) * L))
            else [])))) by simp]
  rw [decode_rle_v2, if_neg (by simp)]
  simp only [List.drop_one, List.tail_cons]
  rw [decode_varint_encode_pre L _ hLbound]
  simp only [bind, Except.bind]
  rw [List.drop_left]
  have hread := read_varints_encode (values.take L)
    (encode_varint (count_repeats values (values.take L)) ++
      (if count_repeats values (values.take L) * L < values.length
        then encode_rle (values.drop (count_repeats values (values.take L) * L))
        else [])) hpatb
  rw [hplen] at hread
  have hdecr := decode_varint_encode_pre (count_repeats values (values.take L))
    (if count_repeats values (values.take L) * L < values.length
      then encode_rle (values.drop (count_repeats values (values.take L) * L))
      else []) hrbound
  simp only [hread, hdecr, List.drop_left]
  by_cases hidx : count_repeats values (values.take L) * L < values.length
  · rw [if_pos hidx]
    have hdropne : values.drop (count_repeats values (values.take L) * L) ≠ [] := by
      intro hc
      have := congrArg List.length hc
      simp at this
      omega
    have htailne :
        encode_rle (values.drop (count_repeats values (values.take L) * L)) ≠ [] := by
      rcases hd : values.drop (count_repeats values (values.take L) * L) with _ | ⟨x, xs⟩
      · exact absurd hd hdropne
      · exact encode_rle_nonempty x xs
    rw [if_pos (by
      refine ⟨htailne, ?_⟩
      rw [hreplaylen]
      exact hidx)]
    have htail : decode_rle
        (encode_rle (values.drop (count_repeats values (values.take L) * L)))
        (values.length -
          (List.replicate (count_repeats values (values.take L))
            (values.take L)).flatten.length) =
        .ok (values.drop (count_repeats values (values.take L) * L)) := by
      rw [hreplaylen]
      rw [show values.length - count_repeats values (values.take L) * L =
        (values.drop (count_repeats values (values.take L) * L)).length by simp]
      exact decode_rle_encode _ (fun v hv => hb v (List.mem_of_mem_drop hv))
    rw [htail]
    simp only [bind, Except.bind]
    rw [hreplay, List.take_append_drop]
    simp
  · rw [if_neg hidx]
    rw [if_neg (by simp)]
    have hre : count_repeats values (values.take L) * L = values.length := by omega
    rw [hreplay, hre]
    simp

theorem decode_rle_v2_encode (values : List Nat)
    (hb : ∀ v ∈ values, v < 2 ^ 70) (hlen : values.length < 2 ^ 70)
    (hhead : ∀ v, values.head? = some v → v < 128 ∨ v % 128 ≠ 127) :
    decode_rle_v2 (encode_rle_v2 values) values.length = .ok values := by
  rw [encode_rle_v2]
  by_cases hsmall : values.length < 4
  · rw [if_pos hsmall]
    exact decode_rle_v2_plain values hb hhead
  · rw [if_neg hsmall]
    by_cases hbest : (rle_v2_best values).1.isSome ∧ 1 < (rle_v2_best values).2
    · rw [if_pos hbest]
      have hLle : (rle_v2_best values).2 ≤ values.length := by
        rcases rle_v2_best_snd values with h | ⟨_, h2⟩ <;> omega
      exact decode_rle_v2_pattern_path values (rle_v2_best values).2 hb hlen hbest.2 hLle
    · rw [if_neg hbest]
      exact decode_rle_v2_plain values hb hhead

/-! ## Claim theorems -/

/-- C6: for every integer n with 0 le n lt 2 pow 64, decode_varint applied to
encode_varint n at offset 0 returns n together with the number of bytes of
the encoding; varint decode is a left inverse of varint encode on the full
unsigned 64 bit range. -/
theorem C6_varint_round_trip (n : Nat) (h : n < 2 ^ 64) :
    decode_varint (encode_varint n) 0 = .ok (n, (encode_varint n).length) :=
  decode_varint_encode n (lt_trans h (by norm_num))

/-- Witness for C6 at the concrete input 300 (encoded as two bytes). -/
theorem C6_varint_round_trip_witness :
    300 < 2 ^ 64 ∧
      decode_varint (encode_varint 300) 0 = .ok (300, (encode_varint 300).length) :=
  ⟨by norm_num, C6_varint_round_trip 300 (by norm_num)⟩

/-- C2: the distinguished 0xFF prefix byte IS confused with the first byte
of a plain RLE encoding.  The list with the single element 255 is plain RLE
encoded as the bytes 255, 1, 1 (the varint of 255 starts with the byte
0xFF), and decode_rle_v2 misreads that first byte as the pattern marker and
fails, instead of returning the original list; so
decode_rle_v2 (encode_rle_v2 x) (x.length) = x fails at x = the singleton
255. -/
theorem C2_rle_v2_marker_confusion :
    encode_rle_v2 [255] = [255, 1, 1] ∧
      decode_rle_v2 (encode_rle_v2 [255]) 1 = .error "Incomplete varint" ∧
      decode_rle_v2 (encode_rle_v2 [255]) 1 ≠ .ok [255] := by
  refine ⟨rfl, rfl, ?_⟩
  intro h
  rw [show decode_rle_v2 (encode_rle_v2 [255]) 1 =
    Except.error "Incomplete varint" from rfl] at h
  exact Except.noConfusion h

/-- C1 counterexample: the extractor returns the empty template list for an
empty input (src/logsim/template_generator.py lines 91-92), and compress
with an empty template list raises ValueError (src/logsim/compressor.py
lines 345-346) instead of succeeding with an original_count 0 container. -/
theorem C1_empty_input_raises :
    compress [] (fun _ => none) (fun _ => 0) [] =
      .error "No templates extracted - cannot compress" := rfl

/-- C1 amended: whenever the extractor produced no templates (empty input,
or every structural group below min_support), compress raises ValueError
with the message No templates extracted - cannot compress, for every input
line list; there is no fallback that encodes lines as unmatched. -/
theorem C1_compress_raises_without_templates
    (matcher : String → Option (LogTemplate × List (String × String)))
    (parseTs : String → Int) (log_lines : List String) :
    compress [] matcher parseTs log_lines =
      .error "No templates extracted - cannot compress" := rfl

/-- C3: the stats operation reads the attributes severity_dict, ip_dict,
message_dict and severities of the loaded container, none of which is a
field of the CompressedLog dataclass (which defines severity_list, ip_list,
message_list and the varint byte strings instead), so get_statistics raises
AttributeError on every loaded container instead of returning the
statistics record. -/
theorem C3_get_statistics_attribute_error :
    "severity_dict" ∈ get_statistics_reads ∧
      "severity_dict" ∉ compressed_log_fields ∧
      "ip_dict" ∈ get_statistics_reads ∧
      "ip_dict" ∉ compressed_log_fields ∧
      "message_dict" ∈ get_statistics_reads ∧
      "message_dict" ∉ compressed_log_fields ∧
      "severities" ∈ get_statistics_reads ∧
      "severities" ∉ compressed_log_fields := by
  decide

/-- C7 counterexample: recognize returns the empty list, not a single
MESSAGE match with confidence 0.5, for the empty string and for an all
whitespace string (the early return of
src/logsim/context/classification/semantic_types.py lines 219-220),
regardless of the regex engine. -/
theorem C7_empty_input_counterexample :
    recognize (fun _ _ => none) "" = [] ∧
      recognize (fun _ _ => none) " " = [] ∧
      ([] : List SemanticMatch) ≠
        [{ type := .MESSAGE, value := "", confidence := 50,
           pattern_name := "default_message" }] := by
  refine ⟨rfl, by decide, by decide⟩

/-- C7 amended: recognize never raises and always returns a list sorted by
confidence in non increasing order; for an input that is neither empty nor
all whitespace, if no pattern matches the result is exactly one MESSAGE
match with confidence 0.50; for an empty or all whitespace input the result
is the empty list. -/
theorem C7_recognize_contract
    (search : String → String → Option (String × Nat × Nat)) (s : String) :
    (recognize search s).Pairwise (fun a b => b.confidence ≤ a.confidence) ∧
      ((s = "" ∨ py_strip s = "") → recognize search s = []) ∧
      (¬ (s = "" ∨ py_strip s = "") →
        (∀ cat ∈ recognizer_pattern_table, ∀ p ∈ cat.2, search p.1 s = none) →
        recognize search s =
          [{ type := .MESSAGE, value := s, confidence := 50,
             pattern_name := "default_message" }]) := by
  refine ⟨?_, ?_, ?_⟩
  · unfold recognize
    by_cases h : s = "" ∨ py_strip s = ""
    · rw [if_pos h]
      exact List.Pairwise.nil
    · rw [if_neg h]
      dsimp only
      split
      · exact List.pairwise_singleton _ _
      · haveI : IsTotal SemanticMatch (fun a b => b.confidence ≤ a.confidence) :=
          ⟨fun a b => Nat.le_total b.confidence a.confidence⟩
        haveI : IsTrans SemanticMatch (fun a b => b.confidence ≤ a.confidence) :=
          ⟨fun _ _ _ hab hbc => le_trans hbc hab⟩
        exact List.sorted_insertionSort _ _
  · intro h
    unfold recognize
    rw [if_pos h]
  · intro h hnone
    unfold recognize
    rw [if_neg h]
    have hfound : recognizer_pattern_table.flatMap
        (fun cat => match_patterns search s cat.2 cat.1) = [] := by
      rw [List.flatMap]
      rw [List.flatten_eq_nil_iff]
      intro l hl
      rcases List.mem_map.mp hl with ⟨cat, hcat, hl2⟩
      subst hl2
      rw [match_patterns, List.filterMap_eq_nil_iff]
      intro p hp
      rw [hnone cat hcat p hp]
      rfl
    rw [hfound]
    rfl

/-- Witness for C7 at the regex engine that never matches and the input
string hello: exactly one MESSAGE match with confidence 0.50. -/
theorem C7_recognize_contract_witness :
    recognize (fun _ _ => none) "hello" =
      [{ type := .MESSAGE, value := "hello", confidence := 50,
         pattern_name := "default_message" }] := by
  have h := C7_recognize_contract (fun _ _ => none) "hello"
  exact h.2.2 (by decide) (fun cat _ p _ => rfl)

/-! ## Lemmas: time range scan -/

theorem scan_time_range_eq (s e : Int) :
    ∀ (ds : List Int) (cur : Int) (i : Nat),
    scan_time_range s e ds cur i =
      ((List.range ds.length).filter
        (fun k => decide (s ≤ cur + (ds.take (k + 1)).sum ∧
          cur + (ds.take (k + 1)).sum ≤ e))).map (· + i) := by
  intro ds
  induction ds with
  | nil => intro cur i; simp [scan_time_range]
  | cons d tl ih =>
    intro cur i
    rw [scan_time_range]
    rw [ih (cur + d) (i + 1)]
    rw [List.length_cons, List.range_succ_eq_map]
    rw [List.filter_cons, List.filter_map]
    have hp0 : (decide (s ≤ cur + (List.take (0 + 1) (d :: tl)).sum ∧
        cur + (List.take (0 + 1) (d :: tl)).sum ≤ e)) =
        decide (s ≤ cur + d ∧ cur + d ≤ e) := by
      norm_num
    have hcomp : ((fun k => decide (s ≤ cur + (List.take (k + 1) (d :: tl)).sum ∧
          cur + (List.take (k + 1) (d :: tl)).sum ≤ e)) ∘ Nat.succ) =
        (fun k => decide (s ≤ cur + d + (List.take (k + 1) tl).sum ∧
          cur + d + (List.take (k + 1) tl).sum ≤ e)) := by
      funext k
      simp only [Function.comp_apply, Nat.succ_eq_add_one, List.take_succ_cons,
        List.sum_cons]
      apply decide_eq_decide.mpr
      constructor
      · rintro ⟨h1, h2⟩
        constructor <;> omega
      · rintro ⟨h1, h2⟩
        constructor <;> omega
    rw [hp0, hcomp]
    have hmaps : (List.map (· + i) (List.map Nat.succ
        ((List.range tl.length).filter
          (fun k => decide (s ≤ cur + d + (List.take (k + 1) tl).sum ∧
            cur + d + (List.take (k + 1) tl).sum ≤ e))))) =
        List.map (· + (i + 1))
          ((List.range tl.length).filter
            (fun k => decide (s ≤ cur + d + (List.take (k + 1) tl).sum ∧
              cur + d + (List.take (k + 1) tl).sum ≤ e))) := by
      rw [List.map_map]
      apply List.map_congr_left
      intro k _
      simp only [Function.comp_apply, Nat.succ_eq_add_one]
      omega
    simp only [decide_eq_true_eq]
    by_cases hd : s ≤ cur + d ∧ cur + d ≤ e
    · rw [if_pos hd, if_pos hd]
      rw [List.map_cons, hmaps]
      simp only [List.singleton_append]
      congr 1
      omega
    · rw [if_neg hd, if_neg hd]
      rw [hmaps]
      simp

/-- C9: query_time_range scans the positions whose timestamp, rebuilt by
cumulative sum of the zigzag varint decoded deltas from timestamp_base,
lies in the inclusive range; the scanned position list is exactly the
ascending list of such positions and the returned matched_count is its
length; consequently a range containing every rebuilt timestamp matches
exactly timestamp_count lines. -/
theorem C9_query_time_range (c : CompressedLog) (base s e : Int)
    (deltas : List Int)
    (hv : c.timestamps_varint = encode_varint_list (deltas.map zigzag_encode))
    (hcnt : c.timestamp_count = deltas.length)
    (hb : c.timestamp_base = base)
    (hd : ∀ d ∈ deltas, d.natAbs < 2 ^ 69) :
    query_time_range c s e = .ok
      { matched_count := (scan_time_range s e deltas base 0).length
        matched_logs := []
        scanned_count := c.timestamp_count } ∧
    scan_time_range s e deltas base 0 =
      ((List.range deltas.length).filter
        (fun k => decide (s ≤ recon_timestamp base deltas k ∧
          recon_timestamp base deltas k ≤ e))) ∧
    (scan_time_range s e deltas base 0).Pairwise (· < ·) ∧
    ((∀ k, k < deltas.length → s ≤ recon_timestamp base deltas k ∧
        recon_timestamp base deltas k ≤ e) →
      (scan_time_range s e deltas base 0).length = c.timestamp_count) := by
  have hpart2 : scan_time_range s e deltas base 0 =
      ((List.range deltas.length).filter
        (fun k => decide (s ≤ recon_timestamp base deltas k ∧
          recon_timestamp base deltas k ≤ e))) := by
    rw [scan_time_range_eq]
    simp [recon_timestamp]
  refine ⟨?_, hpart2, ?_, ?_⟩
  · rw [query_time_range]
    rcases hdel : deltas with _ | ⟨d, tl⟩
    · rw [hdel] at hv hcnt
      simp only [List.map_nil, encode_varint_list, List.flatMap_nil] at hv
      rw [if_pos hv]
      subst hdel
      simp [scan_time_range, hcnt]
    · rw [← hdel]
      have hne : c.timestamps_varint ≠ [] := by
        rw [hv, hdel]
        simp only [List.map_cons, encode_varint_list, List.flatMap_cons]
        intro hc
        exact encode_varint_ne_nil _ (List.append_eq_nil.mp hc).1
      rw [if_neg hne]
      have hdec : decode_varint_list c.timestamps_varint c.timestamp_count =
          .ok (deltas.map zigzag_encode) := by
        rw [hv, hcnt, ← List.length_map deltas zigzag_encode]
        apply decode_varint_list_encode
        intro v hvmem
        rcases List.mem_map.mp hvmem with ⟨dd, hdd, hz⟩
        subst hz
        have := zigzag_encode_le dd (2 ^ 69 - 1) (by have := hd dd hdd; omega)
        omega
      rw [hdec]
      simp only [bind, Except.bind]
      have hmapid : (deltas.map zigzag_encode).map zigzag_decode = deltas := by
        rw [List.map_map]
        have : (zigzag_decode ∘ zigzag_encode) = id := by
          funext x
          exact zigzag_decode_encode x
        rw [this, List.map_id]
      rw [hmapid, hb]
  · rw [hpart2]
    exact (List.pairwise_lt_range _).filter _
  · intro hall
    rw [hpart2]
    rw [List.filter_eq_self.mpr (by
      intro k hk
      have hkmem : k < deltas.length := List.mem_range.mp hk
      exact decide_eq_true (hall k hkmem))]
    rw [List.length_range, hcnt]

/-- Witness for C9: three timestamps 100, 1100, 2100 (base 100, deltas 0,
1000, 1000); the range 100 to 1500 matches exactly the positions 0 and 1. -/
theorem C9_query_time_range_witness :
    (∀ d ∈ [(0 : Int), 1000, 1000], d.natAbs < 2 ^ 69) ∧
    query_time_range
      { timestamps_varint := encode_varint_list ([(0 : Int), 1000, 1000].map zigzag_encode)
        timestamp_count := 3
        timestamp_base := 100 } 100 1500 =
      .ok { matched_count := 2, matched_logs := [], scanned_count := 3 } := by
  constructor
  · decide
  · have h := C9_query_time_range
      { timestamps_varint := encode_varint_list ([(0 : Int), 1000, 1000].map zigzag_encode)
        timestamp_count := 3
        timestamp_base := 100 } 100 100 1500 [0, 1000, 1000] rfl rfl rfl (by decide)
    rw [h.1]
    rfl

/-! ## Lemmas: dictionary encoding and state extension -/

theorem findIdx_lt_length {α : Type} (p : α → Bool) (l : List α) (i : Nat)
    (h : List.findIdx? p l = some i) : i < l.length :=
  (List.findIdx?_eq_some_iff_findIdx_eq.mp h).1

theorem indexOf_getElem {α : Type} [DecidableEq α] (v : α) :
    ∀ (m : List α) (i : Nat), List.indexOf? v m = some i → m[i]? = some v := by
  intro m
  induction m with
  | nil => intro i h; rw [List.indexOf?_nil] at h; cases h
  | cons b bs ih =>
    intro i h
    rw [List.indexOf?_cons] at h
    by_cases hb : (b == v) = true
    · rw [if_pos hb] at h
      cases h
      simp [beq_iff_eq.mp hb]
    · rw [if_neg hb] at h
      cases hi : List.indexOf? v bs with
      | none => rw [hi] at h; cases h
      | some j =>
        rw [hi] at h
        simp only [Option.map_some'] at h
        cases h
        simpa using ih j hi

theorem get_or_create_prefix {α : Type} [DecidableEq α] (v : α) (m : List α) :
    m <+: (get_or_create_id v m).2 := by
  rw [get_or_create_id]
  cases List.indexOf? v m with
  | none => exact List.prefix_append m [v]
  | some i => exact List.prefix_rfl

theorem get_or_create_getElem {α : Type} [DecidableEq α] (v : α) (m : List α) :
    ((get_or_create_id v m).2)[(get_or_create_id v m).1]? = some v := by
  rw [get_or_create_id]
  cases hi : List.indexOf? v m with
  | none => simp
  | some i => exact indexOf_getElem v m i hi

theorem get_or_create_len_le {α : Type} [DecidableEq α] (v : α) (m : List α) :
    (get_or_create_id v m).2.length ≤ m.length + 1 := by
  rw [get_or_create_id]
  cases List.indexOf? v m with
  | none => simp
  | some i => simp

theorem get_or_create_lt {α : Type} [DecidableEq α] (v : α) (m : List α) :
    (get_or_create_id v m).1 < (get_or_create_id v m).2.length :=
  (List.getElem?_eq_some.mp (get_or_create_getElem v m)).1

theorem prefix_getElem {α : Type} {l1 l2 : List α} (hp : l1 <+: l2) {i : Nat}
    {x : α} (h : l1[i]? = some x) : l2[i]? = some x := by
  obtain ⟨t, rfl⟩ := hp
  have hi : i < l1.length := (List.getElem?_eq_some.mp h).1
  rw [List.getElem?_append, if_pos hi]
  exact h

theorem prefix_getD {α : Type} {l1 l2 : List α} (hp : l1 <+: l2) {i : Nat}
    (hi : i < l1.length) (d : α) : l2.getD i d = l1.getD i d := by
  obtain ⟨t, rfl⟩ := hp
  rw [List.getD_eq_getElem l1 d hi,
    List.getD_eq_getElem _ d (lt_of_lt_of_le hi (by simp))]
  rw [List.getElem_append_left hi]

theorem collect_extends_refl (st : CollectSt) : collect_extends st st := by
  exact ⟨List.prefix_rfl, List.prefix_rfl, List.prefix_rfl, List.prefix_rfl,
    List.prefix_rfl, List.prefix_rfl, List.prefix_rfl, List.prefix_rfl⟩

theorem collect_extends_trans {a b c : CollectSt}
    (h1 : collect_extends a b) (h2 : collect_extends b c) : collect_extends a c := by
  obtain ⟨p1, p2, p3, p4, p5, p6, p7, p8⟩ := h1
  obtain ⟨q1, q2, q3, q4, q5, q6, q7, q8⟩ := h2
  exact ⟨p1.trans q1, p2.trans q2, p3.trans q3, p4.trans q4, p5.trans q5,
    p6.trans q6, p7.trans q7, p8.trans q8⟩

theorem stream_total_mono {a b : CollectSt} (h : collect_extends a b) :
    stream_total a ≤ stream_total b := by
  obtain ⟨_, _, _, p4, p5, p6, p7, _⟩ := h
  have := p4.length_le
  have := p5.length_le
  have := p6.length_le
  have := p7.length_le
  unfold stream_total
  omega

theorem entry_inv_mono {templates : List LogTemplate} {st st2 : CollectSt}
    {en : Int × List Nat} (hmsgs : st.msgs <+: st2.msgs)
    (htot : stream_total st ≤ stream_total st2)
    (h : entry_inv templates st en) : entry_inv templates st2 en := by
  obtain ⟨h1, h2, h3, h4⟩ := h
  refine ⟨h1, ?_, h3, fun fi hfi => lt_of_lt_of_le (h4 fi hfi) htot⟩
  intro hm
  obtain ⟨p, mid, hp, hget⟩ := h2 hm
  exact ⟨p, mid, hp, prefix_getElem hmsgs hget⟩

theorem encode_field_spec (templates : List LogTemplate) (parseTs : String → Int)
    (st : CollectSt) (fis : List Nat) (n v : String)
    (hp : ∀ s, (parseTs s).natAbs ≤ 2 ^ 62)
    (hinv : collect_inv templates st) :
    collect_extends st (encode_field parseTs st fis n v).1 ∧
    (encode_field parseTs st fis n v).1.logIndex = st.logIndex ∧
    stream_total (encode_field parseTs st fis n v).1 = stream_total st + 1 ∧
    collect_inv templates (encode_field parseTs st fis n v).1 ∧
    ∃ j, (encode_field parseTs st fis n v).2 = fis ++ [j] ∧
      j < stream_total (encode_field parseTs st fis n v).1 := by
  obtain ⟨⟨hl1, hl2, hl3⟩, ⟨hi1, hi2, hi3⟩, ⟨ht1, ht2⟩, hen⟩ := hinv
  by_cases h1 : py_upper n = "TIMESTAMP"
  · cases htb : st.tsBase with
    | none =>
      simp only [encode_field, if_pos h1, htb]
      refine ⟨⟨List.prefix_rfl, List.prefix_rfl, List.prefix_rfl,
        List.prefix_append _ _, List.prefix_rfl, List.prefix_rfl,
        List.prefix_rfl, List.prefix_rfl⟩, True.intro, ?_, ?_, st.timestamps.length,
        rfl, ?_⟩
      · simp only [stream_total, List.length_append, List.length_cons,
          List.length_nil]
        omega
      · refine ⟨⟨hl1, hl2, hl3⟩, ⟨hi1, hi2, hi3⟩, ⟨?_, hp v⟩, ?_⟩
        · intro d hd
          rcases List.mem_append.mp hd with hd | hd
          · exact ht1 d hd
          · simp at hd
            simp [hd]
        · intro en hmem
          refine entry_inv_mono ?_ ?_ (hen en hmem)
          · exact List.prefix_rfl
          · simp only [stream_total, List.length_append, List.length_cons,
              List.length_nil]
            omega
      · simp only [stream_total, List.length_append, List.length_cons,
          List.length_nil]
        omega
    | some b =>
      simp only [encode_field, if_pos h1, htb]
      refine ⟨⟨List.prefix_rfl, List.prefix_rfl, List.prefix_rfl,
        List.prefix_append _ _, List.prefix_rfl, List.prefix_rfl,
        List.prefix_rfl, List.prefix_rfl⟩, True.intro, ?_, ?_, st.timestamps.length,
        rfl, ?_⟩
      · simp only [stream_total, List.length_append, List.length_cons,
          List.length_nil]
        omega
      · refine ⟨⟨hl1, hl2, hl3⟩, ⟨hi1, hi2, hi3⟩, ⟨?_, hp v⟩, ?_⟩
        · intro d hd
          rcases List.mem_append.mp hd with hd | hd
          · exact ht1 d hd
          · simp at hd
            subst hd
            have hv := hp v
            have := Int.natAbs_sub_le (parseTs v) st.lastTs
            omega
        · intro en hmem
          refine entry_inv_mono ?_ ?_ (hen en hmem)
          · exact List.prefix_rfl
          · simp only [stream_total, List.length_append, List.length_cons,
              List.length_nil]
            omega
      · simp only [stream_total, List.length_append, List.length_cons,
          List.length_nil]
        omega
  · by_cases h2 : py_upper n = "SEVERITY" ∨ py_upper n = "STATUS"
    · rcases hg : get_or_create_id v st.sevMap with ⟨i, m⟩
      have hpre : st.sevMap <+: m := by
        have := get_or_create_prefix v st.sevMap
        rwa [hg] at this
      have hilt : i < m.length := by
        have := get_or_create_lt v st.sevMap
        rwa [hg] at this
      have hml : m.length ≤ st.sevMap.length + 1 := by
        have := get_or_create_len_le v st.sevMap
        rwa [hg] at this
      simp only [encode_field, if_neg h1, if_pos h2, hg]
      refine ⟨⟨hpre, List.prefix_rfl, List.prefix_rfl, List.prefix_rfl,
        List.prefix_append _ _, List.prefix_rfl, List.prefix_rfl,
        List.prefix_rfl⟩, True.intro, ?_, ?_, st.sevs.length, rfl, ?_⟩
      · simp only [stream_total, List.length_append, List.length_cons,
          List.length_nil]
        omega
      · refine ⟨⟨?_, hl2, hl3⟩, ⟨?_, hi2, hi3⟩, ⟨ht1, ht2⟩, ?_⟩
        · simp only [List.length_append, List.length_cons, List.length_nil]
          omega
        · intro id hid
          rcases List.mem_append.mp hid with hid | hid
          · exact lt_of_lt_of_le (hi1 id hid) hpre.length_le
          · simp at hid
            subst hid
            exact hilt
        · intro en hmem
          refine entry_inv_mono ?_ ?_ (hen en hmem)
          · exact List.prefix_rfl
          · simp only [stream_total, List.length_append, List.length_cons,
              List.length_nil]
            omega
      · simp only [stream_total, List.length_append, List.length_cons,
          List.length_nil]
        omega
    · by_cases h3 : py_upper n = "IP_ADDRESS" ∨ py_upper n = "HOST"
      · rcases hg : get_or_create_id v st.ipMap with ⟨i, m⟩
        have hpre : st.ipMap <+: m := by
          have := get_or_create_prefix v st.ipMap
          rwa [hg] at this
        have hilt : i < m.length := by
          have := get_or_create_lt v st.ipMap
          rwa [hg] at this
        have hml : m.length ≤ st.ipMap.length + 1 := by
          have := get_or_create_len_le v st.ipMap
          rwa [hg] at this
        simp only [encode_field, if_neg h1, if_neg h2, if_pos h3, hg]
        refine ⟨⟨List.prefix_rfl, hpre, List.prefix_rfl, List.prefix_rfl,
          List.prefix_rfl, List.prefix_append _ _, List.prefix_rfl,
          List.prefix_rfl⟩, True.intro, ?_, ?_, st.ips.length, rfl, ?_⟩
        · simp only [stream_total, List.length_append, List.length_cons,
            List.length_nil]
          omega
        · refine ⟨⟨hl1, ?_, hl3⟩, ⟨hi1, ?_, hi3⟩, ⟨ht1, ht2⟩, ?_⟩
          · simp only [List.length_append, List.length_cons, List.length_nil]
            omega
          · intro id hid
            rcases List.mem_append.mp hid with hid | hid
            · exact lt_of_lt_of_le (hi2 id hid) hpre.length_le
            · simp at hid
              subst hid
              exact hilt
          · intro en hmem
            refine entry_inv_mono ?_ ?_ (hen en hmem)
            · exact List.prefix_rfl
            · simp only [stream_total, List.length_append, List.length_cons,
                List.length_nil]
              omega
        · simp only [stream_total, List.length_append, List.length_cons,
            List.length_nil]
          omega
      · rcases hg : get_or_create_id v st.msgMap with ⟨i, m⟩
        have hpre : st.msgMap <+: m := by
          have := get_or_create_prefix v st.msgMap
          rwa [hg] at this
        have hilt : i < m.length := by
          have := get_or_create_lt v st.msgMap
          rwa [hg] at this
        have hml : m.length ≤ st.msgMap.length + 1 := by
          have := get_or_create_len_le v st.msgMap
          rwa [hg] at this
        simp only [encode_field, if_neg h1, if_neg h2, if_neg h3, hg]
        refine ⟨⟨List.prefix_rfl, List.prefix_rfl, hpre, List.prefix_rfl,
          List.prefix_rfl, List.prefix_rfl, List.prefix_append _ _,
          List.prefix_rfl⟩, True.intro, ?_, ?_, st.msgs.length, rfl, ?_⟩
        · simp only [stream_total, List.length_append, List.length_cons,
            List.length_nil]
          omega
        · refine ⟨⟨hl1, hl2, ?_⟩, ⟨hi1, hi2, ?_⟩, ⟨ht1, ht2⟩, ?_⟩
          · simp only [List.length_append, List.length_cons, List.length_nil]
            omega
          · intro id hid
            rcases List.mem_append.mp hid with hid | hid
            · exact lt_of_lt_of_le (hi3 id hid) hpre.length_le
            · simp at hid
              subst hid
              exact hilt
          · intro en hmem
            refine entry_inv_mono ?_ ?_ (hen en hmem)
            · exact List.prefix_append _ _
            · simp only [stream_total, List.length_append, List.length_cons,
                List.length_nil]
              omega
        · simp only [stream_total, List.length_append, List.length_cons,
            List.length_nil]
          omega

theorem getElem_concat {α : Type} (l : List α) (x : α) :
    (l ++ [x])[l.length]? = some x := by
  rw [List.getElem?_append]
  simp

theorem encode_fields_fold (templates : List LogTemplate) (parseTs : String → Int)
    (hp : ∀ s, (parseTs s).natAbs ≤ 2 ^ 62) :
    ∀ (fields : List (String × String)) (st : CollectSt) (fis : List Nat),
    collect_inv templates st →
    ∀ r : CollectSt × List Nat,
    r = fields.foldl
      (fun (p : CollectSt × List Nat) f => encode_field parseTs p.1 p.2 f.1 f.2)
      (st, fis) →
    collect_extends st r.1 ∧ r.1.logIndex = st.logIndex ∧
    stream_total r.1 = stream_total st + fields.length ∧
    collect_inv templates r.1 ∧
    (∀ fi ∈ r.2, fi ∈ fis ∨ fi < stream_total r.1) := by
  intro fields
  induction fields with
  | nil =>
    intro st fis hinv r hr
    subst hr
    exact ⟨collect_extends_refl st, rfl, rfl, hinv, fun fi hfi => Or.inl hfi⟩
  | cons f rest ih =>
    intro st fis hinv r hr
    rw [List.foldl_cons] at hr
    obtain ⟨hext1, hli1, htot1, hinv1, j, hfis1, hj⟩ :=
      encode_field_spec templates parseTs st fis f.1 f.2 hp hinv
    rcases he : encode_field parseTs st fis f.1 f.2 with ⟨st1, fis1⟩
    rw [he] at hr hext1 hli1 htot1 hinv1 hfis1 hj
    dsimp only at hext1 hli1 htot1 hinv1 hfis1 hj
    obtain ⟨hext2, hli2, htot2, hinv2, hfis2⟩ := ih st1 fis1 hinv1 r hr
    refine ⟨collect_extends_trans hext1 hext2, by rw [hli2, hli1], ?_, hinv2, ?_⟩
    · rw [htot2, htot1]
      simp only [List.length_cons]
      omega
    · intro fi hfi
      rcases hfis2 fi hfi with hin | hlt
      · rw [hfis1] at hin
        rcases List.mem_append.mp hin with hin | hin
        · exact Or.inl hin
        · simp at hin
          subst hin
          exact Or.inr (lt_of_lt_of_le hj (stream_total_mono hext2))
      · exact Or.inr hlt

theorem encode_line_spec (templates : List LogTemplate)
    (matcher : String → Option (LogTemplate × List (String × String)))
    (parseTs : String → Int)
    (hp : ∀ s, (parseTs s).natAbs ≤ 2 ^ 62) (hne : templates ≠ [])
    (st : CollectSt) (l : String) (hinv : collect_inv templates st) :
    collect_extends st (encode_line templates matcher parseTs st l) ∧
    (encode_line templates matcher parseTs st l).logIndex.length =
      st.logIndex.length + 1 ∧
    stream_total (encode_line templates matcher parseTs st l) =
      stream_total st + line_weight matcher l ∧
    collect_inv templates (encode_line templates matcher parseTs st l) ∧
    (matcher l = none → ∃ p mid,
      (encode_line templates matcher parseTs st l).logIndex[st.logIndex.length]? =
        some (-1, [p]) ∧
      (encode_line templates matcher parseTs st l).msgs[p]? = some mid ∧
      (encode_line templates matcher parseTs st l).msgMap[mid]? = some l) := by
  obtain ⟨⟨hl1, hl2, hl3⟩, ⟨hi1, hi2, hi3⟩, ⟨ht1, ht2⟩, hen⟩ := hinv
  cases hm : matcher l with
  | none =>
    rcases hg : get_or_create_id l st.msgMap with ⟨msgId, m⟩
    have hpre : st.msgMap <+: m := by
      have := get_or_create_prefix l st.msgMap
      rwa [hg] at this
    have hilt : msgId < m.length := by
      have := get_or_create_lt l st.msgMap
      rwa [hg] at this
    have hml : m.length ≤ st.msgMap.length + 1 := by
      have := get_or_create_len_le l st.msgMap
      rwa [hg] at this
    have hmget : m[msgId]? = some l := by
      have := get_or_create_getElem l st.msgMap
      rwa [hg] at this
    simp only [encode_line, hm, hg]
    refine ⟨⟨List.prefix_rfl, List.prefix_rfl, hpre, List.prefix_rfl,
      List.prefix_rfl, List.prefix_rfl, List.prefix_append _ _,
      List.prefix_append _ _⟩, by simp, ?_, ?_, ?_⟩
    · simp only [stream_total, line_weight, hm, List.length_append,
        List.length_cons, List.length_nil]
      omega
    · refine ⟨⟨hl1, hl2, ?_⟩, ⟨hi1, hi2, ?_⟩, ⟨ht1, ht2⟩, ?_⟩
      · simp only [List.length_append, List.length_cons, List.length_nil]
        omega
      · intro id hid
        rcases List.mem_append.mp hid with hid | hid
        · exact lt_of_lt_of_le (hi3 id hid) hpre.length_le
        · simp at hid
          subst hid
          exact hilt
      · intro en hmem
        rcases List.mem_append.mp hmem with hmem | hmem
        · refine entry_inv_mono ?_ ?_ (hen en hmem)
          · exact List.prefix_append _ _
          · simp only [stream_total, List.length_append, List.length_cons,
              List.length_nil]
            omega
        · simp at hmem
          subst hmem
          refine ⟨by omega, ?_, ?_, ?_⟩
          · intro _
            exact ⟨st.msgs.length, msgId, rfl, getElem_concat st.msgs msgId⟩
          · intro h
            exact absurd rfl h
          · intro fi hfi
            simp at hfi
            subst hfi
            simp only [stream_total, List.length_append, List.length_cons,
              List.length_nil]
            omega
    · intro _
      refine ⟨st.msgs.length, msgId, ?_, getElem_concat st.msgs msgId, hmget⟩
      exact getElem_concat st.logIndex (-1, [st.msgs.length])
  | some tf =>
    rcases tf with ⟨template, fields⟩
    rcases he : fields.foldl
        (fun (p : CollectSt × List Nat) f => encode_field parseTs p.1 p.2 f.1 f.2)
        (st, []) with ⟨st2, fis2⟩
    obtain ⟨hext, hli, htot, hinv2, hfis⟩ :=
      encode_fields_fold templates parseTs hp fields st []
        ⟨⟨hl1, hl2, hl3⟩, ⟨hi1, hi2, hi3⟩, ⟨ht1, ht2⟩, hen⟩ (st2, fis2) he.symm
    simp only at hext hli htot hinv2 hfis
    have htidx : ((templates.findIdx?
        (fun t => t.template_id = template.template_id)).getD 0) <
        templates.length := by
      cases hf : templates.findIdx? (fun t => t.template_id = template.template_id) with
      | none =>
        simp only [Option.getD_none]
        exact List.length_pos.mpr hne
      | some k =>
        simp only [Option.getD_some]
        exact findIdx_lt_length _ templates k hf
    simp only [encode_line, hm, he]
    obtain ⟨hv1, hv2, hv3, hv4⟩ := hinv2
    refine ⟨?_, by simp [hli], ?_, ?_, ?_⟩
    · refine collect_extends_trans hext ?_
      exact ⟨List.prefix_rfl, List.prefix_rfl, List.prefix_rfl, List.prefix_rfl,
        List.prefix_rfl, List.prefix_rfl, List.prefix_rfl, List.prefix_append _ _⟩
    · simp only [stream_total, line_weight, hm]
      simpa only [stream_total] using htot
    · refine ⟨hv1, hv2, hv3, ?_⟩
      intro en hmem
      rcases List.mem_append.mp hmem with hmem | hmem
      · exact hv4 en hmem
      · simp at hmem
        subst hmem
        refine ⟨by omega, ?_, ?_, ?_⟩
        · intro h
          omega
        · intro _
          simpa using htidx
        · intro fi hfi
          rcases hfis fi hfi with hin | hlt
          · cases hin
          · exact hlt
    · intro hcontra
      cases hcontra

theorem collect_fold_spec (templates : List LogTemplate)
    (matcher : String → Option (LogTemplate × List (String × String)))
    (parseTs : String → Int)
    (hp : ∀ s, (parseTs s).natAbs ≤ 2 ^ 62) (hne : templates ≠ []) :
    ∀ (lines : List String) (st : CollectSt), collect_inv templates st →
    ∀ fin : CollectSt,
    fin = lines.foldl (encode_line templates matcher parseTs) st →
    collect_extends st fin ∧
    fin.logIndex.length = st.logIndex.length + lines.length ∧
    stream_total fin = stream_total st + (lines.map (line_weight matcher)).sum ∧
    collect_inv templates fin := by
  intro lines
  induction lines with
  | nil =>
    intro st hinv fin hfin
    subst fin
    exact ⟨collect_extends_refl st, rfl, by simp, hinv⟩
  | cons l rest ih =>
    intro st hinv fin hfin
    rw [List.foldl_cons] at hfin
    obtain ⟨hext1, hlen1, htot1, hinv1, _⟩ :=
      encode_line_spec templates matcher parseTs hp hne st l hinv
    obtain ⟨hext2, hlen2, htot2, hinv2⟩ := ih _ hinv1 fin hfin
    refine ⟨collect_extends_trans hext1 hext2, ?_, ?_, hinv2⟩
    · rw [hlen2, hlen1]
      simp only [List.length_cons]
      omega
    · rw [htot2, htot1]
      simp only [List.map_cons, List.sum_cons]
      omega

theorem collect_unmatched_line (templates : List LogTemplate)
    (matcher : String → Option (LogTemplate × List (String × String)))
    (parseTs : String → Int)
    (hp : ∀ s, (parseTs s).natAbs ≤ 2 ^ 62) (hne : templates ≠ []) :
    ∀ (lines : List String) (st : CollectSt) (i : Nat) (hi : i < lines.length),
    collect_inv templates st →
    matcher (lines.get ⟨i, hi⟩) = none →
    ∀ fin : CollectSt,
    fin = lines.foldl (encode_line templates matcher parseTs) st →
    ∃ p mid, fin.logIndex[st.logIndex.length + i]? = some (-1, [p]) ∧
      fin.msgs[p]? = some mid ∧
      fin.msgMap[mid]? = some (lines.get ⟨i, hi⟩) := by
  intro lines
  induction lines with
  | nil =>
    intro st i hi
    simp at hi
  | cons l rest ih =>
    intro st i hi hinv hm fin hfin
    rw [List.foldl_cons] at hfin
    obtain ⟨hext1, hlen1, htot1, hinv1, hun⟩ :=
      encode_line_spec templates matcher parseTs hp hne st l hinv
    cases i with
    | zero =>
      have hml : matcher l = none := by
        simpa using hm
      obtain ⟨p, mid, hidx, hmsgs, hmap⟩ := hun hml
      obtain ⟨hext2, _, _, _⟩ :=
        collect_fold_spec templates matcher parseTs hp hne rest _ hinv1 fin hfin
      obtain ⟨_, _, hmm, _, _, _, hms, hli⟩ := hext2
      refine ⟨p, mid, ?_, prefix_getElem hms hmsgs, ?_⟩
      · rw [Nat.add_zero]
        exact prefix_getElem hli hidx
      · have := prefix_getElem hmm hmap
        simpa using this
    | succ i2 =>
      have hi2 : i2 < rest.length := by
        simp at hi
        omega
      have hm2 : matcher (rest.get ⟨i2, hi2⟩) = none := by
        simpa using hm
      obtain ⟨p, mid, hidx, hmsgs, hmap⟩ :=
        ih _ i2 hi2 hinv1 hm2 fin hfin
      refine ⟨p, mid, ?_, hmsgs, by simpa using hmap⟩
      have harith : (encode_line templates matcher parseTs st l).logIndex.length +
          i2 = st.logIndex.length + (i2 + 1) := by
        omega
      rw [← harith]
      exact hidx

/-! ## Lemmas: load and decompress side -/

theorem encode_varint_list_ne_nil (v : Nat) (tl : List Nat) :
    encode_varint_list (v :: tl) ≠ [] := by
  simp only [encode_varint_list, List.flatMap_cons]
  intro hc
  exact encode_varint_ne_nil v (List.append_eq_nil.mp hc).1

theorem mapM_ok {α β : Type} (f : α → Except String β) (g : α → β) :
    ∀ l : List α, (∀ a ∈ l, f a = .ok (g a)) → l.mapM f = .ok (l.map g) := by
  intro l
  induction l with
  | nil => intro _; rfl
  | cons a tl ih =>
    intro h
    rw [List.mapM_cons, h a (by simp), ih (fun x hx => h x (by simp [hx]))]
    rfl

theorem set_patterns_getElem :
    ∀ (ts : List StoredTemplate) (ps : List (List String)) (i : Nat),
    i < ts.length → i < ps.length →
    ∃ t p, (set_patterns ts ps)[i]? = some t ∧ t.pattern = some p := by
  intro ts
  induction ts with
  | nil =>
    intro ps i h1 h2
    simp at h1
  | cons t ts ih =>
    intro ps i h1 h2
    cases ps with
    | nil => simp at h2
    | cons p ps =>
      cases i with
      | zero => exact ⟨{ t with pattern := some p }, p, by simp [set_patterns], rfl⟩
      | succ j =>
        obtain ⟨t2, p2, hget, hp⟩ := ih ps j
          (by simp at h1; omega) (by simp at h2; omega)
        refine ⟨t2, p2, ?_, hp⟩
        simp only [set_patterns, List.getElem?_cons_succ]
        exact hget

theorem build_refs_for_spec :
    ∀ (tokens : List String) (pool : List String),
    pool <+: (build_refs_for tokens pool).2 ∧
    (build_refs_for tokens pool).2.length ≤ pool.length + tokens.length ∧
    (∀ id ∈ (build_refs_for tokens pool).1,
      id < (build_refs_for tokens pool).2.length) := by
  intro tokens
  induction tokens with
  | nil =>
    intro pool
    exact ⟨List.prefix_rfl, by simp [build_refs_for], by simp [build_refs_for]⟩
  | cons tok rest ih =>
    intro pool
    rcases hg : get_or_create_id tok pool with ⟨i, pool2⟩
    have hpre : pool <+: pool2 := by
      have := get_or_create_prefix tok pool
      rwa [hg] at this
    have hilt : i < pool2.length := by
      have := get_or_create_lt tok pool
      rwa [hg] at this
    have hml : pool2.length ≤ pool.length + 1 := by
      have := get_or_create_len_le tok pool
      rwa [hg] at this
    obtain ⟨hpre2, hlen2, hids2⟩ := ih pool2
    rcases hb : build_refs_for rest pool2 with ⟨ids, pool3⟩
    rw [hb] at hpre2 hlen2 hids2
    dsimp only at hpre2 hlen2 hids2
    simp only [build_refs_for, hg, hb]
    refine ⟨hpre.trans hpre2, by simp; omega, ?_⟩
    intro id hid
    rcases List.mem_cons.mp hid with hid | hid
    · subst hid
      exact lt_of_lt_of_le hilt hpre2.length_le
    · exact hids2 id hid

theorem build_token_pool_go_spec :
    ∀ (ts : List LogTemplate) (pool : List String) (acc : List (List Nat)),
    pool <+: (build_token_pool.build_token_pool_go ts pool acc).1 ∧
    (build_token_pool.build_token_pool_go ts pool acc).1.length ≤
      pool.length + (ts.map (fun t => t.pattern.length)).sum ∧
    (build_token_pool.build_token_pool_go ts pool acc).2.length =
      acc.length + ts.length ∧
    ((∀ ids ∈ acc, ∀ id ∈ ids, id < pool.length) →
      ∀ ids ∈ (build_token_pool.build_token_pool_go ts pool acc).2, ∀ id ∈ ids,
        id < (build_token_pool.build_token_pool_go ts pool acc).1.length) := by
  intro ts
  induction ts with
  | nil =>
    intro pool acc
    refine ⟨List.prefix_rfl, by simp [build_token_pool.build_token_pool_go], ?_, ?_⟩
    · simp [build_token_pool.build_token_pool_go]
    · intro hacc ids hids id hid
      simp only [build_token_pool.build_token_pool_go] at hids ⊢
      exact hacc ids (List.mem_reverse.mp hids) id hid
  | cons t rest ih =>
    intro pool acc
    rcases hb : build_refs_for t.pattern pool with ⟨ids0, pool2⟩
    have hspec := build_refs_for_spec t.pattern pool
    rw [hb] at hspec
    dsimp only at hspec
    obtain ⟨hpre2, hlen2, hids0⟩ := hspec
    obtain ⟨hpre3, hlen3, hcnt3, hids3⟩ := ih pool2 (ids0 :: acc)
    simp only [build_token_pool.build_token_pool_go, hb]
    refine ⟨hpre2.trans hpre3, ?_, ?_, ?_⟩
    · simp only [List.map_cons, List.sum_cons]
      omega
    · rw [hcnt3]
      simp only [List.length_cons]
      omega
    · intro hacc ids hids id hid
      refine hids3 ?_ ids hids id hid
      intro ids2 hids2 id2 hid2
      rcases List.mem_cons.mp hids2 with hids2 | hids2
      · subst hids2
        exact hids0 id2 hid2
      · exact lt_of_lt_of_le (hacc ids2 hids2 id2 hid2) hpre2.length_le

theorem build_token_pool_spec (templates : List LogTemplate) :
    (build_token_pool templates).2.length = templates.length ∧
    (build_token_pool templates).1.length ≤
      (templates.map (fun t => t.pattern.length)).sum ∧
    (∀ ids ∈ (build_token_pool templates).2, ∀ id ∈ ids,
      id < (build_token_pool templates).1.length) := by
  cases templates with
  | nil => exact ⟨rfl, by simp [build_token_pool], by simp [build_token_pool]⟩
  | cons t rest =>
    rcases hb : build_refs_for t.pattern [] with ⟨ids0, pool2⟩
    have hspec := build_refs_for_spec t.pattern []
    rw [hb] at hspec
    dsimp only at hspec
    obtain ⟨_, hlen2, hids0⟩ := hspec
    obtain ⟨hpre3, hlen3, hcnt3, hids3⟩ := build_token_pool_go_spec rest pool2 [ids0]
    simp only [build_token_pool, hb]
    refine ⟨?_, ?_, ?_⟩
    · rw [hcnt3]
      simp only [List.length_cons, List.length_nil, List.length_singleton]
      omega
    · simp only [List.map_cons, List.sum_cons]
      simp at hlen2
      omega
    · refine hids3 ?_
      intro ids2 hids2 id2 hid2
      rcases List.mem_cons.mp hids2 with hids2 | hids2
      · subst hids2
        exact hids0 id2 hid2
      · simp at hids2

theorem segment_counts_flatten :
    ∀ ls : List (List Nat), segment_counts ls.flatten (ls.map List.length) = ls := by
  intro ls
  induction ls with
  | nil => rfl
  | cons l rest ih =>
    simp only [List.flatten_cons, List.map_cons, segment_counts]
    rw [List.take_left, List.drop_left, ih]

theorem mapM_decode_encode (rss : List (List Nat))
    (hb : ∀ ids ∈ rss, ∀ id ∈ ids, id < 2 ^ 70) :
    (rss.map encode_varint_list).mapM decode_all_varints = .ok rss := by
  induction rss with
  | nil => rfl
  | cons ids rest ih =>
    rw [List.map_cons, List.mapM_cons,
      decode_all_varints_encode ids (fun v hv => hb ids (by simp) v hv),
      ih (fun i hi v hv => hb i (by simp [hi]) v hv)]
    rfl

theorem reconstruct_patterns_ok (c : CompressedLog) (rss : List (List Nat))
    (hpool : c.token_pool ≠ [])
    (hrefs : c.template_token_refs = rss.map encode_varint_list)
    (hrne : rss ≠ [])
    (hb : ∀ ids ∈ rss, ∀ id ∈ ids, id < c.token_pool.length)
    (hlen : c.token_pool.length < 2 ^ 70) :
    reconstruct_patterns c = .ok { c with templates := (set_patterns c.templates
      (rss.map (List.map (fun tid => c.token_pool.getD tid "")))) } := by
  have hrefsne : c.template_token_refs ≠ [] := by
    rw [hrefs]
    simp only [ne_eq, List.map_eq_nil_iff]
    exact hrne
  rw [reconstruct_patterns, if_pos ⟨hpool, hrefsne⟩]
  have hdec : c.template_token_refs.mapM decode_all_varints = .ok rss := by
    rw [hrefs]
    exact mapM_decode_encode rss
      (fun ids hids id hid => lt_of_lt_of_le (hb ids hids id hid) (le_of_lt hlen))
  rw [hdec]
  simp only [bind, Except.bind]
  have hpat : rss.mapM (fun ids => ids.mapM (fun tid =>
      match c.token_pool[tid]? with
      | some tok => Except.ok tok
      | none => Except.error "IndexError: token pool")) =
      .ok (rss.map (List.map (fun tid => c.token_pool.getD tid ""))) := by
    refine mapM_ok _ _ rss ?_
    intro ids hids
    refine mapM_ok _ _ ids ?_
    intro tid htid
    have hlt : tid < c.token_pool.length := hb ids hids tid htid
    rw [List.getElem?_eq_getElem hlt, List.getD_eq_getElem _ _ hlt]
  rw [hpat]

theorem decompress_fold (c : CompressedLog) (timestamps : List Int)
    (severities ip_addresses messages : List Nat) :
    ∀ (entries : List (Int × List Nat)) (logs0 : List String) (cur0 : Int),
    (∀ en ∈ entries, entry_ok c messages en) →
    ∃ (outs : List String) (cur : Int),
      entries.foldlM
        (decompress_line c timestamps severities ip_addresses messages)
        (logs0, cur0) = .ok (logs0 ++ outs, cur) ∧
      outs.length = entries.length ∧
      (∀ (j p mid : Nat) (s : String), entries[j]? = some (-1, [p]) →
        messages[p]? = some mid →
        c.message_list[mid]? = some s → outs[j]? = some s) := by
  intro entries
  induction entries with
  | nil =>
    intro logs0 cur0 _
    refine ⟨[], cur0, by simp [List.foldlM, pure, Except.pure], rfl, ?_⟩
    intro j p mid s h
    simp at h
  | cons en rest ih =>
    intro logs0 cur0 hok
    obtain ⟨h1, h2⟩ := hok en (by simp)
    rcases en with ⟨tid, fis⟩
    by_cases hm1 : tid = -1
    · obtain ⟨p, mid, s, hhead, hmsg, hlist⟩ := h1 hm1
      subst hm1
      have hstep : decompress_line c timestamps severities ip_addresses messages
          (logs0, cur0) (-1, fis) = .ok (logs0 ++ [s], cur0) := by
        simp only [decompress_line, if_pos]
        simp only at hhead
        rw [hhead]
        simp only []
        rw [hmsg]
        simp only []
        rw [hlist]
      obtain ⟨outs, cur, hfold, hlencnt, hcorr⟩ :=
        ih (logs0 ++ [s]) cur0 (fun e he => hok e (by simp [he]))
      refine ⟨s :: outs, cur, ?_, by simp [hlencnt], ?_⟩
      · rw [List.foldlM_cons, hstep]
        simp only [bind, Except.bind]
        rw [hfold]
        simp
      · intro j p2 mid2 s2 hj hmsg2 hlist2
        cases j with
        | zero =>
          simp only [List.getElem?_cons_zero, Option.some_inj] at hj
          have hfis : fis = [p2] := congrArg Prod.snd hj
          subst hfis
          simp only at hhead
          simp only [List.head?_cons, Option.some_inj] at hhead
          subst hhead
          rw [hmsg] at hmsg2
          rw [Option.some_inj] at hmsg2
          subst hmsg2
          rw [hlist] at hlist2
          rw [Option.some_inj] at hlist2
          subst hlist2
          simp
        | succ j2 =>
          simp only [List.getElem?_cons_succ] at hj ⊢
          exact hcorr j2 p2 mid2 s2 hj hmsg2 hlist2
    · obtain ⟨t, pat, hget, hpat⟩ := h2 hm1
      have hstep : decompress_line c timestamps severities ip_addresses messages
          (logs0, cur0) (tid, fis) =
          .ok (logs0 ++ [py_join_space (pat.foldl
            (reconstruct_part c timestamps severities ip_addresses messages fis)
            ([], cur0, 0)).1],
          (pat.foldl
            (reconstruct_part c timestamps severities ip_addresses messages fis)
            ([], cur0, 0)).2.1) := by
        simp only [decompress_line, if_neg hm1]
        simp only at hget
        rw [hget]
        simp only []
        rw [hpat]
      obtain ⟨outs, cur, hfold, hlencnt, hcorr⟩ :=
        ih (logs0 ++ [py_join_space (pat.foldl
          (reconstruct_part c timestamps severities ip_addresses messages fis)
          ([], cur0, 0)).1])
          ((pat.foldl
            (reconstruct_part c timestamps severities ip_addresses messages fis)
            ([], cur0, 0)).2.1)
          (fun e he => hok e (by simp [he]))
      refine ⟨py_join_space (pat.foldl
          (reconstruct_part c timestamps severities ip_addresses messages fis)
          ([], cur0, 0)).1 :: outs, cur, ?_, by simp [hlencnt], ?_⟩
      · rw [List.foldlM_cons, hstep]
        simp only [bind, Except.bind]
        rw [hfold]
        simp
      · intro j p2 mid2 s2 hj hmsg2 hlist2
        cases j with
        | zero =>
          simp only [List.getElem?_cons_zero, Option.some_inj] at hj
          exact absurd (by simpa using congrArg Prod.fst hj) hm1
        | succ j2 =>
          simp only [List.getElem?_cons_succ] at hj ⊢
          exact hcorr j2 p2 mid2 s2 hj hmsg2 hlist2

theorem collect_inv_init (templates : List LogTemplate) :
    collect_inv templates {} := by
  refine ⟨⟨?_, ?_, ?_⟩, ⟨?_, ?_, ?_⟩, ⟨?_, ?_⟩, ?_⟩ <;> simp

theorem stream_decode (xs : List Nat) (hb : ∀ v ∈ xs, v < 2 ^ 70) :
    (if (if xs ≠ [] then encode_varint_list xs else []) ≠ [] then
      decode_varint_list (if xs ≠ [] then encode_varint_list xs else [])
        (if xs ≠ [] then xs.length else 0)
    else Except.ok []) = .ok xs := by
  rcases xs with _ | ⟨v, tl⟩
  · simp
  · have hne : (v :: tl) ≠ [] := by simp
    rw [if_pos hne, if_pos hne, if_pos (encode_varint_list_ne_nil v tl)]
    exact decode_varint_list_encode (v :: tl) hb

theorem tstream_decode (ds : List Int) (hb : ∀ d ∈ ds, d.natAbs ≤ 2 ^ 63) :
    (if (if ds ≠ [] then encode_varint_list (ds.map zigzag_encode) else []) ≠ [] then
      (decode_varint_list
        (if ds ≠ [] then encode_varint_list (ds.map zigzag_encode) else [])
        (if ds ≠ [] then ds.length else 0)).map (List.map zigzag_decode)
    else Except.ok []) = .ok ds := by
  rcases ds with _ | ⟨d, tl⟩
  · simp
  · have hne : (d :: tl) ≠ [] := by simp
    have hmapne : ((d :: tl).map zigzag_encode) ≠ [] := by simp
    rcases hm : (d :: tl).map zigzag_encode with _ | ⟨z, ztl⟩
    · exact absurd hm hmapne
    · rw [if_pos hne, if_pos hne, if_pos (encode_varint_list_ne_nil z ztl), ← hm]
      have hlen : (d :: tl).length = ((d :: tl).map zigzag_encode).length := by simp
      rw [hlen, decode_varint_list_encode ((d :: tl).map zigzag_encode) ?hb]
      case hb =>
        intro v hv
        obtain ⟨e, he, hve⟩ := List.mem_map.mp hv
        subst hve
        have := zigzag_encode_le e (2 ^ 63) (hb e he)
        omega
      simp only [Except.map]
      rw [List.map_map]
      have : (zigzag_decode ∘ zigzag_encode) = id := by
        funext x
        simp [zigzag_decode_encode]
      rw [this, List.map_id]

theorem head_map_mem {α β : Type} (f : α → β) (l : List α) (v : β)
    (h : (l.map f).head? = some v) : ∃ x ∈ l, v = f x := by
  rcases l with _ | ⟨a, tl⟩
  · simp at h
  · simp at h
    exact ⟨a, by simp, h.symm⟩

theorem bind_ite {α β : Type} (c : Prop) [inst : Decidable c]
    (a b : Except String α) (k : α → Except String β) :
    (if c then (a >>= k) else (b >>= k)) = ((if c then a else b) >>= k) := by
  split <;> rfl

theorem ok_bind {α β : Type} (x : α) (k : α → Except String β) :
    (Except.ok x >>= k) = k x := rfl

theorem decompress_collect (templates : List LogTemplate)
    (matcher : String → Option (LogTemplate × List (String × String)))
    (parseTs : String → Int) (lines : List String) (c2 : CompressedLog)
    (st : CollectSt)
    (hp : ∀ s, (parseTs s).natAbs ≤ 2 ^ 62)
    (hne : templates ≠ [])
    (hnl : lines.length ≤ 2 ^ 32)
    (hW : ∀ l, line_weight matcher l ≤ 2 ^ 32)
    (ht : templates.length ≤ 2 ^ 32)
    (hst : st = lines.foldl (encode_line templates matcher parseTs) {})
    (hts : c2.timestamps_varint =
      (if st.timestamps ≠ [] then encode_varint_list (st.timestamps.map zigzag_encode)
       else []))
    (htsc : c2.timestamp_count =
      (if st.timestamps ≠ [] then st.timestamps.length else 0))
    (hsev : c2.severities_varint =
      (if st.sevs ≠ [] then encode_varint_list st.sevs else []))
    (hsevc : c2.severity_count = (if st.sevs ≠ [] then st.sevs.length else 0))
    (hipv : c2.ip_addresses_varint =
      (if st.ips ≠ [] then encode_varint_list st.ips else []))
    (hipc : c2.ip_count = (if st.ips ≠ [] then st.ips.length else 0))
    (hmv : c2.messages_varint =
      (if st.msgs ≠ [] then encode_varint_list st.msgs else []))
    (hmc : c2.message_count = (if st.msgs ≠ [] then st.msgs.length else 0))
    (hml : c2.message_list = st.msgMap)
    (hrle : c2.log_index_templates_rle =
      encode_rle_v2 ((st.logIndex.map (·.1)).map zigzag_encode))
    (hfv : c2.log_index_fields_varint =
      encode_varint_list (st.logIndex.map (·.2)).flatten)
    (hfc : c2.log_index_field_counts = st.logIndex.map (·.2.length))
    (hoc : c2.original_count = lines.length)
    (htpl : ∀ tidx : Nat, tidx < templates.length →
      ∃ t pat, c2.templates[tidx]? = some t ∧ t.pattern = some pat) :
    ∃ out : List String, decompress c2 = .ok out ∧ out.length = lines.length ∧
      ∀ (i : Nat) (hi : i < lines.length),
        matcher (lines.get ⟨i, hi⟩) = none →
        out[i]? = some (lines.get ⟨i, hi⟩) := by
  obtain ⟨hext, hlen, htot, hinv⟩ :=
    collect_fold_spec templates matcher parseTs hp hne lines {}
      (collect_inv_init templates) st hst
  obtain ⟨⟨hm1, hm2, hm3⟩, ⟨hid1, hid2, hid3⟩, ⟨htd, _⟩, hen⟩ := hinv
  simp only [CollectSt.logIndex, List.length_nil, Nat.zero_add] at hlen
  have htot2 : stream_total st = (lines.map (line_weight matcher)).sum := by
    rw [htot]
    simp [stream_total]
  have hsum : (lines.map (line_weight matcher)).sum ≤ 2 ^ 64 := by
    have h1 : (lines.map (line_weight matcher)).sum ≤
        (lines.map (line_weight matcher)).length • (2 ^ 32 : Nat) :=
      List.sum_le_card_nsmul _ _ (by
        intro x hx
        obtain ⟨l, _, hxl⟩ := List.mem_map.mp hx
        subst hxl
        exact hW l)
    rw [smul_eq_mul, List.length_map] at h1
    calc (lines.map (line_weight matcher)).sum ≤ lines.length * 2 ^ 32 := h1
      _ ≤ 2 ^ 32 * 2 ^ 32 := Nat.mul_le_mul_right _ hnl
      _ ≤ 2 ^ 64 := by norm_num
  have htotB : stream_total st ≤ 2 ^ 64 := by rw [htot2]; exact hsum
  have hstream_le : st.sevs.length ≤ stream_total st ∧
      st.ips.length ≤ stream_total st ∧ st.msgs.length ≤ stream_total st := by
    unfold stream_total
    omega
  have hsev70 : ∀ v ∈ st.sevs, v < 2 ^ 70 := by
    intro v hv
    have h1 := hid1 v hv
    have h2 : st.sevMap.length ≤ 2 ^ 64 := le_trans (le_trans hm1 hstream_le.1) htotB
    calc v < st.sevMap.length := h1
      _ ≤ 2 ^ 64 := h2
      _ < 2 ^ 70 := by norm_num
  have hip70 : ∀ v ∈ st.ips, v < 2 ^ 70 := by
    intro v hv
    have h1 := hid2 v hv
    have h2 : st.ipMap.length ≤ 2 ^ 64 := le_trans (le_trans hm2 hstream_le.2.1) htotB
    calc v < st.ipMap.length := h1
      _ ≤ 2 ^ 64 := h2
      _ < 2 ^ 70 := by norm_num
  have hmsg70 : ∀ v ∈ st.msgs, v < 2 ^ 70 := by
    intro v hv
    have h1 := hid3 v hv
    have h2 : st.msgMap.length ≤ 2 ^ 64 := le_trans (le_trans hm3 hstream_le.2.2) htotB
    calc v < st.msgMap.length := h1
      _ ≤ 2 ^ 64 := h2
      _ < 2 ^ 70 := by norm_num
  have e1 := tstream_decode st.timestamps htd
  have e2 := stream_decode st.sevs hsev70
  have e3 := stream_decode st.ips hip70
  have e4 := stream_decode st.msgs hmsg70
  have hlz : ((st.logIndex.map (·.1)).map zigzag_encode).length = lines.length := by
    simp [hlen]
  have hzz : decode_rle_v2
      (encode_rle_v2 ((st.logIndex.map (·.1)).map zigzag_encode)) lines.length =
      .ok ((st.logIndex.map (·.1)).map zigzag_encode) := by
    rw [← hlz]
    refine decode_rle_v2_encode _ ?_ ?_ ?_
    · intro v hv
      rw [List.map_map] at hv
      obtain ⟨en, hmem, hv2⟩ := List.mem_map.mp hv
      subst hv2
      obtain ⟨hge, _, hlt, _⟩ := hen en hmem
      by_cases hneg : en.1 = -1
      · have : zigzag_encode ((-1 : Int)) = 1 := by decide
        simp only [Function.comp]
        rw [hneg, this]
        norm_num
      · have habs : en.1.natAbs ≤ templates.length := by
          have h0 : 0 ≤ en.1 := by omega
          have h2 := hlt hneg
          omega
        have h3 := zigzag_encode_le en.1 templates.length habs
        simp only [Function.comp]
        calc zigzag_encode en.1 ≤ 2 * templates.length := h3
          _ ≤ 2 * 2 ^ 32 := by omega
          _ < 2 ^ 70 := by norm_num
    · rw [hlz]
      exact lt_of_le_of_lt hnl (by norm_num)
    · intro v hv
      rw [List.map_map] at hv
      obtain ⟨en, hmem, hveq⟩ := head_map_mem _ _ v hv
      subst hveq
      simp only [Function.comp]
      exact zigzag_head_not_ff en.1 (hen en hmem).1
  have hsum2 : (st.logIndex.map (·.2.length)).sum =
      (st.logIndex.map (·.2)).flatten.length := by
    rw [List.length_flatten, List.map_map]
    rfl
  have hflat : decode_varint_list
      (encode_varint_list (st.logIndex.map (·.2)).flatten)
      (st.logIndex.map (·.2.length)).sum = .ok (st.logIndex.map (·.2)).flatten := by
    rw [hsum2]
    refine decode_varint_list_encode _ ?_
    intro v hv
    obtain ⟨l2, hl2, hvl2⟩ := List.mem_flatten.mp hv
    obtain ⟨en, hmem, hen2⟩ := List.mem_map.mp hl2
    subst hen2
    have h1 := (hen en hmem).2.2.2 v hvl2
    calc v < stream_total st := h1
      _ ≤ 2 ^ 64 := htotB
      _ < 2 ^ 70 := by norm_num
  have hzip : ((((st.logIndex.map (·.1)).map zigzag_encode).map zigzag_decode).zip
      (segment_counts (st.logIndex.map (·.2)).flatten
        (st.logIndex.map (·.2.length)))) = st.logIndex := by
    have h1 : (((st.logIndex.map (·.1)).map zigzag_encode).map zigzag_decode) =
        st.logIndex.map (·.1) := by
      rw [List.map_map, List.map_map]
      simp [Function.comp, zigzag_decode_encode]
    have h2 : segment_counts (st.logIndex.map (·.2)).flatten
        (st.logIndex.map (·.2.length)) = st.logIndex.map (·.2) := by
      have h3 : st.logIndex.map (·.2.length) =
          (st.logIndex.map (·.2)).map List.length := by
        rw [List.map_map]
        rfl
      rw [h3, segment_counts_flatten]
    rw [h1, h2, List.zip_map']
    simp
  have hentries : ∀ en ∈ st.logIndex, entry_ok c2 st.msgs en := by
    intro en hmem
    obtain ⟨hge, hneg, hpos, _⟩ := hen en hmem
    constructor
    · intro hm1e
      obtain ⟨p, mid, hp2, hgetm⟩ := hneg hm1e
      have hmidmem : mid ∈ st.msgs := List.getElem?_mem hgetm
      have hmidlt : mid < st.msgMap.length := hid3 mid hmidmem
      refine ⟨p, mid, st.msgMap[mid], ?_, hgetm, ?_⟩
      · rw [hp2]
        rfl
      · rw [hml]
        exact List.getElem?_eq_getElem hmidlt
    · intro hm1e
      exact htpl en.1.toNat (hpos hm1e)
  obtain ⟨outs, cur, hfold, hocnt, hcorr⟩ :=
    decompress_fold c2 st.timestamps st.sevs st.ips st.msgs st.logIndex []
      c2.timestamp_base hentries
  refine ⟨outs, ?_, by rw [hocnt, hlen], ?_⟩
  · simp only [decompress, hts, htsc, hsev, hsevc, hipv, hipc, hmv, hmc,
      hrle, hfv, hfc, hoc]
    rw [bind_ite, e1, ok_bind, bind_ite, e2, ok_bind, bind_ite, e3, ok_bind,
      bind_ite, e4, ok_bind, hzz, ok_bind, hflat, ok_bind, hzip, hfold, ok_bind]
    simp
  · intro i hi hmi
    obtain ⟨p, mid, hidx, hmsgs2, hmap2⟩ :=
      collect_unmatched_line templates matcher parseTs hp hne lines {} i hi
        (collect_inv_init templates) hmi st hst
    refine hcorr i p mid _ ?_ hmsgs2 ?_
    · simpa using hidx
    · rw [hml]
      exact hmap2

theorem compress_eq (templates : List LogTemplate)
    (matcher : String → Option (LogTemplate × List (String × String)))
    (parseTs : String → Int) (log_lines : List String) (hne : templates ≠ []) :
    compress templates matcher parseTs log_lines =
      .ok (compress_container templates matcher parseTs log_lines) := by
  simp only [compress, compress_container]
  rw [if_neg hne]

theorem reconstruct_eq (templates : List LogTemplate)
    (matcher : String → Option (LogTemplate × List (String × String)))
    (parseTs : String → Int) (log_lines : List String)
    (hne : templates ≠ [])
    (hpool : (build_token_pool templates).1 ≠ [])
    (hpl : (templates.map (fun t => t.pattern.length)).sum < 2 ^ 70) :
    reconstruct_patterns (compress_container templates matcher parseTs log_lines) =
      .ok (loaded_container templates matcher parseTs log_lines) := by
  obtain ⟨hcnt, hplen, hids⟩ := build_token_pool_spec templates
  have hrne : (build_token_pool templates).2 ≠ [] := by
    intro h0
    rw [h0] at hcnt
    simp at hcnt
    exact hne (List.length_eq_zero.mp hcnt.symm)
  exact reconstruct_patterns_ok
    (compress_container templates matcher parseTs log_lines)
    (build_token_pool templates).2 hpool rfl hrne hids
    (lt_of_le_of_lt hplen hpl)

theorem loaded_templates_ok (templates : List LogTemplate)
    (matcher : String → Option (LogTemplate × List (String × String)))
    (parseTs : String → Int) (log_lines : List String) :
    ∀ tidx : Nat, tidx < templates.length →
    ∃ t pat,
      (loaded_container templates matcher parseTs log_lines).templates[tidx]? =
        some t ∧ t.pattern = some pat := by
  intro tidx hlt
  have h1 : (compress_container templates matcher parseTs log_lines).templates.length
      = templates.length := by
    simp [compress_container]
  have h2 : ((build_token_pool templates).2.map
      (List.map (fun tid => (build_token_pool templates).1.getD tid ""))).length =
      templates.length := by
    rw [List.length_map, (build_token_pool_spec templates).1]
  exact set_patterns_getElem
    (compress_container templates matcher parseTs log_lines).templates
    ((build_token_pool templates).2.map
      (List.map (fun tid => (build_token_pool templates).1.getD tid "")))
    tidx (by rw [h1]; exact hlt) (by rw [h2]; exact hlt)

/-- C4: for every list of input lines and every line in it the matcher
assigns no template (so compress records template id -1 for it in the log
index), compressing, rebuilding the template patterns as load does, and then
decompressing succeeds and reproduces that line exactly, character for
character, at its original position.  Side conditions: a non empty template
list (compress raises otherwise), a non empty token pool, and size bounds
keeping every varint below the decoder guard. -/
theorem C4_unmatched_round_trip
    (templates : List LogTemplate)
    (matcher : String → Option (LogTemplate × List (String × String)))
    (parseTs : String → Int) (lines : List String) (i : Nat)
    (hne : templates ≠ [])
    (hpool : (build_token_pool templates).1 ≠ [])
    (hp : ∀ s, (parseTs s).natAbs ≤ 2 ^ 62)
    (hnl : lines.length ≤ 2 ^ 32)
    (hW : ∀ l, line_weight matcher l ≤ 2 ^ 32)
    (ht : templates.length ≤ 2 ^ 32)
    (hpl : (templates.map (fun t => t.pattern.length)).sum < 2 ^ 70)
    (hi : i < lines.length)
    (hm : matcher (lines.get ⟨i, hi⟩) = none) :
    ∃ (c c2 : CompressedLog) (out : List String),
      compress templates matcher parseTs lines = .ok c ∧
      reconstruct_patterns c = .ok c2 ∧
      decompress c2 = .ok out ∧
      out.length = lines.length ∧
      out[i]? = some (lines.get ⟨i, hi⟩) := by
  obtain ⟨out, hdec, hlen2, hcorr⟩ :=
    decompress_collect templates matcher parseTs lines
      (loaded_container templates matcher parseTs lines)
      (collect_lines templates matcher parseTs lines)
      hp hne hnl hW ht rfl rfl rfl rfl rfl rfl rfl rfl rfl rfl rfl rfl rfl rfl
      (loaded_templates_ok templates matcher parseTs lines)
  exact ⟨_, _, out, compress_eq templates matcher parseTs lines hne,
    reconstruct_eq templates matcher parseTs lines hne hpool hpl,
    hdec, hlen2, hcorr i hi hm⟩

/-- Witness for C4: one template, a matcher that matches nothing, and the
single line "stray line"; the pipeline reconstructs the line at position 0. -/
theorem C4_unmatched_round_trip_witness :
    ∃ (c c2 : CompressedLog) (out : List String),
      compress [⟨"t1", ["[MESSAGE]"], [], 0⟩] (fun _ => none) (fun _ => 0)
        ["stray line"] = .ok c ∧
      reconstruct_patterns c = .ok c2 ∧
      decompress c2 = .ok out ∧
      out.length = (["stray line"] : List String).length ∧
      out[0]? = some ((["stray line"] : List String).get ⟨0, by decide⟩) :=
  C4_unmatched_round_trip [⟨"t1", ["[MESSAGE]"], [], 0⟩] (fun _ => none)
    (fun _ => 0) ["stray line"] 0 (by decide) (by decide)
    (fun s => by norm_num) (by norm_num) (fun l => by norm_num [line_weight])
    (by norm_num) (by decide) (by decide) rfl

/-- C10: every container compress produces satisfies the log index
invariants: the per line field counts sum to the exact number of varint
entries in the flat field index column, and the run length encoded template
id column expands to exactly original_count entries.  Size bounds keep every
varint below the decoder guard. -/
theorem C10_log_index_invariants
    (templates : List LogTemplate)
    (matcher : String → Option (LogTemplate × List (String × String)))
    (parseTs : String → Int) (lines : List String)
    (hne : templates ≠ [])
    (hp : ∀ s, (parseTs s).natAbs ≤ 2 ^ 62)
    (hnl : lines.length ≤ 2 ^ 32)
    (hW : ∀ l, line_weight matcher l ≤ 2 ^ 32)
    (ht : templates.length ≤ 2 ^ 32) :
    ∃ c : CompressedLog,
      compress templates matcher parseTs lines = .ok c ∧
      count_varints c.log_index_fields_varint = .ok c.log_index_field_counts.sum ∧
      ∃ tids : List Nat,
        decode_rle_v2 c.log_index_templates_rle c.original_count = .ok tids ∧
        tids.length = c.original_count := by
  obtain ⟨hext, hlen, htot, hinv⟩ :=
    collect_fold_spec templates matcher parseTs hp hne lines {}
      (collect_inv_init templates)
      (collect_lines templates matcher parseTs lines) rfl
  obtain ⟨_, _, _, hen⟩ := hinv
  simp only [CollectSt.logIndex, List.length_nil, Nat.zero_add] at hlen
  have htot2 : stream_total (collect_lines templates matcher parseTs lines) =
      (lines.map (line_weight matcher)).sum := by
    rw [htot]
    simp [stream_total]
  have hsum : (lines.map (line_weight matcher)).sum ≤ 2 ^ 64 := by
    have h1 : (lines.map (line_weight matcher)).sum ≤
        (lines.map (line_weight matcher)).length • (2 ^ 32 : Nat) :=
      List.sum_le_card_nsmul _ _ (by
        intro x hx
        obtain ⟨l, _, hxl⟩ := List.mem_map.mp hx
        subst hxl
        exact hW l)
    rw [smul_eq_mul, List.length_map] at h1
    calc (lines.map (line_weight matcher)).sum ≤ lines.length * 2 ^ 32 := h1
      _ ≤ 2 ^ 32 * 2 ^ 32 := Nat.mul_le_mul_right _ hnl
      _ ≤ 2 ^ 64 := by norm_num
  have htotB : stream_total (collect_lines templates matcher parseTs lines) ≤
      2 ^ 64 := by rw [htot2]; exact hsum
  refine ⟨compress_container templates matcher parseTs lines,
    compress_eq templates matcher parseTs lines hne, ?_, ?_⟩
  · show count_varints (encode_varint_list
      ((collect_lines templates matcher parseTs lines).logIndex.map (·.2)).flatten) =
      .ok ((collect_lines templates matcher parseTs lines).logIndex.map
        (·.2.length)).sum
    have hsum2 : ((collect_lines templates matcher parseTs lines).logIndex.map
        (·.2.length)).sum =
        ((collect_lines templates matcher parseTs lines).logIndex.map
          (·.2)).flatten.length := by
      rw [List.length_flatten, List.map_map]
      rfl
    rw [hsum2]
    refine count_varints_encode _ ?_
    intro v hv
    obtain ⟨l2, hl2, hvl2⟩ := List.mem_flatten.mp hv
    obtain ⟨en, hmem, hen2⟩ := List.mem_map.mp hl2
    subst hen2
    have h1 := (hen en hmem).2.2.2 v hvl2
    calc v < stream_total (collect_lines templates matcher parseTs lines) := h1
      _ ≤ 2 ^ 64 := htotB
      _ < 2 ^ 70 := by norm_num
  · refine ⟨(((collect_lines templates matcher parseTs lines).logIndex.map
      (·.1)).map zigzag_encode), ?_, ?_⟩
    · show decode_rle_v2 (encode_rle_v2
        (((collect_lines templates matcher parseTs lines).logIndex.map
          (·.1)).map zigzag_encode)) lines.length = _
      have hlz : ((((collect_lines templates matcher parseTs lines).logIndex.map
          (·.1)).map zigzag_encode)).length = lines.length := by
        simp [hlen]
      rw [← hlz]
      refine decode_rle_v2_encode _ ?_ ?_ ?_
      · intro v hv
        rw [List.map_map] at hv
        obtain ⟨en, hmem, hv2⟩ := List.mem_map.mp hv
        subst hv2
        obtain ⟨hge, _, hlt, _⟩ := hen en hmem
        by_cases hneg : en.1 = -1
        · have hz1 : zigzag_encode ((-1 : Int)) = 1 := by decide
          simp only [Function.comp]
          rw [hneg, hz1]
          norm_num
        · have habs : en.1.natAbs ≤ templates.length := by
            have h0 : 0 ≤ en.1 := by omega
            have h2 := hlt hneg
            omega
          have h3 := zigzag_encode_le en.1 templates.length habs
          simp only [Function.comp]
          calc zigzag_encode en.1 ≤ 2 * templates.length := h3
            _ ≤ 2 * 2 ^ 32 := by omega
            _ < 2 ^ 70 := by norm_num
      · rw [hlz]
        exact lt_of_le_of_lt hnl (by norm_num)
      · intro v hv
        rw [List.map_map] at hv
        obtain ⟨en, hmem, hveq⟩ := head_map_mem _ _ v hv
        subst hveq
        simp only [Function.comp]
        exact zigzag_head_not_ff en.1 (hen en hmem).1
    · show _ = lines.length
      simp [hlen]

/-- Witness for C10 at one template, a matcher that matches nothing, the
parser returning zero, and two lines. -/
theorem C10_log_index_invariants_witness :
    ∃ c : CompressedLog,
      compress [⟨"t1", ["[MESSAGE]"], [], 0⟩] (fun _ => none) (fun _ => 0)
        ["a", "b"] = .ok c ∧
      count_varints c.log_index_fields_varint = .ok c.log_index_field_counts.sum ∧
      ∃ tids : List Nat,
        decode_rle_v2 c.log_index_templates_rle c.original_count = .ok tids ∧
        tids.length = c.original_count :=
  C10_log_index_invariants [⟨"t1", ["[MESSAGE]"], [], 0⟩] (fun _ => none)
    (fun _ => 0) ["a", "b"] (by decide) (fun s => by norm_num) (by norm_num)
    (fun l => by norm_num [line_weight]) (by norm_num)

/-! ## Lemmas: severity stream and dictionary correspondence -/

theorem getD_of_getElem {α : Type} {l : List α} {i : Nat} {x : α} (d : α)
    (h : l[i]? = some x) : l.getD i d = x := by
  have hi := (List.getElem?_eq_some.mp h).1
  rw [List.getD_eq_getElem _ _ hi]
  rw [List.getElem?_eq_getElem hi] at h
  exact Option.some_inj.mp h

theorem encode_field_sev (parseTs : String → Int) (st : CollectSt)
    (fis : List Nat) (n v : String) :
    (is_severity_field n = true →
      ∃ j, (encode_field parseTs st fis n v).1.sevs = st.sevs ++ [j] ∧
        (encode_field parseTs st fis n v).1.sevMap[j]? = some v) ∧
    (is_severity_field n = false →
      (encode_field parseTs st fis n v).1.sevs = st.sevs ∧
      (encode_field parseTs st fis n v).1.sevMap = st.sevMap) := by
  by_cases h1 : py_upper n = "TIMESTAMP"
  · have hsf : is_severity_field n = false := by
      simp only [is_severity_field, h1]
      decide
    refine ⟨fun hc => (by rw [hsf] at hc; cases hc), fun _ => ?_⟩
    cases htb : st.tsBase with
    | none => simp [encode_field, if_pos h1, htb]
    | some b => simp [encode_field, if_pos h1, htb]
  · by_cases h2 : py_upper n = "SEVERITY" ∨ py_upper n = "STATUS"
    · have hsf : is_severity_field n = true := by
        simp only [is_severity_field]
        rcases h2 with h2 | h2 <;> rw [h2] <;> decide
      rcases hg : get_or_create_id v st.sevMap with ⟨i, m⟩
      have hmget : m[i]? = some v := by
        have := get_or_create_getElem v st.sevMap
        rwa [hg] at this
      refine ⟨fun _ => ⟨i, ?_, ?_⟩, fun hc => (by rw [hsf] at hc; cases hc)⟩
      · simp only [encode_field, if_neg h1, if_pos h2, hg]
      · simp only [encode_field, if_neg h1, if_pos h2, hg]
        exact hmget
    · have hsf : is_severity_field n = false := by
        push_neg at h2
        simp only [is_severity_field, Bool.or_eq_false_iff, beq_eq_false_iff_ne,
          ne_eq]
        exact ⟨h2.1, h2.2⟩
      by_cases h3 : py_upper n = "IP_ADDRESS" ∨ py_upper n = "HOST"
      · refine ⟨fun hc => (by rw [hsf] at hc; cases hc), fun _ => ?_⟩
        rcases hg : get_or_create_id v st.ipMap with ⟨i, m⟩
        simp [encode_field, if_neg h1, if_neg h2, if_pos h3, hg]
      · refine ⟨fun hc => (by rw [hsf] at hc; cases hc), fun _ => ?_⟩
        rcases hg : get_or_create_id v st.msgMap with ⟨i, m⟩
        simp [encode_field, if_neg h1, if_neg h2, if_neg h3, hg]

theorem encode_fields_sev (templates : List LogTemplate) (parseTs : String → Int)
    (hp : ∀ s, (parseTs s).natAbs ≤ 2 ^ 62) :
    ∀ (fields : List (String × String)) (st : CollectSt) (fis : List Nat),
    collect_inv templates st →
    ∀ r : CollectSt × List Nat,
    r = fields.foldl
      (fun (p : CollectSt × List Nat) f => encode_field parseTs p.1 p.2 f.1 f.2)
      (st, fis) →
    r.1.sevs.map (fun id => r.1.sevMap.getD id "") =
      st.sevs.map (fun id => st.sevMap.getD id "") ++
      ((fields.filter (fun f => is_severity_field f.1)).map (·.2)) := by
  intro fields
  induction fields with
  | nil =>
    intro st fis hinv r hr
    subst r
    simp
  | cons f rest ih =>
    intro st fis hinv r hr
    rw [List.foldl_cons] at hr
    obtain ⟨hsft, hsff⟩ := encode_field_sev parseTs st fis f.1 f.2
    obtain ⟨hext1, _, _, hinv1, _⟩ :=
      encode_field_spec templates parseTs st fis f.1 f.2 hp hinv
    rcases he : encode_field parseTs st fis f.1 f.2 with ⟨st1, fis1⟩
    rw [he] at hr hsft hsff hext1 hinv1
    dsimp only at hsft hsff hext1 hinv1
    have hIH := ih st1 fis1 hinv1 r hr
    have hstable : st.sevs.map (fun id => st1.sevMap.getD id "") =
        st.sevs.map (fun id => st.sevMap.getD id "") := by
      refine List.map_congr_left ?_
      intro id hid
      exact prefix_getD hext1.1 (hinv.2.1.1 id hid) ""
    by_cases hsf : is_severity_field f.1
    · obtain ⟨j, hsevs1, hget1⟩ := hsft hsf
      rw [hIH, show List.filter (fun f => is_severity_field f.1) (f :: rest) =
          f :: List.filter (fun f => is_severity_field f.1) rest from
          List.filter_cons_of_pos hsf, List.map_cons, hsevs1,
        List.map_append, hstable]
      have hj : st1.sevMap.getD j "" = f.2 := getD_of_getElem "" hget1
      simp [hj, hget1]
    · have hsf2 : is_severity_field f.1 = false := by
        rwa [Bool.not_eq_true] at hsf
      obtain ⟨hsevs1, hmap1⟩ := hsff hsf2
      rw [hIH, hsevs1, hmap1,
        show List.filter (fun f => is_severity_field f.1) (f :: rest) =
          List.filter (fun f => is_severity_field f.1) rest from
          List.filter_cons_of_neg hsf]

theorem encode_line_sev (templates : List LogTemplate)
    (matcher : String → Option (LogTemplate × List (String × String)))
    (parseTs : String → Int)
    (hp : ∀ s, (parseTs s).natAbs ≤ 2 ^ 62)
    (st : CollectSt) (l : String) (hinv : collect_inv templates st) :
    (encode_line templates matcher parseTs st l).sevs.map
      (fun id => (encode_line templates matcher parseTs st l).sevMap.getD id "") =
    st.sevs.map (fun id => st.sevMap.getD id "") ++
      line_severity_values matcher l := by
  cases hm : matcher l with
  | none =>
    rcases hg : get_or_create_id l st.msgMap with ⟨msgId, m2⟩
    simp only [encode_line, hm, hg, line_severity_values]
    simp
  | some tf =>
    rcases tf with ⟨template, fields⟩
    rcases he : fields.foldl
        (fun (p : CollectSt × List Nat) f => encode_field parseTs p.1 p.2 f.1 f.2)
        (st, []) with ⟨st2, fis2⟩
    have h2 := encode_fields_sev templates parseTs hp fields st [] hinv
      (st2, fis2) he.symm
    dsimp only at h2
    simp only [encode_line, hm, he, line_severity_values]
    exact h2

theorem collect_sev (templates : List LogTemplate)
    (matcher : String → Option (LogTemplate × List (String × String)))
    (parseTs : String → Int)
    (hp : ∀ s, (parseTs s).natAbs ≤ 2 ^ 62) (hne : templates ≠ []) :
    ∀ (lines : List String) (st : CollectSt), collect_inv templates st →
    ∀ fin : CollectSt,
    fin = lines.foldl (encode_line templates matcher parseTs) st →
    fin.sevs.map (fun id => fin.sevMap.getD id "") =
      st.sevs.map (fun id => st.sevMap.getD id "") ++
      lines.flatMap (line_severity_values matcher) := by
  intro lines
  induction lines with
  | nil =>
    intro st hinv fin hfin
    subst fin
    simp
  | cons l rest ih =>
    intro st hinv fin hfin
    rw [List.foldl_cons] at hfin
    obtain ⟨_, _, _, hinv1, _⟩ :=
      encode_line_spec templates matcher parseTs hp hne st l hinv
    have h1 := encode_line_sev templates matcher parseTs hp st l hinv
    have h2 := ih (encode_line templates matcher parseTs st l) hinv1 fin hfin
    rw [h2, h1, List.flatMap_cons, List.append_assoc]

theorem mem_sev_ids {dict : List String} {q : Nat × String → Bool} {id : Nat} :
    id ∈ ((dict.enum.filter q).map (·.1)) ↔
      ∃ x, dict[id]? = some x ∧ q (id, x) = true := by
  constructor
  · intro h
    obtain ⟨p, hpmem, hp1⟩ := List.mem_map.mp h
    obtain ⟨hpe, hq⟩ := List.mem_filter.mp hpmem
    subst hp1
    exact ⟨p.2, List.mem_enum_iff_getElem?.mp hpe, hq⟩
  · rintro ⟨x, hget, hq⟩
    exact List.mem_map.mpr ⟨(id, x),
      List.mem_filter.mpr ⟨List.mem_enum_iff_getElem?.mpr hget, hq⟩, rfl⟩

theorem enum_filter_length {α : Type} (q2 : Nat × α → Bool) (q : α → Bool)
    (l : List α) (hq : ∀ p : Nat × α, q2 p = q p.2) :
    ((l.enum.filter q2).map (·.1)).length = l.countP q := by
  rw [List.length_map, ← List.countP_eq_length_filter]
  have h1 := List.countP_map q Prod.snd l.enum
  rw [List.enum_map_snd] at h1
  rw [h1]
  refine List.countP_congr ?_
  intro p _
  rw [hq p]
  rfl

theorem countP_eq_sum_ind {α : Type} (p : α → Bool) :
    ∀ l : List α, l.countP p = (l.map (fun x => if p x then 1 else 0)).sum := by
  intro l
  induction l with
  | nil => rfl
  | cons a tl ih =>
    rw [List.countP_cons, List.map_cons, List.sum_cons, ih]
    by_cases h : p a
    · simp only [if_pos h]
      omega
    · simp only [if_neg h]
      omega

theorem sev_count_eq (templates : List LogTemplate)
    (matcher : String → Option (LogTemplate × List (String × String)))
    (parseTs : String → Int) (lines : List String) (s : String)
    (hp : ∀ q, (parseTs q).natAbs ≤ 2 ^ 62) (hne : templates ≠ [])
    (hone : ∀ l ∈ lines, ((line_severity_values matcher l).countP
      (fun v => py_upper v == py_upper s)) ≤ 1) :
    (collect_lines templates matcher parseTs lines).sevs.countP
      (fun id => py_upper
        ((collect_lines templates matcher parseTs lines).sevMap.getD id "") ==
        py_upper s) =
    (lines.filter (line_has_severity matcher s)).length := by
  have hvals := collect_sev templates matcher parseTs hp hne lines {}
    (collect_inv_init templates)
    (collect_lines templates matcher parseTs lines) rfl
  simp only [CollectSt.sevs, CollectSt.sevMap, List.map_nil,
    List.nil_append] at hvals
  have h1 : (collect_lines templates matcher parseTs lines).sevs.countP
      (fun id => py_upper
        ((collect_lines templates matcher parseTs lines).sevMap.getD id "") ==
        py_upper s) =
      ((collect_lines templates matcher parseTs lines).sevs.map
        (fun id => (collect_lines templates matcher parseTs lines).sevMap.getD
          id "")).countP (fun v => py_upper v == py_upper s) := by
    rw [List.countP_map]
    rfl
  rw [h1, hvals, List.countP_flatMap]
  have h2 : ∀ l ∈ lines,
      ((List.countP (fun v => py_upper v == py_upper s)) ∘
        (line_severity_values matcher)) l =
      if line_has_severity matcher s l then 1 else 0 := by
    intro l hl
    have hle := hone l hl
    by_cases ha : line_has_severity matcher s l
    · rw [if_pos ha]
      have hpos : 0 < (line_severity_values matcher l).countP
          (fun v => py_upper v == py_upper s) := by
        rw [List.countP_pos_iff]
        exact List.any_eq_true.mp ha
      simp only [Function.comp]
      omega
    · rw [if_neg ha]
      simp only [Function.comp]
      rw [List.countP_eq_zero]
      intro a hal hq
      exact ha (List.any_eq_true.mpr ⟨a, hal, hq⟩)
  rw [List.map_congr_left h2, ← countP_eq_sum_ind, List.countP_eq_length_filter]

/-- C8: query_by_severity resolves inputs against the severity dictionary up
to case: for every container, a severity list that matches no dictionary
value answers zero matches without raising; and on the loaded output of
compress, a single severity query answers exactly the number of lines whose
severity value equals it up to case, provided no line carries two severity
fields with that same value (a line with duplicate equal severities is
counted once per occurrence by the stream scan but once by the line count). -/
theorem C8_query_by_severity
    (templates : List LogTemplate)
    (matcher : String → Option (LogTemplate × List (String × String)))
    (parseTs : String → Int) (lines : List String) (s : String)
    (hne : templates ≠ [])
    (hp : ∀ q, (parseTs q).natAbs ≤ 2 ^ 62)
    (hnl : lines.length ≤ 2 ^ 32)
    (hW : ∀ l, line_weight matcher l ≤ 2 ^ 32)
    (ht : templates.length ≤ 2 ^ 32)
    (hone : ∀ l ∈ lines, ((line_severity_values matcher l).countP
      (fun v => py_upper v == py_upper s)) ≤ 1) :
    (∀ (c0 : CompressedLog) (svs : List String),
      (∀ v ∈ c0.severity_list, ∀ sv ∈ svs, py_upper v ≠ py_upper sv) →
      query_by_severity c0 svs =
        .ok { matched_count := 0, matched_logs := [],
              scanned_count := c0.original_count }) ∧
    (∃ r : QueryResult,
      query_by_severity (loaded_container templates matcher parseTs lines) [s] =
        .ok r ∧
      r.matched_count = (lines.filter (line_has_severity matcher s)).length) := by
  constructor
  · intro c0 svs hnomatch
    have hids : ((c0.severity_list.enum.filter
        (fun p => svs.any (fun sv => py_upper p.2 == py_upper sv))).map (·.1)) =
        [] := by
      rw [List.map_eq_nil_iff, List.filter_eq_nil_iff]
      intro p hp2 hany
      obtain ⟨sv, hsv, hbeq⟩ := List.any_eq_true.mp hany
      have hpm : p.2 ∈ c0.severity_list :=
        List.getElem?_mem (List.mem_enum_iff_getElem?.mp hp2)
      exact hnomatch p.2 hpm sv hsv (by simpa using hbeq)
    simp only [query_by_severity]
    rw [if_pos hids]
  · obtain ⟨hext, hlenLI, htot, hinv⟩ :=
      collect_fold_spec templates matcher parseTs hp hne lines {}
        (collect_inv_init templates)
        (collect_lines templates matcher parseTs lines) rfl
    obtain ⟨⟨hm1, hm2, hm3⟩, ⟨hid1, hid2, hid3⟩, _, hen⟩ := hinv
    obtain ⟨out, hdec, hlen2, hcorr⟩ :=
      decompress_collect templates matcher parseTs lines
        (loaded_container templates matcher parseTs lines)
        (collect_lines templates matcher parseTs lines)
        hp hne hnl hW ht rfl rfl rfl rfl rfl rfl rfl rfl rfl rfl rfl rfl rfl rfl
        (loaded_templates_ok templates matcher parseTs lines)
    have hvals := collect_sev templates matcher parseTs hp hne lines {}
      (collect_inv_init templates)
      (collect_lines templates matcher parseTs lines) rfl
    simp only [CollectSt.sevs, CollectSt.sevMap, List.map_nil,
      List.nil_append] at hvals
    have hcnt := sev_count_eq templates matcher parseTs lines s hp hne hone
    simp only [query_by_severity]
    rw [show (loaded_container templates matcher parseTs lines).severity_list =
      (collect_lines templates matcher parseTs lines).sevMap from rfl]
    by_cases hids :
        (((collect_lines templates matcher parseTs lines).sevMap.enum.filter
          (fun p => [s].any (fun sv => py_upper p.2 == py_upper sv))).map (·.1)) =
        []
    · rw [if_pos hids]
      refine ⟨_, rfl, ?_⟩
      have hflt : lines.filter (line_has_severity matcher s) = [] := by
        rw [List.filter_eq_nil_iff]
        intro l hl hhas
        obtain ⟨v, hv, hq⟩ := List.any_eq_true.mp hhas
        have hvflat : v ∈ lines.flatMap (line_severity_values matcher) :=
          List.mem_flatMap.mpr ⟨l, hl, hv⟩
        have hvmap : v ∈ (collect_lines templates matcher parseTs lines).sevs.map
            (fun id =>
              (collect_lines templates matcher parseTs lines).sevMap.getD id "") := by
          rw [hvals]
          exact hvflat
        obtain ⟨id, hidmem, hidv⟩ := List.mem_map.mp hvmap
        have hlt : id < (collect_lines templates matcher parseTs lines).sevMap.length :=
          hid1 id hidmem
        have hmem2 : id ∈
            (((collect_lines templates matcher parseTs lines).sevMap.enum.filter
              (fun p => [s].any (fun sv => py_upper p.2 == py_upper sv))).map
              (·.1)) := by
          refine mem_sev_ids.mpr
            ⟨(collect_lines templates matcher parseTs lines).sevMap.getD id "",
             ?_, ?_⟩
          · rw [List.getElem?_eq_getElem hlt, List.getD_eq_getElem _ _ hlt]
          · simp only [List.any_cons, List.any_nil, Bool.or_false]
            rw [hidv]
            exact hq
        rw [hids] at hmem2
        cases hmem2
      simp [hflt]
    · rw [if_neg hids]
      have hsne : (collect_lines templates matcher parseTs lines).sevs ≠ [] := by
        intro h0
        apply hids
        have hmap0 : (collect_lines templates matcher parseTs lines).sevMap = [] := by
          have hle := hm1
          rw [h0] at hle
          simp only [List.length_nil, Nat.le_zero] at hle
          exact List.length_eq_zero.mp hle
        rw [hmap0]
        rfl
      have htot2 : stream_total (collect_lines templates matcher parseTs lines) =
          (lines.map (line_weight matcher)).sum := by
        rw [htot]
        simp [stream_total]
      have hsum : (lines.map (line_weight matcher)).sum ≤ 2 ^ 64 := by
        have h1 : (lines.map (line_weight matcher)).sum ≤
            (lines.map (line_weight matcher)).length • (2 ^ 32 : Nat) :=
          List.sum_le_card_nsmul _ _ (by
            intro x hx
            obtain ⟨l, _, hxl⟩ := List.mem_map.mp hx
            subst hxl
            exact hW l)
        rw [smul_eq_mul, List.length_map] at h1
        calc (lines.map (line_weight matcher)).sum ≤ lines.length * 2 ^ 32 := h1
          _ ≤ 2 ^ 32 * 2 ^ 32 := Nat.mul_le_mul_right _ hnl
          _ ≤ 2 ^ 64 := by norm_num
      have hsev70 : ∀ v ∈ (collect_lines templates matcher parseTs lines).sevs,
          v < 2 ^ 70 := by
        intro v hv
        have h1 := hid1 v hv
        have h2 : (collect_lines templates matcher parseTs lines).sevs.length ≤
            stream_total (collect_lines templates matcher parseTs lines) := by
          unfold stream_total
          omega
        calc v < (collect_lines templates matcher parseTs lines).sevMap.length := h1
          _ ≤ (collect_lines templates matcher parseTs lines).sevs.length := hm1
          _ ≤ stream_total (collect_lines templates matcher parseTs lines) := h2
          _ ≤ (lines.map (line_weight matcher)).sum := le_of_eq htot2
          _ ≤ 2 ^ 64 := hsum
          _ < 2 ^ 70 := by norm_num
      have hdecV : decode_varint_list
          (loaded_container templates matcher parseTs lines).severities_varint
          (loaded_container templates matcher parseTs lines).severity_count =
          .ok (collect_lines templates matcher parseTs lines).sevs := by
        rw [show (loaded_container templates matcher parseTs lines).severities_varint =
          (if (collect_lines templates matcher parseTs lines).sevs ≠ [] then
            encode_varint_list (collect_lines templates matcher parseTs lines).sevs
          else []) from rfl, if_pos hsne]
        rw [show (loaded_container templates matcher parseTs lines).severity_count =
          (if (collect_lines templates matcher parseTs lines).sevs ≠ [] then
            (collect_lines templates matcher parseTs lines).sevs.length
          else 0) from rfl, if_pos hsne]
        exact decode_varint_list_encode _ hsev70
      rw [hdecV, ok_bind, hdec, ok_bind]
      refine ⟨_, rfl, ?_⟩
      show ((((collect_lines templates matcher parseTs lines).sevs.enum.filter
          (fun p => p.2 ∈
            (((collect_lines templates matcher parseTs lines).sevMap.enum.filter
              (fun pr => [s].any (fun sv => py_upper pr.2 == py_upper sv))).map
              (·.1)))).map (·.1)).length) =
        (lines.filter (line_has_severity matcher s)).length
      rw [enum_filter_length _
        (fun x => decide (x ∈
          (((collect_lines templates matcher parseTs lines).sevMap.enum.filter
            (fun pr => [s].any (fun sv => py_upper pr.2 == py_upper sv))).map
            (·.1)))) _ (fun p => rfl)]
      have hiff : ∀ id ∈ (collect_lines templates matcher parseTs lines).sevs,
          (decide (id ∈
            (((collect_lines templates matcher parseTs lines).sevMap.enum.filter
              (fun pr => [s].any (fun sv => py_upper pr.2 == py_upper sv))).map
              (·.1))) = true) ↔
          ((py_upper ((collect_lines templates matcher parseTs lines).sevMap.getD
            id "") == py_upper s) = true) := by
        intro id hid
        rw [decide_eq_true_eq, mem_sev_ids]
        constructor
        · rintro ⟨x, hget, hq⟩
          have hx : (collect_lines templates matcher parseTs lines).sevMap.getD
              id "" = x := getD_of_getElem "" hget
          rw [hx]
          simpa using hq
        · intro hq
          have hlt : id < (collect_lines templates matcher parseTs lines).sevMap.length :=
            hid1 id hid
          refine ⟨(collect_lines templates matcher parseTs lines).sevMap.getD
            id "", ?_, ?_⟩
          · rw [List.getElem?_eq_getElem hlt, List.getD_eq_getElem _ _ hlt]
          · simpa using hq
      rw [List.countP_congr hiff]
      exact hcnt

/-- Witness for C8: the two lines "ERROR boom" (severity ERROR) and "plain"
(unmatched), queried for the severity "error" in lower case. -/
theorem C8_query_by_severity_witness :
    (∀ (c0 : CompressedLog) (svs : List String),
      (∀ v ∈ c0.severity_list, ∀ sv ∈ svs, py_upper v ≠ py_upper sv) →
      query_by_severity c0 svs =
        .ok { matched_count := 0, matched_logs := [],
              scanned_count := c0.original_count }) ∧
    (∃ r : QueryResult,
      query_by_severity
        (loaded_container [demo_template] demo_matcher (fun _ => 0)
          ["ERROR boom", "plain"]) ["error"] = .ok r ∧
      r.matched_count = ((["ERROR boom", "plain"] : List String).filter
        (line_has_severity demo_matcher "error")).length) :=
  C8_query_by_severity [demo_template] demo_matcher (fun _ => 0)
    ["ERROR boom", "plain"] "error" (by decide)
    (fun q => by norm_num) (by norm_num)
    (fun l => by
      by_cases h : l = "ERROR boom" <;>
        norm_num [line_weight, demo_matcher, h])
    (by norm_num) (by decide)

/-! ## Lemmas: Burrows Wheeler transform -/

theorem lex_dropLast_le : ∀ (A B : List Nat), A.length = B.length → A ≤ B →
    A.dropLast ≤ B.dropLast := by
  intro A
  induction A with
  | nil =>
    intro B hlen _
    have hB : B = [] := List.length_eq_zero.mp hlen.symm
    subst hB
    exact le_refl _
  | cons a as ih =>
    intro B hlen hle
    cases B with
    | nil => simp at hlen
    | cons b bs =>
      rcases lt_or_eq_of_le hle with hlt | heq
      · have hlex : List.Lex (· < ·) (a :: as) (b :: bs) := hlt
        cases hlex with
        | rel hab =>
          cases as with
          | nil =>
            cases bs with
            | nil => simp
            | cons x xs => simp at hlen
          | cons a2 as2 =>
            cases bs with
            | nil => simp at hlen
            | cons b2 bs2 =>
              rw [List.dropLast_cons₂, List.dropLast_cons₂]
              exact le_of_lt (List.Lex.rel hab)
        | cons htail =>
          cases as with
          | nil =>
            cases bs with
            | nil => simp
            | cons x xs => simp at hlen
          | cons a2 as2 =>
            cases bs with
            | nil => simp at hlen
            | cons b2 bs2 =>
              have ihr := ih (b2 :: bs2) (by simpa using hlen) (le_of_lt htail)
              rw [List.dropLast_cons₂, List.dropLast_cons₂]
              rcases lt_or_eq_of_le ihr with h2 | h2
              · exact le_of_lt (List.Lex.cons h2)
              · rw [h2]
      · rw [heq]

theorem countP_or_disjoint {α : Type} (p q : α → Bool) :
    ∀ l : List α, (∀ x ∈ l, ¬(p x = true ∧ q x = true)) →
    l.countP (fun x => p x || q x) = l.countP p + l.countP q := by
  intro l
  induction l with
  | nil => intro _; rfl
  | cons a tl ih =>
    intro h
    rw [List.countP_cons, List.countP_cons, List.countP_cons,
      ih (fun x hx => h x (by simp [hx]))]
    have hd := h a (by simp)
    by_cases hp : p a = true <;> by_cases hq : q a = true <;>
      simp [hp, hq] at hd ⊢ <;> omega

theorem count_lt_succ (l : List Nat) (c : Nat) :
    l.countP (fun x => decide (x < c + 1)) =
      l.countP (fun x => decide (x < c)) + l.count c := by
  induction l with
  | nil => rfl
  | cons a tl ih =>
    rw [List.countP_cons, List.countP_cons, List.count_cons, ih]
    by_cases h2 : a < c
    · have h1 : a < c + 1 := by omega
      have h3 : ¬(a = c) := by omega
      simp [h1, h2, h3]
      omega
    · by_cases h3 : a = c
      · have h1 : a < c + 1 := by omega
        simp [h1, h2, h3]
        omega
      · have h1 : ¬(a < c + 1) := by omega
        simp [h1, h2, h3]

theorem bwt_cumsum_countP (block : List Nat) (c : Nat) :
    bwt_cumsum block c = block.countP (fun x => decide (x < c)) := by
  induction c with
  | zero =>
    rw [show block.countP (fun x => decide (x < 0)) = 0 from ?_]
    · rfl
    · rw [List.countP_eq_zero]
      intro a _
      simp
  | succ c ih =>
    show (((List.range (c + 1)).map (fun t => block.count t)).sum) = _
    rw [List.range_succ, List.map_append, List.sum_append, count_lt_succ, ← ih]
    simp [bwt_cumsum]

theorem sorted_window (T : List Nat) :
    ∀ SL : List (List Nat), SL.Pairwise (· ≤ ·) →
    ∀ m : Nat, SL.countP (fun u => decide (u < T)) ≤ m →
    m < SL.countP (fun u => decide (u ≤ T)) →
    SL.getD m [] = T := by
  intro SL
  induction SL with
  | nil =>
    intro _ m _ h2
    simp [List.countP_nil] at h2
  | cons u tl ih =>
    intro hpw m h1 h2
    obtain ⟨hall, htl⟩ := List.pairwise_cons.mp hpw
    rw [List.countP_cons] at h1 h2
    rcases lt_trichotomy u T with hu | hu | hu
    · have hd1 : (decide (u < T)) = true := decide_eq_true hu
      have hd2 : (decide (u ≤ T)) = true := decide_eq_true (le_of_lt hu)
      rw [hd1] at h1
      rw [hd2] at h2
      simp only [if_true] at h1 h2
      cases m with
      | zero => omega
      | succ m2 =>
        have := ih htl m2 (by omega) (by omega)
        simpa using this
    · subst hu
      cases m with
      | zero => simp
      | succ m2 =>
        have hzero : tl.countP (fun v => decide (v < u)) = 0 := by
          rw [List.countP_eq_zero]
          intro a ha
          simp only [decide_eq_true_eq, not_lt]
          exact hall a ha
        have hd2 : (decide (u ≤ u)) = true := decide_eq_true (le_refl u)
        rw [hd2] at h2
        simp only [if_true] at h2
        have := ih htl m2 (by omega) (by omega)
        simpa using this
    · have hnle : ¬(u ≤ T) := not_le_of_lt hu
      have hzero : tl.countP (fun v => decide (v ≤ T)) = 0 := by
        rw [List.countP_eq_zero]
        intro a ha
        simp only [decide_eq_true_eq]
        intro hc
        exact hnle (le_trans (hall a ha) hc)
      have hd2 : (decide (u ≤ T)) = false := decide_eq_false hnle
      rw [hd2] at h2
      simp only [Bool.false_eq_true, if_false] at h2
      omega

theorem bwt_pred_eq (n i : Nat) (hn : 0 < n) (hi : i < n) :
    (i + n - 1) % n = if i = 0 then n - 1 else i - 1 := by
  by_cases h : i = 0
  · subst h
    rw [if_pos rfl]
    simp only [Nat.zero_add]
    exact Nat.mod_eq_of_lt (by omega)
  · rw [if_neg h]
    have h2 : i + n - 1 = (i - 1) + n := by omega
    rw [h2, Nat.add_mod_right]
    exact Nat.mod_eq_of_lt (by omega)

theorem bwt_pred_lt (n i : Nat) (hn : 0 < n) : (i + n - 1) % n < n :=
  Nat.mod_lt _ hn

theorem bwt_rotation_length (block : List Nat) (i : Nat) :
    (bwt_rotation block i).length = block.length := by
  simp only [bwt_rotation, List.length_append, List.length_drop,
    List.length_take]
  omega

theorem bwt_rotation_head (block : List Nat) (i : Nat) (hi : i < block.length) :
    (bwt_rotation block i).getD 0 0 = block.getD i 0 := by
  rw [bwt_rotation, List.drop_eq_getElem_cons hi, List.cons_append,
    List.getD_cons_zero, List.getD_eq_getElem _ _ hi]

theorem bwt_rotation_last (block : List Nat) (i : Nat) (hn : 0 < block.length)
    (hi : i < block.length) :
    (bwt_rotation block i).getD (block.length - 1) 0 =
      block.getD ((i + block.length - 1) % block.length) 0 := by
  rw [bwt_pred_eq block.length i hn hi]
  by_cases h : i = 0
  · subst h
    simp only [bwt_rotation, List.drop_zero, List.take_zero, List.append_nil]
    simp
  · rw [if_neg h]
    rw [bwt_rotation]
    rw [List.getD_eq_getElem?_getD, List.getElem?_append,
      if_neg (by simp [List.length_drop]; omega)]
    simp only [List.length_drop]
    have h2 : block.length - 1 - (block.length - i) = i - 1 := by omega
    rw [h2, List.getElem?_take, if_pos (by omega)]
    rw [List.getD_eq_getElem?_getD]

theorem bwt_rotation_pred (block : List Nat) (i : Nat) (hn : 0 < block.length)
    (hi : i < block.length) :
    bwt_rotation block ((i + block.length - 1) % block.length) =
      block.getD ((i + block.length - 1) % block.length) 0 ::
        (bwt_rotation block i).dropLast := by
  rw [bwt_pred_eq block.length i hn hi]
  by_cases h : i = 0
  · subst h
    rw [if_pos rfl]
    have h1 : block.drop (block.length - 1) =
        [block.getD (block.length - 1) 0] := by
      rw [List.drop_eq_getElem_cons (by omega : block.length - 1 < block.length)]
      have h2 : block.length - 1 + 1 = block.length := by omega
      rw [h2, List.drop_length, List.getD_eq_getElem _ _ (by omega)]
    simp only [bwt_rotation, List.drop_zero, List.take_zero, List.append_nil,
      h1, List.dropLast_eq_take]
    simp
  · rw [if_neg h]
    have hi1 : i - 1 < block.length := by omega
    have htne : block.take i ≠ [] := by
      apply List.ne_nil_of_length_pos
      rw [List.length_take]
      omega
    have h4 : (block.take i).dropLast = block.take (i - 1) := by
      rw [List.dropLast_eq_take, List.take_take, List.length_take]
      congr 1
      omega
    rw [bwt_rotation, bwt_rotation, List.drop_eq_getElem_cons hi1]
    have h2 : i - 1 + 1 = i := by omega
    rw [h2, List.dropLast_append_of_ne_nil _ htne, h4,
      List.getD_eq_getElem _ _ hi1]
    rfl

theorem bwt_rows_perm (block : List Nat) :
    (bwt_rows block).Perm (List.range block.length) :=
  List.perm_insertionSort _ _

theorem bwt_rows_length (block : List Nat) :
    (bwt_rows block).length = block.length := by
  rw [bwt_rows, List.length_insertionSort, List.length_range]

theorem bwt_rows_mem_lt (block : List Nat) (s : Nat) (h : s ∈ bwt_rows block) :
    s < block.length :=
  List.mem_range.mp ((bwt_rows_perm block).mem_iff.mp h)

theorem bwt_rows_sorted (block : List Nat) :
    (bwt_rows block).Pairwise (fun i j =>
      bwt_rotation block i < bwt_rotation block j ∨
        (bwt_rotation block i = bwt_rotation block j ∧ i ≤ j)) := by
  haveI h1 : IsTotal Nat (fun i j =>
      bwt_rotation block i < bwt_rotation block j ∨
        (bwt_rotation block i = bwt_rotation block j ∧ i ≤ j)) := by
    constructor
    intro a b
    rcases lt_trichotomy (bwt_rotation block a) (bwt_rotation block b) with
      h | h | h
    · exact Or.inl (Or.inl h)
    · rcases le_total a b with hab | hab
      · exact Or.inl (Or.inr ⟨h, hab⟩)
      · exact Or.inr (Or.inr ⟨h.symm, hab⟩)
    · exact Or.inr (Or.inl h)
  haveI h2 : IsTrans Nat (fun i j =>
      bwt_rotation block i < bwt_rotation block j ∨
        (bwt_rotation block i = bwt_rotation block j ∧ i ≤ j)) := by
    constructor
    intro a b c hab hbc
    rcases hab with hab | ⟨hab, hab2⟩
    · rcases hbc with hbc | ⟨hbc, _⟩
      · exact Or.inl (lt_trans hab hbc)
      · exact Or.inl (hbc ▸ hab)
    · rcases hbc with hbc | ⟨hbc, hbc2⟩
      · exact Or.inl (hab ▸ hbc)
      · exact Or.inr ⟨hab.trans hbc, le_trans hab2 hbc2⟩
  exact List.sorted_insertionSort _ _

theorem bwt_rows_getD_lt (block : List Nat) (k : Nat)
    (hk : k < block.length) : (bwt_rows block).getD k 0 < block.length := by
  have hk2 : k < (bwt_rows block).length := by rw [bwt_rows_length]; exact hk
  rw [List.getD_eq_getElem _ _ hk2]
  exact bwt_rows_mem_lt block _ (List.getElem_mem hk2)

theorem bwt_pred_perm (block : List Nat) (hn : 0 < block.length) :
    ((bwt_rows block).map
      (fun s => (s + block.length - 1) % block.length)).Perm
      (List.range block.length) := by
  refine ((bwt_rows_perm block).map _).trans ?_
  refine (List.perm_ext_iff_of_nodup ?_ (List.nodup_range _)).mpr ?_
  · refine List.Nodup.map_on ?_ (List.nodup_range _)
    intro x hx y hy hxy
    rw [List.mem_range] at hx hy
    rw [bwt_pred_eq _ _ hn hx, bwt_pred_eq _ _ hn hy] at hxy
    by_cases h1 : x = 0
    · by_cases h2 : y = 0
      · omega
      · rw [if_pos h1, if_neg h2] at hxy
        omega
    · by_cases h2 : y = 0
      · rw [if_neg h1, if_pos h2] at hxy
        omega
      · rw [if_neg h1, if_neg h2] at hxy
        omega
  · intro a
    simp only [List.mem_map, List.mem_range]
    constructor
    · rintro ⟨x, hx, rfl⟩
      exact Nat.mod_lt _ hn
    · intro ha
      refine ⟨(a + 1) % block.length, Nat.mod_lt _ hn, ?_⟩
      by_cases h : a + 1 = block.length
      · rw [h, Nat.mod_self, bwt_pred_eq _ _ hn hn, if_pos rfl]
        omega
      · have ha1 : a + 1 < block.length := by omega
        rw [Nat.mod_eq_of_lt ha1, bwt_pred_eq _ _ hn ha1,
          if_neg (by omega : ¬(a + 1 = 0))]
        omega

theorem bwt_pred_range_perm (n : Nat) (hn : 0 < n) :
    ((List.range n).map (fun s => (s + n - 1) % n)).Perm (List.range n) := by
  refine (List.perm_ext_iff_of_nodup ?_ (List.nodup_range _)).mpr ?_
  · refine List.Nodup.map_on ?_ (List.nodup_range _)
    intro x hx y hy hxy
    rw [List.mem_range] at hx hy
    rw [bwt_pred_eq _ _ hn hx, bwt_pred_eq _ _ hn hy] at hxy
    by_cases h1 : x = 0
    · by_cases h2 : y = 0
      · omega
      · rw [if_pos h1, if_neg h2] at hxy
        omega
    · by_cases h2 : y = 0
      · rw [if_neg h1, if_pos h2] at hxy
        omega
      · rw [if_neg h1, if_neg h2] at hxy
        omega
  · intro a
    simp only [List.mem_map, List.mem_range]
    constructor
    · rintro ⟨x, hx, rfl⟩
      exact Nat.mod_lt _ hn
    · intro ha
      refine ⟨(a + 1) % n, Nat.mod_lt _ hn, ?_⟩
      by_cases h : a + 1 = n
      · rw [h, Nat.mod_self, bwt_pred_eq _ _ hn hn, if_pos rfl]
        omega
      · have ha1 : a + 1 < n := by omega
        rw [Nat.mod_eq_of_lt ha1, bwt_pred_eq _ _ hn ha1,
          if_neg (by omega : ¬(a + 1 = 0))]
        omega

theorem cons_lt_cases (a b : Nat) (A B : List Nat) (h : a :: A < b :: B) :
    a < b ∨ (a = b ∧ A < B) := by
  have h2 : List.Lex (· < ·) (a :: A) (b :: B) := h
  cases h2 with
  | cons h3 => exact Or.inr ⟨rfl, h3⟩
  | rel h3 => exact Or.inl h3

theorem cons_le_cases (a b : Nat) (A B : List Nat) (h : a :: A ≤ b :: B) :
    a < b ∨ (a = b ∧ A ≤ B) := by
  rcases lt_or_eq_of_le h with h2 | h2
  · rcases cons_lt_cases a b A B h2 with h3 | ⟨h3, h4⟩
    · exact Or.inl h3
    · exact Or.inr ⟨h3, le_of_lt h4⟩
  · injection h2 with h3 h4
    exact Or.inr ⟨h3, le_of_eq h4⟩

theorem cons_le_cons_of_le (a : Nat) (A B : List Nat) (h : A ≤ B) :
    a :: A ≤ a :: B := by
  rcases lt_or_eq_of_le h with h2 | h2
  · exact le_of_lt (List.Lex.cons h2)
  · rw [h2]

theorem bwt_lf_core (block : List Nat) (n : Nat) (rows : List Nat)
    (hn : 0 < n) (hblen : block.length = n)
    (hperm : rows.Perm (List.range n))
    (hsorted : rows.Pairwise (fun i j =>
      bwt_rotation block i < bwt_rotation block j ∨
        (bwt_rotation block i = bwt_rotation block j ∧ i ≤ j)))
    (k : Nat) (hk : k < n) :
    bwt_lf (rows.map (fun s => block.getD ((s + n - 1) % n) 0)) k < n ∧
    bwt_rotation block (rows.getD
      (bwt_lf (rows.map (fun s => block.getD ((s + n - 1) % n) 0)) k) 0) =
      bwt_rotation block ((rows.getD k 0 + n - 1) % n) := by
  have hrl : rows.length = n := by rw [hperm.length_eq, List.length_range]
  have hmemlt : ∀ s ∈ rows, s < n := fun s hs =>
    List.mem_range.mp (hperm.mem_iff.mp hs)
  have hk2 : k < rows.length := by omega
  have hrotlen : ∀ i : Nat, (bwt_rotation block i).length = n := by
    intro i
    rw [bwt_rotation_length, hblen]
  have hG : ∀ s : Nat, s < n → bwt_rotation block ((s + n - 1) % n) =
      block.getD ((s + n - 1) % n) 0 :: (bwt_rotation block s).dropLast := by
    intro s hs
    have h1 := bwt_rotation_pred block s (by omega) (by omega)
    rwa [hblen] at h1
  set sk := rows.getD k 0 with hsk_def
  have hskE : sk = rows[k] := List.getD_eq_getElem _ _ hk2
  have hsklt : sk < n := by
    rw [hskE]
    exact hmemlt _ (List.getElem_mem hk2)
  set csk := block.getD ((sk + n - 1) % n) 0 with hcsk_def
  set T := bwt_rotation block ((sk + n - 1) % n) with hT_def
  set W := (bwt_rotation block sk).dropLast with hW_def
  have hTshape : T = csk :: W := by
    rw [hT_def, hcsk_def, hW_def]
    exact hG sk hsklt
  have hLk : (rows.map (fun s => block.getD ((s + n - 1) % n) 0)).getD k 0 =
      csk := by
    rw [List.getD_eq_getElem _ _ (by rw [List.length_map]; omega),
      List.getElem_map, hcsk_def, hskE]
  have hm : bwt_lf (rows.map (fun s => block.getD ((s + n - 1) % n) 0)) k =
      rows.countP (fun s => decide (block.getD ((s + n - 1) % n) 0 < csk)) +
      (rows.take k).countP
        (fun s => decide (block.getD ((s + n - 1) % n) 0 = csk)) := by
    rw [bwt_lf, hLk, bwt_cumsum_countP, List.countP_map,
      List.count_eq_countP, ← List.map_take, List.countP_map]
    congr 1
  have hSLpw : (rows.map (bwt_rotation block)).Pairwise (· ≤ ·) := by
    refine List.Pairwise.map _ ?_ hsorted
    intro a b hab
    rcases hab with h | ⟨h, _⟩
    · exact le_of_lt h
    · exact le_of_eq h
  have hPL : (rows.map (fun s => bwt_rotation block ((s + n - 1) % n))).Perm
      (rows.map (bwt_rotation block)) := by
    have h1 : rows.map (fun s => bwt_rotation block ((s + n - 1) % n)) =
        (rows.map (fun s => (s + n - 1) % n)).map (bwt_rotation block) := by
      rw [List.map_map]
      rfl
    rw [h1]
    refine (((hperm.map _).trans (bwt_pred_range_perm n hn)).map
      (bwt_rotation block)).trans ?_
    exact (hperm.map _).symm
  have hdisj : ∀ s ∈ rows,
      ¬((decide (block.getD ((s + n - 1) % n) 0 < csk)) = true ∧
        ((decide (block.getD ((s + n - 1) % n) 0 = csk) &&
          decide (bwt_rotation block ((s + n - 1) % n) < T)) = true)) := by
    intro s _
    simp only [Bool.and_eq_true, decide_eq_true_eq]
    intro ⟨h1, h2, _⟩
    omega
  have hdisj2 : ∀ s ∈ rows,
      ¬((decide (block.getD ((s + n - 1) % n) 0 < csk)) = true ∧
        ((decide (block.getD ((s + n - 1) % n) 0 = csk) &&
          decide (bwt_rotation block ((s + n - 1) % n) ≤ T)) = true)) := by
    intro s _
    simp only [Bool.and_eq_true, decide_eq_true_eq]
    intro ⟨h1, h2, _⟩
    omega
  have haT : (rows.map (bwt_rotation block)).countP (fun u => decide (u < T)) =
      rows.countP (fun s => decide (block.getD ((s + n - 1) % n) 0 < csk)) +
      rows.countP (fun s => decide (block.getD ((s + n - 1) % n) 0 = csk) &&
        decide (bwt_rotation block ((s + n - 1) % n) < T)) := by
    rw [← hPL.countP_eq, List.countP_map]
    rw [← countP_or_disjoint _ _ rows hdisj]
    refine List.countP_congr ?_
    intro s hs
    simp only [Function.comp, Bool.or_eq_true, Bool.and_eq_true,
      decide_eq_true_eq]
    rw [hG s (hmemlt s hs), hTshape]
    constructor
    · intro hlt
      rcases cons_lt_cases _ _ _ _ hlt with hl | ⟨he, _⟩
      · exact Or.inl hl
      · exact Or.inr ⟨he, hlt⟩
    · rintro (hl | ⟨he, hlt⟩)
      · exact List.Lex.rel hl
      · exact hlt
  have hbT : (rows.map (bwt_rotation block)).countP (fun u => decide (u ≤ T)) =
      rows.countP (fun s => decide (block.getD ((s + n - 1) % n) 0 < csk)) +
      rows.countP (fun s => decide (block.getD ((s + n - 1) % n) 0 = csk) &&
        decide (bwt_rotation block ((s + n - 1) % n) ≤ T)) := by
    rw [← hPL.countP_eq, List.countP_map]
    rw [← countP_or_disjoint _ _ rows hdisj2]
    refine List.countP_congr ?_
    intro s hs
    simp only [Function.comp, Bool.or_eq_true, Bool.and_eq_true,
      decide_eq_true_eq]
    rw [hG s (hmemlt s hs), hTshape]
    constructor
    · intro hle
      rcases cons_le_cases _ _ _ _ hle with hl | ⟨he, _⟩
      · exact Or.inl hl
      · exact Or.inr ⟨he, hle⟩
    · rintro (hl | ⟨he, hle⟩)
      · exact le_of_lt (List.Lex.rel hl)
      · exact hle
  have hpwE := List.pairwise_iff_getElem.mp hsorted
  have hdrop0 : (rows.drop k).countP
      (fun s => decide (block.getD ((s + n - 1) % n) 0 = csk) &&
        decide (bwt_rotation block ((s + n - 1) % n) < T)) = 0 := by
    rw [List.countP_eq_zero]
    intro s hs
    have hslt : s < n := hmemlt s (List.mem_of_mem_drop hs)
    obtain ⟨j, hj, hsj⟩ := List.mem_iff_getElem.mp hs
    rw [List.length_drop] at hj
    have hkj : k + j < rows.length := by omega
    rw [List.getElem_drop] at hsj
    have hle : bwt_rotation block sk ≤ bwt_rotation block s := by
      rcases Nat.eq_zero_or_pos j with hj0 | hjpos
      · subst hj0
        have hss : s = sk := by
          rw [hskE, ← hsj]
          norm_num
        rw [hss]
      · have hrel := hpwE k (k + j) hk2 hkj (by omega)
        rw [hsj] at hrel
        rw [← hskE] at hrel
        rcases hrel with h | ⟨h, _⟩
        · exact le_of_lt h
        · exact le_of_eq h
    simp only [Bool.and_eq_true, decide_eq_true_eq, not_and]
    intro he hlt
    have hWle : W ≤ (bwt_rotation block s).dropLast := by
      rw [hW_def]
      exact lex_dropLast_le _ _ (by rw [hrotlen, hrotlen]) hle
    have hTle : T ≤ bwt_rotation block ((s + n - 1) % n) := by
      rw [hTshape, hG s hslt, he]
      exact cons_le_cons_of_le _ _ _ hWle
    exact absurd hlt (not_lt_of_le hTle)
  have htake1 : rows.take (k + 1) = rows.take k ++ [rows[k]] := by
    rw [List.take_succ, List.getElem?_eq_getElem hk2]
    rfl
  have htkcong : (rows.take (k + 1)).countP
      (fun s => decide (block.getD ((s + n - 1) % n) 0 = csk) &&
        decide (bwt_rotation block ((s + n - 1) % n) ≤ T)) =
      (rows.take (k + 1)).countP
        (fun s => decide (block.getD ((s + n - 1) % n) 0 = csk)) := by
    refine List.countP_congr ?_
    intro s hs
    have hslt : s < n := hmemlt s (List.mem_of_mem_take hs)
    obtain ⟨j, hj, hsj⟩ := List.mem_iff_getElem.mp hs
    rw [List.length_take] at hj
    have hjr : j < rows.length := by omega
    rw [List.getElem_take] at hsj
    have hle : bwt_rotation block s ≤ bwt_rotation block sk := by
      rcases Nat.lt_or_ge j k with hjk | hjk
      · have hrel := hpwE j k hjr hk2 hjk
        rw [hsj, ← hskE] at hrel
        rcases hrel with h | ⟨h, _⟩
        · exact le_of_lt h
        · exact le_of_eq h
      · have hjek : j = k := by omega
        subst hjek
        have hss : s = sk := by rw [hskE, ← hsj]
        rw [hss]
    simp only [Bool.and_eq_true, decide_eq_true_eq]
    constructor
    · intro ⟨h1, _⟩
      exact h1
    · intro h1
      refine ⟨h1, ?_⟩
      have hWle : (bwt_rotation block s).dropLast ≤ W := by
        rw [hW_def]
        exact lex_dropLast_le _ _ (by rw [hrotlen, hrotlen]) hle
      rw [hG s hslt, hTshape, h1]
      exact cons_le_cons_of_le _ _ _ hWle
  have htkval : (rows.take (k + 1)).countP
      (fun s => decide (block.getD ((s + n - 1) % n) 0 = csk)) =
      (rows.take k).countP
        (fun s => decide (block.getD ((s + n - 1) % n) 0 = csk)) + 1 := by
    rw [htake1, List.countP_append]
    have h1 : (decide (block.getD ((rows[k] + n - 1) % n) 0 = csk)) = true := by
      rw [← hskE, ← hcsk_def]
      exact decide_eq_true rfl
    have h2 : List.countP
        (fun s => decide (block.getD ((s + n - 1) % n) 0 = csk)) [rows[k]] = 1 := by
      simp only [List.countP_cons, List.countP_nil, h1, if_true]
    rw [h2]
  have haTle : (rows.map (bwt_rotation block)).countP
      (fun u => decide (u < T)) ≤
      bwt_lf (rows.map (fun s => block.getD ((s + n - 1) % n) 0)) k := by
    rw [haT, hm]
    have hsplit : rows.countP
        (fun s => decide (block.getD ((s + n - 1) % n) 0 = csk) &&
          decide (bwt_rotation block ((s + n - 1) % n) < T)) =
        (rows.take k).countP
          (fun s => decide (block.getD ((s + n - 1) % n) 0 = csk) &&
            decide (bwt_rotation block ((s + n - 1) % n) < T)) +
        (rows.drop k).countP
          (fun s => decide (block.getD ((s + n - 1) % n) 0 = csk) &&
            decide (bwt_rotation block ((s + n - 1) % n) < T)) := by
      rw [← List.countP_append, List.take_append_drop]
    rw [hsplit, hdrop0]
    have hmono : (rows.take k).countP
        (fun s => decide (block.getD ((s + n - 1) % n) 0 = csk) &&
          decide (bwt_rotation block ((s + n - 1) % n) < T)) ≤
        (rows.take k).countP
          (fun s => decide (block.getD ((s + n - 1) % n) 0 = csk)) := by
      refine List.countP_mono_left ?_
      intro x _ hx
      rw [Bool.and_eq_true] at hx
      exact hx.1
    omega
  have hbTge : bwt_lf (rows.map (fun s => block.getD ((s + n - 1) % n) 0)) k <
      (rows.map (bwt_rotation block)).countP (fun u => decide (u ≤ T)) := by
    rw [hbT, hm]
    have hsplit : rows.countP
        (fun s => decide (block.getD ((s + n - 1) % n) 0 = csk) &&
          decide (bwt_rotation block ((s + n - 1) % n) ≤ T)) =
        (rows.take (k + 1)).countP
          (fun s => decide (block.getD ((s + n - 1) % n) 0 = csk) &&
            decide (bwt_rotation block ((s + n - 1) % n) ≤ T)) +
        (rows.drop (k + 1)).countP
          (fun s => decide (block.getD ((s + n - 1) % n) 0 = csk) &&
            decide (bwt_rotation block ((s + n - 1) % n) ≤ T)) := by
      rw [← List.countP_append, List.take_append_drop]
    rw [hsplit, htkcong, htkval]
    omega
  have hSLlen : (rows.map (bwt_rotation block)).length = n := by
    rw [List.length_map]
    omega
  have hmn : bwt_lf (rows.map (fun s => block.getD ((s + n - 1) % n) 0)) k <
      n := by
    have h1 := List.countP_le_length (fun u => decide (u ≤ T))
      (l := rows.map (bwt_rotation block))
    omega
  refine ⟨hmn, ?_⟩
  have hwin := sorted_window T (rows.map (bwt_rotation block)) hSLpw
    (bwt_lf (rows.map (fun s => block.getD ((s + n - 1) % n) 0)) k)
    haTle hbTge
  have hmrows : bwt_lf (rows.map (fun s => block.getD ((s + n - 1) % n) 0)) k <
      rows.length := by omega
  rw [List.getD_eq_getElem _ _ (by rw [List.length_map]; exact hmrows),
    List.getElem_map] at hwin
  rw [List.getD_eq_getElem _ _ hmrows]
  exact hwin

theorem bwt_walk_core (block : List Nat) (n : Nat) (rows : List Nat)
    (hn : 0 < n) (hblen : block.length = n)
    (hperm : rows.Perm (List.range n))
    (hsorted : rows.Pairwise (fun i j =>
      bwt_rotation block i < bwt_rotation block j ∨
        (bwt_rotation block i = bwt_rotation block j ∧ i ≤ j))) :
    ∀ f : Nat, f ≤ n → ∀ idx : Nat, idx < n →
    bwt_rotation block (rows.getD idx 0) = bwt_rotation block (f % n) →
    bwt_walk (rows.map (fun s => block.getD ((s + n - 1) % n) 0)) f idx =
      (block.take f).reverse := by
  intro f
  induction f with
  | zero => intro _ idx _ _; rfl
  | succ f ih =>
    intro hf idx hidx hval
    have hrl : rows.length = n := by rw [hperm.length_eq, List.length_range]
    have hmemlt : ∀ s ∈ rows, s < n := fun s hs =>
      List.mem_range.mp (hperm.mem_iff.mp hs)
    have hidx2 : idx < rows.length := by omega
    have hidxlt : rows.getD idx 0 < n := by
      rw [List.getD_eq_getElem _ _ hidx2]
      exact hmemlt _ (List.getElem_mem hidx2)
    have hlast : ∀ s : Nat, s < n →
        block.getD ((s + n - 1) % n) 0 =
          (bwt_rotation block s).getD (n - 1) 0 := by
      intro s hs
      have h1 := bwt_rotation_last block s (by omega) (by omega)
      rw [hblen] at h1
      exact h1.symm
    have hG : ∀ s : Nat, s < n → bwt_rotation block ((s + n - 1) % n) =
        block.getD ((s + n - 1) % n) 0 :: (bwt_rotation block s).dropLast := by
      intro s hs
      have h1 := bwt_rotation_pred block s (by omega) (by omega)
      rwa [hblen] at h1
    have hf1n : (f + 1) % n < n := Nat.mod_lt _ hn
    have harith : (((f + 1) % n) + n - 1) % n = f := by
      by_cases hfn : f + 1 = n
      · rw [hfn, Nat.mod_self]
        simp only [Nat.zero_add]
        rw [Nat.mod_eq_of_lt (show n - 1 < n by omega)]
        omega
      · rw [Nat.mod_eq_of_lt (show f + 1 < n by omega)]
        have h2 : f + 1 + n - 1 = f + n := by omega
        rw [h2, Nat.add_mod_right]
        exact Nat.mod_eq_of_lt (by omega)
    have hemit : (rows.map
        (fun s => block.getD ((s + n - 1) % n) 0)).getD idx 0 =
        block.getD f 0 := by
      rw [List.getD_eq_getElem _ _ (by rw [List.length_map]; omega),
        List.getElem_map]
      have hg : rows[idx] = rows.getD idx 0 :=
        (List.getD_eq_getElem _ _ hidx2).symm
      rw [hg, hlast _ hidxlt, hval, ← hlast _ hf1n, harith]
    obtain ⟨hlf1, hlf2⟩ :=
      bwt_lf_core block n rows hn hblen hperm hsorted idx hidx
    have hnext : bwt_rotation block
        (rows.getD (bwt_lf (rows.map
          (fun s => block.getD ((s + n - 1) % n) 0)) idx) 0) =
        bwt_rotation block (f % n) := by
      rw [hlf2]
      have hfn2 : f % n = f := Nat.mod_eq_of_lt (by omega)
      rw [hfn2, ← harith, hG _ hidxlt, hG _ hf1n]
      rw [hlast _ hidxlt, hlast _ hf1n, hval]
    have hfblock : f < block.length := by omega
    rw [bwt_walk, hemit, ih (by omega) _ hlf1 hnext]
    rw [List.take_succ, List.getElem?_eq_getElem hfblock,
      List.getD_eq_getElem _ _ hfblock, List.reverse_append]
    rfl

theorem bwt_block_round (block : List Nat) :
    bwt_decode_block (bwt_encode_block block).1 (bwt_encode_block block).2 =
      block := by
  by_cases hle : block.length ≤ 1
  · rw [bwt_encode_block, if_pos hle, bwt_decode_block]
    rw [if_pos hle]
  · have henc : bwt_encode_block block =
        ((bwt_rows block).map (fun s =>
          block.getD ((s + block.length - 1) % block.length) 0),
         List.indexOf 0 (bwt_rows block)) := by
      rw [bwt_encode_block, if_neg hle]
    rw [henc]
    have hLlen : ((bwt_rows block).map (fun s =>
        block.getD ((s + block.length - 1) % block.length) 0)).length =
        block.length := by
      rw [List.length_map, bwt_rows_length]
    rw [bwt_decode_block]
    rw [if_neg (by rw [hLlen]; omega)]
    have h0mem : 0 ∈ bwt_rows block :=
      (bwt_rows_perm block).mem_iff.mpr (List.mem_range.mpr (by omega))
    have hoi2 : List.indexOf 0 (bwt_rows block) < (bwt_rows block).length :=
      List.indexOf_lt_length.mpr h0mem
    have hoi : List.indexOf 0 (bwt_rows block) < block.length := by
      rw [← bwt_rows_length block]
      exact hoi2
    have hval : (bwt_rows block).getD (List.indexOf 0 (bwt_rows block)) 0 =
        0 := by
      rw [List.getD_eq_getElem _ _ hoi2]
      exact List.getElem_indexOf hoi2
    rw [hLlen]
    rw [bwt_walk_core block block.length (bwt_rows block) (by omega) rfl
      (bwt_rows_perm block) (bwt_rows_sorted block) block.length le_rfl
      (List.indexOf 0 (bwt_rows block)) hoi
      (by rw [hval, Nat.mod_self])]
    rw [List.take_length, List.reverse_reverse]

theorem bwt_encode_block_len (block : List Nat) :
    (bwt_encode_block block).1.length = block.length := by
  rw [bwt_encode_block]
  by_cases h : block.length ≤ 1
  · rw [if_pos h]
  · rw [if_neg h]
    simp [bwt_rows_length]

theorem bwt_encode_block_idx (block : List Nat) :
    (bwt_encode_block block).2 ≤ block.length := by
  rw [bwt_encode_block]
  by_cases h : block.length ≤ 1
  · rw [if_pos h]
    exact Nat.zero_le _
  · rw [if_neg h]
    have h2 : List.indexOf 0 (bwt_rows block) ≤ (bwt_rows block).length :=
      List.indexOf_le_length
    rw [bwt_rows_length] at h2
    simpa using h2

theorem pack_u32_ok (v : Nat) (hv : v < 2 ^ 32) :
    pack_u32 v = .ok [v % 256, v / 256 % 256, v / 65536 % 256,
      v / 16777216 % 256] := by
  rw [pack_u32, if_pos hv]

theorem unpack_pack (v : Nat) (hv : v < 2 ^ 32) :
    unpack_u32 (v % 256) (v / 256 % 256) (v / 65536 % 256)
      (v / 16777216 % 256) = v := by
  rw [unpack_u32]
  omega

theorem bwt_transform_go_step (data : List Nat) (bs k start : Nat)
    (b rest : List Nat) (hb : b = (data.drop start).take bs)
    (hL : (bwt_encode_block b).1.length < 2 ^ 32)
    (hI : (bwt_encode_block b).2 < 2 ^ 32)
    (hrest : bwt_transform_go data bs k (start + bs) = .ok rest) :
    bwt_transform_go data bs (k + 1) start = .ok
      ((bwt_encode_block b).1.length % 256 ::
       (bwt_encode_block b).1.length / 256 % 256 ::
       (bwt_encode_block b).1.length / 65536 % 256 ::
       (bwt_encode_block b).1.length / 16777216 % 256 ::
       (bwt_encode_block b).2 % 256 ::
       (bwt_encode_block b).2 / 256 % 256 ::
       (bwt_encode_block b).2 / 65536 % 256 ::
       (bwt_encode_block b).2 / 16777216 % 256 ::
       ((bwt_encode_block b).1 ++ rest)) := by
  subst hb
  simp only [bwt_transform_go]
  rw [pack_u32_ok _ hL, ok_bind, pack_u32_ok _ hI, ok_bind, hrest, ok_bind]
  rfl

theorem bwt_inverse_go_step (k a0 a1 a2 a3 b0 b1 b2 b3 : Nat)
    (body tail : List Nat) (hlen : body.length = unpack_u32 a0 a1 a2 a3) :
    bwt_inverse_go (k + 1)
        (a0 :: a1 :: a2 :: a3 :: b0 :: b1 :: b2 :: b3 :: (body ++ tail)) =
      bwt_decode_block body (unpack_u32 b0 b1 b2 b3) ++
        bwt_inverse_go k tail := by
  have h8 : ¬ ((a0 :: a1 :: a2 :: a3 :: b0 :: b1 :: b2 :: b3 ::
      (body ++ tail)).length < 8) := by
    simp only [List.length_cons]
    omega
  simp only [bwt_inverse_go]
  rw [if_neg h8]
  have hd : (a0 :: a1 :: a2 :: a3 :: b0 :: b1 :: b2 :: b3 ::
      (body ++ tail)).drop 8 = body ++ tail := rfl
  have hga0 : (a0 :: a1 :: a2 :: a3 :: b0 :: b1 :: b2 :: b3 ::
      (body ++ tail)).getD 0 0 = a0 := rfl
  have hga1 : (a0 :: a1 :: a2 :: a3 :: b0 :: b1 :: b2 :: b3 ::
      (body ++ tail)).getD 1 0 = a1 := rfl
  have hga2 : (a0 :: a1 :: a2 :: a3 :: b0 :: b1 :: b2 :: b3 ::
      (body ++ tail)).getD 2 0 = a2 := rfl
  have hga3 : (a0 :: a1 :: a2 :: a3 :: b0 :: b1 :: b2 :: b3 ::
      (body ++ tail)).getD 3 0 = a3 := rfl
  have hgb0 : (a0 :: a1 :: a2 :: a3 :: b0 :: b1 :: b2 :: b3 ::
      (body ++ tail)).getD 4 0 = b0 := rfl
  have hgb1 : (a0 :: a1 :: a2 :: a3 :: b0 :: b1 :: b2 :: b3 ::
      (body ++ tail)).getD 5 0 = b1 := rfl
  have hgb2 : (a0 :: a1 :: a2 :: a3 :: b0 :: b1 :: b2 :: b3 ::
      (body ++ tail)).getD 6 0 = b2 := rfl
  have hgb3 : (a0 :: a1 :: a2 :: a3 :: b0 :: b1 :: b2 :: b3 ::
      (body ++ tail)).getD 7 0 = b3 := rfl
  rw [hd, hga0, hga1, hga2, hga3, hgb0, hgb1, hgb2, hgb3, ← hlen]
  rw [if_neg (by rw [List.length_append]; omega)]
  rw [List.take_left body tail, List.drop_left body tail]

theorem bwt_go_round (data : List Nat) (bs : Nat) (hbs : 0 < bs)
    (hdlen : data.length < 2 ^ 32) :
    ∀ k start : Nat, data.length ≤ start + k * bs →
      (∀ j : Nat, j < k → start + j * bs < data.length) →
      ∃ body : List Nat, bwt_transform_go data bs k start = .ok body ∧
        bwt_inverse_go k body = data.drop start := by
  intro k
  induction k with
  | zero =>
    intro start hle _
    refine ⟨[], rfl, ?_⟩
    show ([] : List Nat) = data.drop start
    exact (List.drop_eq_nil_of_le (by omega)).symm
  | succ k ih =>
    intro start hle hin
    have hstart : start < data.length := by
      have h0 := hin 0 (Nat.succ_pos k)
      omega
    have hblen2 : ((data.drop start).take bs).length ≤ data.length := by
      rw [List.length_take, List.length_drop]
      omega
    have hL : (bwt_encode_block ((data.drop start).take bs)).1.length <
        2 ^ 32 := by
      rw [bwt_encode_block_len]
      omega
    have hI : (bwt_encode_block ((data.drop start).take bs)).2 < 2 ^ 32 := by
      have h2 := bwt_encode_block_idx ((data.drop start).take bs)
      omega
    have hsm : (k + 1) * bs = k * bs + bs := Nat.succ_mul k bs
    obtain ⟨rest, hrest, hinv⟩ := ih (start + bs) (by omega)
      (fun j hj => by
        have h3 := hin (j + 1) (by omega)
        have h4 : (j + 1) * bs = j * bs + bs := Nat.succ_mul j bs
        omega)
    have hstep := bwt_transform_go_step data bs k start
      ((data.drop start).take bs) rest rfl hL hI hrest
    refine ⟨_, hstep, ?_⟩
    rw [bwt_inverse_go_step k _ _ _ _ _ _ _ _
      (bwt_encode_block ((data.drop start).take bs)).1 rest
      (by rw [unpack_pack _ hL])]
    rw [unpack_pack _ hI, bwt_block_round ((data.drop start).take bs), hinv]
    rw [← List.drop_drop]
    exact List.take_append_drop bs (data.drop start)

/-- C5: for every byte string and every positive block size (with the data
length inside the unsigned 32 bit range of the struct headers),
bwt_transform succeeds and bwt_inverse recovers the exact input, including
empty data, data shorter than one block, and data spanning several blocks
of unequal length. -/
theorem C5_bwt_round_trip (data : List Nat) (block_size : Nat)
    (hbs : 0 < block_size) (hlen : data.length < 2 ^ 32) :
    ∃ bytes : List Nat, bwt_transform data block_size = .ok bytes ∧
      bwt_inverse bytes = data := by
  by_cases hde : data = []
  · subst hde
    exact ⟨[0, 0, 0, 0], rfl, rfl⟩
  · have hdl : 0 < data.length := List.length_pos.mpr hde
    have hbs0 : ¬ (block_size = 0) := by omega
    set nb := (data.length + block_size - 1) / block_size with hnb
    have hnbq : nb = (data.length - 1) / block_size + 1 := by
      rw [hnb]
      have h1 : data.length + block_size - 1 =
          (data.length - 1) + block_size := by omega
      rw [h1, Nat.add_div_right _ hbs]
    have hQle : (data.length - 1) / block_size ≤ data.length - 1 :=
      Nat.div_le_self _ _
    have hnblt : nb < 2 ^ 32 := by
      rw [hnbq]
      revert hQle
      generalize (data.length - 1) / block_size = Q
      intro hQle
      omega
    have hnb0 : ¬ (nb = 0) := by
      rw [hnbq]
      exact Nat.succ_ne_zero _
    have hlt : data.length - 1 <
        (data.length - 1) / block_size * block_size + block_size :=
      Nat.lt_div_mul_add hbs
    have hceil : data.length ≤ 0 + nb * block_size := by
      rw [Nat.zero_add, hnbq, Nat.succ_mul]
      revert hlt
      generalize (data.length - 1) / block_size * block_size = X
      intro hlt
      omega
    have hinb : ∀ j : Nat, j < nb → 0 + j * block_size < data.length := by
      intro j hj
      have hjQ : j ≤ (data.length - 1) / block_size := by
        rw [hnbq] at hj
        exact Nat.lt_succ_iff.mp hj
      have h2 : j * block_size ≤
          (data.length - 1) / block_size * block_size :=
        Nat.mul_le_mul_right _ hjQ
      have h3 : (data.length - 1) / block_size * block_size ≤
          data.length - 1 := Nat.div_mul_le_self _ _
      rw [Nat.zero_add]
      exact Nat.lt_of_le_of_lt (le_trans h2 h3) (by omega)
    obtain ⟨body, hbody, hbodyinv⟩ :=
      bwt_go_round data block_size hbs hlen nb 0 hceil hinb
    have htr : bwt_transform data block_size = .ok
        (nb % 256 :: nb / 256 % 256 :: nb / 65536 % 256 ::
          nb / 16777216 % 256 :: body) := by
      simp only [bwt_transform]
      rw [if_neg hde, if_neg hbs0, ← hnb]
      rw [pack_u32_ok nb hnblt, ok_bind, hbody, ok_bind]
      rfl
    refine ⟨_, htr, ?_⟩
    simp only [bwt_inverse]
    rw [if_neg (show ¬ ((nb % 256 :: nb / 256 % 256 :: nb / 65536 % 256 ::
      nb / 16777216 % 256 :: body).length < 4) by
        simp only [List.length_cons]; omega)]
    have hg0 : (nb % 256 :: nb / 256 % 256 :: nb / 65536 % 256 ::
        nb / 16777216 % 256 :: body).getD 0 0 = nb % 256 := rfl
    have hg1 : (nb % 256 :: nb / 256 % 256 :: nb / 65536 % 256 ::
        nb / 16777216 % 256 :: body).getD 1 0 = nb / 256 % 256 := rfl
    have hg2 : (nb % 256 :: nb / 256 % 256 :: nb / 65536 % 256 ::
        nb / 16777216 % 256 :: body).getD 2 0 = nb / 65536 % 256 := rfl
    have hg3 : (nb % 256 :: nb / 256 % 256 :: nb / 65536 % 256 ::
        nb / 16777216 % 256 :: body).getD 3 0 = nb / 16777216 % 256 := rfl
    rw [hg0, hg1, hg2, hg3, unpack_pack nb hnblt, if_neg hnb0]
    have hdrop : (nb % 256 :: nb / 256 % 256 :: nb / 65536 % 256 ::
        nb / 16777216 % 256 :: body).drop 4 = body := rfl
    rw [hdrop, hbodyinv, List.drop_zero]

theorem C5_bwt_round_trip_witness :
    0 < 4 ∧ ([98, 97, 110, 97, 110, 97] : List Nat).length < 2 ^ 32 ∧
      ∃ bytes : List Nat,
        bwt_transform [98, 97, 110, 97, 110, 97] 4 = .ok bytes ∧
          bwt_inverse bytes = [98, 97, 110, 97, 110, 97] :=
  ⟨by decide, by decide,
    C5_bwt_round_trip [98, 97, 110, 97, 110, 97] 4 (by decide) (by decide)⟩
